import Mathlib

/-!
Verification of the grid/automaton component of the AdventOfCode-Solvings
repository against its design specification.

The development shallowly embeds three Rust sources:
* `src_2020/rust/src/bin/day-11.rs` (seat automaton: `Tile`, `Map`),
* `src_2020/rust/src/bin/day-17.rs` (N-dimensional life: `Cube`),
* `src_2023/rust/src/days/day14.rs` (rock-sliding platform: `StonePulleyGrid`).

Machine integers (`i64`, `usize`) are modelled as `Int`/`Nat`; none of the
verified code paths can overflow 64 bits on the inputs quantified over.
Fallible operations are modelled with `Option`.
-/

namespace Day11

/-- `Vec2D` from day-11.rs: a pair of `i64` coordinates. -/
structure Vec2D where
  x : Int
  y : Int
deriving DecidableEq

/-- `Tile` from day-11.rs. `Floor` is the `#[default]` variant. -/
inductive Tile where
  | Floor
  | EmptySeat
  | OccupiedSeat
deriving DecidableEq

instance : Inhabited Tile := ⟨Tile.Floor⟩

/-- `neighbors.filter(|t| matches!(t, Self::OccupiedSeat)).count()` in
`Tile::next`. -/
def countOccupied (ns : List Tile) : Nat :=
  (ns.filter (fun t => t = Tile.OccupiedSeat)).length

/-- `Tile::next` from day-11.rs: the per-cell transition of the seat
automaton, with the occupied-neighbor limit defaulting to 3. -/
def Tile.next (t : Tile) (neighbors : List Tile) (neighborLimit : Option Nat) : Tile :=
  let occupiedLimit := neighborLimit.getD 3
  match t with
  | Tile.Floor => Tile.Floor
  | Tile.EmptySeat =>
      match countOccupied neighbors with
      | 0 => Tile.OccupiedSeat
      | _ + 1 => Tile.EmptySeat
  | Tile.OccupiedSeat =>
      -- `(0..=occupied_limit).contains(&count)`; the count is a `usize`,
      -- so only the upper bound is a real constraint
      if countOccupied neighbors ≤ occupiedLimit then Tile.OccupiedSeat
      else Tile.EmptySeat

/-- `Map<T>` from day-11.rs: a rectangular grid stored row-major in a flat
vector.  The `im::Vector` is modelled as a `List`. -/
structure Map (T : Type) where
  size : Vec2D
  tiles : List T
deriving DecidableEq

/-- `Map::new`: a grid of the given size filled with the default value. -/
def Map.new (T : Type) [Inhabited T] (size : Vec2D) : Map T :=
  { size := size, tiles := List.replicate (size.x * size.y).toNat default }

/-- The in-bounds test used by `Map::index`:
`(0..self.size.x).contains(&point.x) && (0..self.size.y).contains(&point.y)`. -/
def Map.inBounds (m : Map T) (point : Vec2D) : Prop :=
  0 ≤ point.x ∧ point.x < m.size.x ∧ 0 ≤ point.y ∧ point.y < m.size.y

instance (m : Map T) (p : Vec2D) : Decidable (m.inBounds p) := by
  unfold Map.inBounds; infer_instance

/-- `Map::index`: row-major linearisation of a 2D coordinate, `None` out of
bounds.  The `try_into().unwrap()` always succeeds in bounds because the
sum is nonnegative there; it is modelled with `Int.toNat`. -/
def Map.index (m : Map T) (point : Vec2D) : Option Nat :=
  if m.inBounds point then some (point.x + point.y * m.size.x).toNat else none

/-- `Map::get`: the value at a 2D position, `None` out of bounds. -/
def Map.get (m : Map T) (point : Vec2D) : Option T :=
  (m.index point).bind fun idx => m.tiles.get? idx

/-- `Map::set`: write the tile if the position is in bounds, otherwise
leave the map untouched. -/
def Map.set (m : Map T) (point : Vec2D) (tile : T) : Map T :=
  match m.index point with
  | some idx => { m with tiles := m.tiles.set idx tile }
  | none => m

/-- Well-formedness of a `Map`: the flat vector has exactly one slot per
in-bounds coordinate.  `Map::new` establishes it and all mutations keep it. -/
def Map.WF (m : Map T) : Prop :=
  m.tiles.length = (m.size.x * m.size.y).toNat

/-- The eight relative offsets produced by `Map::neighbor_positions`
(the `(-1..=1)` double loop with `(0, 0)` filtered out). -/
def neighborOffsets : List (Int × Int) :=
  (([-1, 0, 1] : List Int).flatMap fun dx =>
      ([-1, 0, 1] : List Int).map fun dy => (dx, dy)).filter
    fun d => !(d.1 == 0 && d.2 == 0)

/-- `Map::neighbor_positions`: the eight surrounding coordinates. -/
def neighborPositions (pos : Vec2D) : List Vec2D :=
  neighborOffsets.map fun d => ⟨pos.x + d.1, pos.y + d.2⟩

/-- `Map::neighbor_tiles`: the in-bounds neighbor values
(`neighbor_positions(point).filter_map(|v| self.get(v))`). -/
def Map.neighborTiles (m : Map T) (point : Vec2D) : List T :=
  (neighborPositions point).filterMap m.get

/-- `(0..n)` over `i64` as a list of `Int`. -/
def rangeInt (n : Int) : List Int :=
  (List.range n.toNat).map Int.ofNat

/-- `Map::iter`: `(coordinate, tile)` pairs in row-major order.  The
source unwraps `get` (always `Some` for the in-bounds coordinates being
iterated when the map is well formed); the unwrap is modelled by
`filterMap`. -/
def Map.iterPairs (m : Map T) : List (Vec2D × T) :=
  rangeInt m.size.y |>.flatMap fun y =>
    rangeInt m.size.x |>.filterMap fun x =>
      (m.get ⟨x, y⟩).map fun t => (⟨x, y⟩, t)

/-- `Map::<Tile>::next`: rebuild the whole grid by applying `Tile::next`
with direct neighbors to every cell (`extend` is a fold of `set`). -/
def Map.next (m : Map Tile) : Map Tile :=
  m.iterPairs.foldl
    (fun acc pt => acc.set pt.1 (Tile.next pt.2 (m.neighborTiles pt.1) none))
    (Map.new Tile m.size)

/-- One ray of `Map::visible_tiles`: starting one step away from `start`
in direction `d`, walk while the coordinate is in bounds and return the
first non-floor tile found.  The source's `while_some` walk always leaves
the grid within `size.x + size.y` steps, which the fuel accounts for. -/
def Map.rayFirst (m : Map Tile) (d : Vec2D) : Nat → Vec2D → Option Tile
  | 0, _ => none
  | fuel + 1, p =>
      let q : Vec2D := ⟨p.x + d.x, p.y + d.y⟩
      match m.get q with
      | none => none
      | some Tile.Floor => m.rayFirst d fuel q
      | some seat => some seat

/-- `Map::visible_tiles`: the first visible seat in each of the eight
directions. -/
def Map.visibleTiles (m : Map Tile) (point : Vec2D) : List Tile :=
  neighborOffsets.filterMap fun d =>
    m.rayFirst ⟨d.1, d.2⟩ (m.size.x.toNat + m.size.y.toNat + 1) point

/-- `Map::<Tile>::next_visible`: rebuild the grid using visible seats and
an occupied-neighbor limit of 4. -/
def Map.nextVisible (m : Map Tile) : Map Tile :=
  m.iterPairs.foldl
    (fun acc pt => acc.set pt.1 (Tile.next pt.2 (m.visibleTiles pt.1) (some 4)))
    (Map.new Tile m.size)

/-- `Map::last`: iterate `next` until two successive grids coincide and
return the later one.  The source's unbounded search is modelled with
fuel; `none` means the run was still going after `fuel` steps. -/
def Map.lastFuel (m : Map Tile) : Nat → Option (Map Tile)
  | 0 => none
  | fuel + 1 =>
      let m2 := m.next
      if m2 = m then some m2 else m2.lastFuel fuel

/-- `Map::last_visible`, analogously. -/
def Map.lastVisibleFuel (m : Map Tile) : Nat → Option (Map Tile)
  | 0 => none
  | fuel + 1 =>
      let m2 := m.nextVisible
      if m2 = m then some m2 else m2.lastVisibleFuel fuel

/-- Byte-to-tile decoding from `Map::<Tile>::parse` (`b'L'`, `b'#'`,
`b'.'`); any other byte hits the `panic!` arm, modelled as `none`. -/
def tileOfByte (b : Nat) : Option Tile :=
  if b = 76 then some Tile.EmptySeat
  else if b = 35 then some Tile.OccupiedSeat
  else if b = 46 then some Tile.Floor
  else none

/-- The counting pass of `Map::<Tile>::parse`: one fold over the bytes
tracking `(curr_columns, max_columns, rows)`; returns
`(max_columns, rows)`.  `max_columns` is only updated at newlines. -/
def scanDims : List Nat → Nat → Nat → Nat → Nat × Nat
  | [], _, maxColumns, rows => (maxColumns, rows)
  | c :: rest, currColumns, maxColumns, rows =>
      if c = 10 then scanDims rest 0 (max maxColumns currColumns) (rows + 1)
      else scanDims rest (currColumns + 1) maxColumns rows

/-- The inner `for x in 0..map.size.x` loop of `parse`: starting at
column `x` with `w` columns left in the row, decode bytes into tiles and
`set` them at `(x, y)`.  The `panic!` arm is `none`; iterator exhaustion
(`None => break`) stops the row early, mirroring the source. -/
def fillRow (y : Int) : Nat → Int → Map Tile → List Nat →
    Option (Map Tile × List Nat)
  | 0, _, m, input => some (m, input)
  | _ + 1, _, m, [] => some (m, [])
  | w + 1, x, m, c :: rest =>
      match tileOfByte c with
      | none => none
      | some t => fillRow y w (x + 1) (m.set ⟨x, y⟩ t) rest

/-- The outer `for y in 0..map.size.y` loop of `parse`: fill each row,
then skip one byte (the newline) before the next row. -/
def fillRows (width : Nat) : Nat → Int → Map Tile → List Nat →
    Option (Map Tile)
  | 0, _, m, _ => some m
  | r + 1, y, m, input =>
      match fillRow y width 0 m input with
      | none => none
      | some (m2, rest) => fillRows width r (y + 1) m2 (rest.drop 1)

/-- `Map::<Tile>::parse`: count rows and columns, allocate the default
grid, then fill it from the byte stream.  `none` models the `panic!` on
an unexpected byte. -/
def Map.parse (input : List Nat) : Option (Map Tile) :=
  let dims := scanDims input 0 0 1
  fillRows dims.1 dims.2 0 (Map.new Tile ⟨(dims.1 : Int), (dims.2 : Int)⟩) input

/-- The byte encoding a tile uses in the input format (`.`/`L`/`#`). -/
def tileByte : Tile → Nat
  | Tile.Floor => 46
  | Tile.EmptySeat => 76
  | Tile.OccupiedSeat => 35

/-- A rectangular layout serialised as bytes, every row (including the
last) terminated by a newline. -/
def encodeRows (rows : List (List Tile)) : List Nat :=
  rows.flatMap fun r => r.map tileByte ++ [10]

/-- The effect of one `fillRow` pass: write the given tiles at
consecutive columns starting at `(x, y)`. -/
def writeRowAux (m : Map Tile) (x y : Int) : List Tile → Map Tile
  | [] => m
  | t :: ts => writeRowAux (m.set ⟨x, y⟩ t) (x + 1) y ts

/-- The effect of the `fillRows` pass over a list of rows starting at
row `y`. -/
def applyRows (m : Map Tile) : Int → List (List Tile) → Map Tile
  | _, [] => m
  | y, row :: rest => applyRows (writeRowAux m 0 y row) (y + 1) rest

end Day11

namespace Day17

/-- `Point` from day-17.rs: a 4D coordinate of `isize` fields. -/
structure Point where
  x : Int
  y : Int
  z : Int
  w : Int
deriving DecidableEq

/-- `Cube` from day-17.rs: a coordinate with an activity flag. -/
structure Cube where
  point : Point
  active : Bool
deriving DecidableEq

/-- `Cube::activate` from day-17.rs: the life rule applied in place to
the activity flag, given the number of active neighbors. -/
def Cube.activate (c : Cube) (activeNeighbors : Nat) : Cube :=
  if c.active ∧ ¬(2 ≤ activeNeighbors ∧ activeNeighbors ≤ 3) then
    { c with active := false }
  else if ¬c.active ∧ activeNeighbors = 3 then
    { c with active := true }
  else c


/-- Coordinate tuples `(isize, isize, isize, isize)`, the `HashMap` keys. -/
abbrev Key := Int × Int × Int × Int

/-- `Point::new` from day-17.rs: missing `z`/`w` components default to 0. -/
def Point.new (x y : Int) (z w : Option Int) : Point :=
  ⟨x, y, z.getD 0, w.getD 0⟩

/-- `Point::as_tuple` from day-17.rs. -/
def Point.asTuple (p : Point) : Key := (p.x, p.y, p.z, p.w)

/-- The inclusive `isize` range `lo..=hi` as a list. -/
def rangeIncl (lo hi : Int) : List Int :=
  (List.range (hi + 1 - lo).toNat).map fun (j : Nat) => lo + (j : Int)

/-- `Point::neighbors` from day-17.rs: the product of the three (or, with
`include_4d`, four) inclusive ranges around the point, with the point
itself filtered out; without `include_4d` the `w` component is fixed 0. -/
def Point.neighbors (p : Point) (include_4d : Option Bool) : List Key :=
  let i4 := include_4d.getD false
  ((rangeIncl (p.x - 1) (p.x + 1)).flatMap fun x =>
    (rangeIncl (p.y - 1) (p.y + 1)).flatMap fun y =>
      (rangeIncl (p.z - 1) (p.z + 1)).flatMap fun z =>
        if i4 then (rangeIncl (p.w - 1) (p.w + 1)).map fun w => (x, y, z, w)
        else [(x, y, z, 0)]).filter
    fun q => ¬(q.1 = p.x ∧ q.2.1 = p.y ∧ q.2.2.1 = p.z ∧ q.2.2.2 = p.w)

/-- `HashMap::insert`: replace the value if the key is present, else add
the entry.  The map is modelled as an association list; every consumer in
the source (`get`, the extents fold over `values()`, the active filter
count) is insensitive to iteration order, so the list order is a harmless
representation choice. -/
def hmInsert (m : List (Key × Cube)) (k : Key) (c : Cube) :
    List (Key × Cube) :=
  if (m.lookup k).isSome then m.map fun e => if e.1 = k then (k, c) else e
  else m ++ [(k, c)]

/-- `ProblemStatement` from day-17.rs. -/
structure ProblemStatement where
  curr_cycle : Nat
  known_cubes : List (Key × Cube)
deriving DecidableEq

/-- `ProblemStatement::get_cube`: the stored cube, or a default inactive
cube at that coordinate. -/
def ProblemStatement.get_cube (s : ProblemStatement) (x y z : Int)
    (w : Option Int) : Cube :=
  let w0 := w.getD 0
  match s.known_cubes.lookup (x, y, z, w0) with
  | some c => c
  | none => ⟨Point.new x y (some z) (some w0), false⟩

/-- `isize::MAX`. -/
def isizeMAX : Int := 9223372036854775807

/-- `isize::MIN`. -/
def isizeMIN : Int := -9223372036854775808

/-- The eight extent accumulators of `run_cycle`. -/
structure Extents where
  minx : Int
  maxx : Int
  miny : Int
  maxy : Int
  minz : Int
  maxz : Int
  minw : Int
  maxw : Int
deriving DecidableEq

/-- The `for cube in self.known_cubes.values()` extent fold of
`run_cycle`, starting from `isize::MAX` / `isize::MIN`. -/
def extentsFold (vals : List Cube) : Extents :=
  vals.foldl
    (fun e c =>
      ⟨min e.minx c.point.x, max e.maxx c.point.x,
       min e.miny c.point.y, max e.maxy c.point.y,
       min e.minz c.point.z, max e.maxz c.point.z,
       min e.minw c.point.w, max e.maxw c.point.w⟩)
    ⟨isizeMAX, isizeMIN, isizeMAX, isizeMIN,
     isizeMAX, isizeMIN, isizeMAX, isizeMIN⟩

/-- `ProblemStatement::run_cycle`: fold the extents over the stored
cubes, override the `w` extents to the empty range `1..=-1` in the 3D
variant, then rebuild the map over the grown box, stepping every cell by
the life rule on its counted active neighbors. -/
def ProblemStatement.run_cycle (s : ProblemStatement)
    (include_4d : Option Bool) : ProblemStatement :=
  let e := extentsFold (s.known_cubes.map Prod.snd)
  let minw := if ¬include_4d.getD false then 1 else e.minw
  let maxw := if ¬include_4d.getD false then -1 else e.maxw
  let new_cubes :=
    (rangeIncl (e.minx - 1) (e.maxx + 1)).foldl (fun m x =>
      (rangeIncl (e.miny - 1) (e.maxy + 1)).foldl (fun m y =>
        (rangeIncl (e.minz - 1) (e.maxz + 1)).foldl (fun m z =>
          (rangeIncl (minw - 1) (maxw + 1)).foldl (fun m w =>
            let cube := s.get_cube x y z (some w)
            let act := (cube.point.neighbors include_4d).filter fun q =>
              (s.get_cube q.1 q.2.1 q.2.2.1 (some q.2.2.2)).active
            hmInsert m (x, y, z, w) (cube.activate act.length)) m) m) m) []
  ⟨s.curr_cycle + 1, new_cubes⟩

/-- `ProblemStatement::count_active_cubes`. -/
def ProblemStatement.count_active_cubes (s : ProblemStatement) : Nat :=
  ((s.known_cubes.map Prod.snd).filter (·.active)).length

/-- `'#'` is active, `'.'` inactive; anything else panics. -/
def tileOfChar (c : Char) : Option Bool :=
  if c = '#' then some true else if c = '.' then some false else none

/-- `ProblemStatement::parse_input`: every grid character becomes an
entry keyed by its `(x, y, 0, 0)` coordinate, collected row by row.  The
source's panic on an unknown character is modelled by `Option`. -/
def splitNL (l : List Char) : List (List Char) :=
  match l with
  | [] => [[]]
  | c :: cs =>
    match splitNL cs, decide (c = '\n') with
    | r :: rs, true => [] :: r :: rs
    | r :: rs, false => (c :: r) :: rs
    | [], _ => [[]]

def ProblemStatement.parse_input (input : String) :
    Option ProblemStatement := do
  let rows ← (splitNL input.toList).enum.mapM fun yl =>
    yl.2.enum.mapM fun xc => do
      let a ← tileOfChar xc.2
      let p := Point.new (Int.ofNat xc.1) (Int.ofNat yl.1) none none
      pure (p.asTuple, Cube.mk p a)
  pure ⟨0, rows.flatten.foldl (fun m e => hmInsert m e.1 e.2) []⟩

/-- The `for _ in 0..n` cycle loop of `part1` / `part2`. -/
def runCycles (s : ProblemStatement) (i4 : Option Bool) :
    Nat → ProblemStatement
  | 0 => s
  | n + 1 => (runCycles s i4 n).run_cycle i4

/-- `ProblemStatement::part1`: six 3D cycles, then the active count. -/
def ProblemStatement.part1 (s : ProblemStatement) : Nat :=
  (runCycles s none 6).count_active_cubes

/-- `ProblemStatement::part2`: six 4D cycles, then the active count. -/
def ProblemStatement.part2 (s : ProblemStatement) : Nat :=
  (runCycles s (some true) 6).count_active_cubes

/-- The repository's example seed (the file `inputs/test-17.txt` itself
is not in the sources; this is the Advent of Code 2020 day 17 example
grid, whose cycle counts match every count asserted by the repository's
tests). -/
def exampleInput : String := ".#.\n..#\n###"

/-- The plus-shaped seed: active cells at the four edge midpoints and
the center of a 3x3 block. -/
def plusInput : String := ".#.\n###\n.#."

/-! ### 16-bit lane boards

A board of up to `2^16 - 1`-valued lanes packed into one natural number,
lane `i` occupying bits `16*i .. 16*i + 15`.  `ofLanes` is the ghost view
relating a packed number to its list of lane values. -/
/-- Pack a list of lane values (little-endian, 16 bits per lane). -/
def ofLanes : List Nat → Nat
  | [] => 0
  | a :: l => a + 65536 * ofLanes l

/-- All entries fit in a 16-bit lane. -/
def Lanes16 (l : List Nat) : Prop := ∀ a ∈ l, a < 65536

/-! ### Masks as closed arithmetic

Lane masks (box indicators over a row-major 4D layout) are defined by
geometric-series closed forms so that the kernel can evaluate them in a
handful of big-integer operations, and are related to their per-lane
indicator lists symbolically. -/
/-- `2 ^ k` in its kernel-accelerated spelling. -/
def pw2 (k : Nat) : Nat := 1 <<< k

/-- `Σ_{t < len} x ^ t`. -/
def partGeo (x : Nat) : Nat → Nat
  | 0 => 0
  | len + 1 => partGeo x len + x ^ len

/-- `Σ_{j = lo}^{hi} 2 ^ (16 * stride * j)` as a closed form: a base-
`2 ^ (16 * stride)` repunit shifted up by `lo` lanes. -/
def geoMask (stride lo hi : Nat) : Nat :=
  ((pw2 (16 * stride * (hi + 1 - lo)) - 1) / (pw2 (16 * stride) - 1)) *
    pw2 (16 * stride * lo)

/-- `Σ_{j < n} (if q j then 2 ^ (16 * stride * j) else 0)`: the spec-side
value of a selector mask over lanes of stride `stride`. -/
def selSum (stride : Nat) (q : Nat → Bool) : Nat → Nat
  | 0 => 0
  | n + 1 => selSum stride q n + (if q n then 2 ^ (16 * stride * n) else 0)

/-! ### Per-lane views -/
/-- Lane `i` of a ghost lane list (0 beyond the end). -/
def laneAt (l : List Nat) (i : Nat) : Nat := l.getD i 0

/-! ### Indicator lane lists -/
/-- The 0/1 lanes of a predicate over lane indices. -/
def indLanes (n : Nat) (q : Nat → Bool) : List Nat :=
  (List.range n).map fun i => if q i then 1 else 0

/-! ### Interval selectors and their closed forms -/
/-- `lo ≤ j ≤ hi` as a `Bool`. -/
def ivP (lo hi j : Nat) : Bool := decide (lo ≤ j) && decide (j ≤ hi)

/-! ### Board geometry -/
/-- Array dimensions of the lane layout (row-major: `x` fastest). -/
structure Geom where
  sx : Nat
  sy : Nat
  sz : Nat
  sw : Nat

/-- Total number of lanes. -/
def Geom.W (g : Geom) : Nat := g.sx * (g.sy * (g.sz * g.sw))

/-- Lane-index displacement of a coordinate offset. -/
def Geom.shiftAmt (g : Geom) (o : Key) : Int :=
  o.1 + g.sx * (o.2.1 + g.sy * (o.2.2.1 + g.sz * o.2.2.2))

/-- Shift the board so that lane `i` of the result is lane `i + s` of the
input (reading a neighbor at displacement `s`). -/
def shiftBy (G : Nat) (s : Int) : Nat :=
  if 0 ≤ s then G >>> (16 * s.toNat) else G <<< (16 * (-s).toNat)

/-- Smallest in-range coordinate whose `d`-neighbor is in range. -/
def clipLo (d : Int) : Nat := (-d).toNat

/-- Largest in-range coordinate whose `d`-neighbor is in range. -/
def clipHi (S : Nat) (d : Int) : Nat := min ((S - 1 - d).toNat) (S - 1)

/-- Product-of-geometric-series form of a 4D box mask. -/
def boxMaskF (g : Geom) (lx hx ly hy lz hz lw hw : Nat) : Nat :=
  geoMask 1 lx hx *
    (geoMask g.sx ly hy *
      (geoMask (g.sx * g.sy) lz hz * geoMask (g.sx * g.sy * g.sz) lw hw))

/-- Mask of lanes whose `o`-neighbor stays inside the array. -/
def Geom.offMask (g : Geom) (o : Key) : Nat :=
  boxMaskF g (clipLo o.1) (clipHi g.sx o.1) (clipLo o.2.1) (clipHi g.sy o.2.1)
    (clipLo o.2.2.1) (clipHi g.sz o.2.2.1) (clipLo o.2.2.2) (clipHi g.sw o.2.2.2)

/-- Interval membership of the `z`/`w` components of a lane index. -/
def zwPred (sz lz hz lw hw : Nat) (k : Nat) : Bool :=
  ivP lz hz (k % sz) && ivP lw hw (k / sz)

/-- Interval membership of the `y`/`z`/`w` components of a lane index. -/
def yzwPred (sy sz ly hy lz hz lw hw : Nat) (j : Nat) : Bool :=
  ivP ly hy (j % sy) && zwPred sz lz hz lw hw (j / sy)

/-- Box membership of a lane index, component by component. -/
def Geom.boxPred (g : Geom) (lx hx ly hy lz hz lw hw : Nat) (i : Nat) : Bool :=
  ivP lx hx (i % g.sx) &&
    yzwPred g.sy g.sz ly hy lz hz lw hw (i / g.sx)

/-- All-ones repunit over `Wn` lanes. -/
def repunitF (Wn : Nat) : Nat := geoMask 1 0 (Wn - 1)

/-- The constant `c` broadcast to every lane. -/
def bcastF (Wn c : Nat) : Nat := c * repunitF Wn

/-! ### Lane index geometry -/
/-- Row-major lane index of array cell `(a, b, c, d)`. -/
def Geom.lane (g : Geom) (a b c d : Nat) : Nat :=
  a + g.sx * (b + g.sy * (c + g.sz * d))

/-- The four array coordinates of a lane index. -/
def Geom.decA (g : Geom) (i : Nat) : Nat := i % g.sx

def Geom.decB (g : Geom) (i : Nat) : Nat := (i / g.sx) % g.sy

def Geom.decC (g : Geom) (i : Nat) : Nat := (i / g.sx / g.sy) % g.sz

def Geom.decD (g : Geom) (i : Nat) : Nat := i / g.sx / g.sy / g.sz

/-- A geometry with positive dimensions. -/
def Geom.Pos (g : Geom) : Prop := 0 < g.sx ∧ 0 < g.sy ∧ 0 < g.sz ∧ 0 < g.sw

/-- Component-wise validity of reading the `o`-neighbor of lane `i`. -/
def Geom.validAt (g : Geom) (i : Nat) (o : Key) : Bool :=
  (decide (0 ≤ (g.decA i : Int) + o.1) && decide ((g.decA i : Int) + o.1 < g.sx)) &&
    ((decide (0 ≤ (g.decB i : Int) + o.2.1) && decide ((g.decB i : Int) + o.2.1 < g.sy)) &&
      ((decide (0 ≤ (g.decC i : Int) + o.2.2.1) && decide ((g.decC i : Int) + o.2.2.1 < g.sz)) &&
        (decide (0 ≤ (g.decD i : Int) + o.2.2.2) && decide ((g.decD i : Int) + o.2.2.2 < g.sw))))

/-- The lane read for the `o`-neighbor of lane `i`. -/
def Geom.nbrLane (g : Geom) (i : Nat) (o : Key) : Nat :=
  ((i : Int) + g.shiftAmt o).toNat

/-- An offset strictly smaller than every dimension. -/
def Geom.SmallOff (g : Geom) (o : Key) : Prop :=
  (-(g.sx : Int) < o.1 ∧ o.1 < g.sx) ∧ (-(g.sy : Int) < o.2.1 ∧ o.2.1 < g.sy) ∧
    (-(g.sz : Int) < o.2.2.1 ∧ o.2.2.1 < g.sz) ∧
    (-(g.sw : Int) < o.2.2.2 ∧ o.2.2.2 < g.sw)

/-! ### Value lanes and extensionality -/
/-- General value lanes over `n` indices. -/
def natLanes (n : Nat) (v : Nat → Nat) : List Nat :=
  (List.range n).map v

/-! ### The neighbor count stage -/
/-- Number of in-array active neighbors of lane `i`. -/
def Geom.cnt (g : Geom) (bits : Nat → Bool) (offs : List Key) (i : Nat) : Nat :=
  offs.countP fun o => g.validAt i o && bits (g.nbrLane i o)

/-! ### The bitboard life step -/
/-- The packed neighbor counts. -/
def Geom.countF (g : Geom) (offs : List Key) (G : Nat) : Nat :=
  offs.foldl (fun acc o => acc + (shiftBy G (g.shiftAmt o) &&& g.offMask o)) 0

/-- Lanewise `k ≤ count` indicator at bit 8, by the carry trick. -/
def geK (Wn cW k : Nat) : Nat := (cW + bcastF Wn (256 - k)) &&& bcastF Wn 256

/-- One bitboard life step over geometry `g` with neighbor offsets
`offs`, confined to the `allowed` box: count neighbors lanewise, derive
the `2 ≤ n`, `3 ≤ n`, `4 ≤ n` carry indicators at bit 8, combine them by
the life rule, mask, and shift the result back down to bit 0. -/
def Geom.stepF (g : Geom) (offs : List Key) (allowed G : Nat) : Nat :=
  (((geK g.W (g.countF offs G) 3 &&&
        (geK g.W (g.countF offs G) 4 ^^^ bcastF g.W 256)) |||
      ((256 * G) &&&
        (geK g.W (g.countF offs G) 2 &&&
          (geK g.W (g.countF offs G) 4 ^^^ bcastF g.W 256)))) &&&
    (256 * allowed)) >>> 8

/-- The life rule on a single bit. -/
def lifeB (a : Bool) (n : Nat) : Bool :=
  (a && (decide (2 ≤ n) && decide (n ≤ 3))) || (!a && decide (n = 3))

/-- Box membership, component by component. -/
def inBoxE (e : Extents) (q : Key) : Bool :=
  decide (e.minx ≤ q.1 ∧ q.1 ≤ e.maxx) &&
    (decide (e.miny ≤ q.2.1 ∧ q.2.1 ≤ e.maxy) &&
      (decide (e.minz ≤ q.2.2.1 ∧ q.2.2.1 ≤ e.maxz) &&
        decide (e.minw ≤ q.2.2.2 ∧ q.2.2.2 ≤ e.maxw)))

/-- All keys of a box, in the `run_cycle` loop order. -/
def boxKeys (e : Extents) : List Key :=
  (rangeIncl e.minx e.maxx).flatMap fun x =>
    (rangeIncl e.miny e.maxy).flatMap fun y =>
      (rangeIncl e.minz e.maxz).flatMap fun z =>
        (rangeIncl e.minw e.maxw).map fun w => (x, y, z, w)

/-! ### Extent folds over a box -/
/-- Nonempty box. -/
def nonemptyE (e : Extents) : Prop :=
  e.minx ≤ e.maxx ∧ e.miny ≤ e.maxy ∧ e.minz ≤ e.maxz ∧ e.minw ≤ e.maxw

/-- Bounds comfortably inside `isize`. -/
def smallE (e : Extents) : Prop :=
  -1000 ≤ e.minx ∧ e.maxx ≤ 1000 ∧ -1000 ≤ e.miny ∧ e.maxy ≤ 1000 ∧
    -1000 ≤ e.minz ∧ e.maxz ≤ 1000 ∧ -1000 ≤ e.minw ∧ e.maxw ≤ 1000

/-- Number of `f`-true cells of a box. -/
def countBoxE (e : Extents) (f : Key → Bool) : Nat := (boxKeys e).countP f

/-- The neighbor offsets, in the loop order of `Point::neighbors`. -/
def nbrOffs (i4 : Bool) : List Key :=
  ((rangeIncl (-1) 1).flatMap fun dx =>
    (rangeIncl (-1) 1).flatMap fun dy =>
      (rangeIncl (-1) 1).flatMap fun dz =>
        if i4 then (rangeIncl (-1) 1).map fun dw => (dx, dy, dz, dw)
        else [(dx, dy, dz, 0)]).filter
    fun d => ¬(d.1 = 0 ∧ d.2.1 = 0 ∧ d.2.2.1 = 0 ∧ d.2.2.2 = 0)

/-- Translate a cell by an offset. -/
def addK (q d : Key) : Key :=
  (q.1 + d.1, q.2.1 + d.2.1, q.2.2.1 + d.2.2.1, q.2.2.2 + d.2.2.2)

/-- Cell-level neighbor count. -/
def cntB (f : Key → Bool) (i4 : Bool) (q : Key) : Nat :=
  (nbrOffs i4).countP fun d => f (addK q d)

/-! ### The faithful cycle preserves box representation -/
/-- `s` stores exactly the cells of box `e`: lookup of any in-box key
yields a point-tagged cube whose activity is `f`, lookup outside the box
fails, the extents fold recovers `e`, the active count is the `f`-count
of the box, and `f` is supported inside the box. -/
structure RepInv (s : ProblemStatement) (e : Extents) (f : Key → Bool) :
    Prop where
  look : ∀ q : Key, s.known_cubes.lookup q =
    (if inBoxE e q then some ⟨⟨q.1, q.2.1, q.2.2.1, q.2.2.2⟩, f q⟩ else none)
  ext : extentsFold (s.known_cubes.map Prod.snd) = e
  cnt : s.count_active_cubes = countBoxE e f
  supp : ∀ q, f q = true → inBoxE e q = true

/-- The grown box of one cycle, mirroring the `w`-extent override of the
3D variant. -/
def growE (e : Extents) (i4 : Bool) : Extents :=
  ⟨e.minx - 1, e.maxx + 1, e.miny - 1, e.maxy + 1, e.minz - 1, e.maxz + 1,
    (if ¬i4 then 1 else e.minw) - 1, (if ¬i4 then -1 else e.maxw) + 1⟩

/-- The cell-level life step of one cycle. -/
def stepBf (e : Extents) (f : Key → Bool) (i4 : Bool) : Key → Bool :=
  fun q => inBoxE (growE e i4) q && lifeB (f q) (cntB f i4 q)

/-- The value inserted by `run_cycle` at cell `k`. -/
def vNew (s : ProblemStatement) (i4o : Option Bool) (k : Key) : Cube :=
  (s.get_cube k.1 k.2.1 k.2.2.1 (some k.2.2.2)).activate
    (((s.get_cube k.1 k.2.1 k.2.2.1 (some k.2.2.2)).point.neighbors i4o).filter
      fun q => (s.get_cube q.1 q.2.1 q.2.2.1 (some q.2.2.2)).active).length

/-! ### The concrete seeds -/
/-- The 3x3 seed box. -/
def e0 : Extents := ⟨0, 2, 0, 2, 0, 0, 0, 0⟩

/-- Keys of the seed box in parse (row-major) order. -/
def seedKeys : List Key :=
  [(0, 0, 0, 0), (1, 0, 0, 0), (2, 0, 0, 0),
   (0, 1, 0, 0), (1, 1, 0, 0), (2, 1, 0, 0),
   (0, 2, 0, 0), (1, 2, 0, 0), (2, 2, 0, 0)]

/-- Active cells of the example seed. -/
def gliderF : Key → Bool := fun q =>
  decide (q ∈ [((1 : Int), (0 : Int), (0 : Int), (0 : Int)),
    (2, 1, 0, 0), (0, 2, 0, 0), (1, 2, 0, 0), (2, 2, 0, 0)])

/-- Active cells of the plus-shaped seed. -/
def plusF : Key → Bool := fun q =>
  decide (q ∈ [((1 : Int), (0 : Int), (0 : Int), (0 : Int)),
    (0, 1, 0, 0), (1, 1, 0, 0), (2, 1, 0, 0), (1, 2, 0, 0)])

/-- The parsed example state, in structured form. -/
def gliderS : ProblemStatement :=
  ⟨0, seedKeys.map fun k => (k, ⟨⟨k.1, k.2.1, k.2.2.1, k.2.2.2⟩, gliderF k⟩)⟩

/-- The parsed plus state, in structured form. -/
def plusS : ProblemStatement :=
  ⟨0, seedKeys.map fun k => (k, ⟨⟨k.1, k.2.1, k.2.2.1, k.2.2.2⟩, plusF k⟩)⟩

/-! ### The box/rule trajectory -/
/-- The box after `k` cycles. -/
def eIter (i4 : Bool) : Nat → Extents
  | 0 => e0
  | k + 1 => growE (eIter i4 k) i4

/-- The cell activity after `k` cycles. -/
def fIter (f0 : Key → Bool) (i4 : Bool) : Nat → (Key → Bool)
  | 0 => f0
  | k + 1 => stepBf (eIter i4 k) (fIter f0 i4 k) i4

/-! ### Cells of a fixed array window -/
/-- The cell held by lane `i` of a window whose low corner is `org`. -/
def cellAt (g : Geom) (org : Key) (i : Nat) : Key :=
  (org.1 + (g.decA i : Int), org.2.1 + (g.decB i : Int),
    org.2.2.1 + (g.decC i : Int), org.2.2.2 + (g.decD i : Int))

/-- The lane of a window cell. -/
def laneOf (g : Geom) (org : Key) (q : Key) : Nat :=
  g.lane (q.1 - org.1).toNat (q.2.1 - org.2.1).toNat
    (q.2.2.1 - org.2.2.1).toNat (q.2.2.2 - org.2.2.2).toNat

/-- Membership in the window. -/
def inWindowP (g : Geom) (org : Key) (q : Key) : Prop :=
  (org.1 ≤ q.1 ∧ q.1 < org.1 + g.sx) ∧
    (org.2.1 ≤ q.2.1 ∧ q.2.1 < org.2.1 + g.sy) ∧
    (org.2.2.1 ≤ q.2.2.1 ∧ q.2.2.1 < org.2.2.1 + g.sz) ∧
    (org.2.2.2 ≤ q.2.2.2 ∧ q.2.2.2 < org.2.2.2 + g.sw)

/-- The box `e` sits strictly inside the window. -/
def boxSub (g : Geom) (org : Key) (e : Extents) : Prop :=
  (org.1 ≤ e.minx ∧ e.maxx < org.1 + g.sx) ∧
    (org.2.1 ≤ e.miny ∧ e.maxy < org.2.1 + g.sy) ∧
    (org.2.2.1 ≤ e.minz ∧ e.maxz < org.2.2.1 + g.sz) ∧
    (org.2.2.2 ≤ e.minw ∧ e.maxw < org.2.2.2 + g.sw)

/-- The closed-form mask of the box `e` in window coordinates. -/
def allowMask (g : Geom) (org : Key) (e : Extents) : Nat :=
  boxMaskF g (e.minx - org.1).toNat (e.maxx - org.1).toNat
    (e.miny - org.2.1).toNat (e.maxy - org.2.1).toNat
    (e.minz - org.2.2.1).toNat (e.maxz - org.2.2.1).toNat
    (e.minw - org.2.2.2).toNat (e.maxw - org.2.2.2).toNat

/-- The bitboard trajectory: SWAR steps under the closed-form mask of
each cycle's grown box. -/
def boardIter (g : Geom) (org : Key) (i4 : Bool) (G0 : Nat) : Nat → Nat
  | 0 => G0
  | k + 1 => g.stepF (nbrOffs i4) (allowMask g org (eIter i4 (k + 1)))
      (boardIter g org i4 G0 k)

/-! ### The seed board in closed form -/
/-- A board with a single active lane. -/
def laneBit (i : Nat) : Nat := geoMask 1 i i

/-- The closed-form board of a finite list of seed cells. -/
def seedBoard (g : Geom) (org : Key) (cs : List Key) : Nat :=
  (cs.map fun c => laneBit (laneOf g org c)).sum

/-! ### The three concrete scenarios -/
instance (g : Geom) : Decidable g.Pos := by
  unfold Geom.Pos
  infer_instance

instance (g : Geom) (o : Key) : Decidable (g.SmallOff o) := by
  unfold Geom.SmallOff
  infer_instance

instance (g : Geom) (org : Key) (q : Key) : Decidable (inWindowP g org q) := by
  unfold inWindowP
  infer_instance

instance (g : Geom) (org : Key) (e : Extents) : Decidable (boxSub g org e) := by
  unfold boxSub
  infer_instance

instance (e : Extents) : Decidable (smallE e) := by
  unfold smallE
  infer_instance

instance (e : Extents) : Decidable (nonemptyE e) := by
  unfold nonemptyE
  infer_instance

/-- 3D geometry: a 17x17x15 window on the single `w = 0` slice. -/
def g3 : Geom := ⟨17, 17, 15, 1⟩

/-- 4D geometry: a 17x17x15x15 window. -/
def g4 : Geom := ⟨17, 17, 15, 15⟩

/-- Window origin for the 3D runs. -/
def org3 : Key := (-7, -7, -7, 0)

/-- Window origin for the 4D runs. -/
def org4 : Key := (-7, -7, -7, -7)

/-- The active cells of the example seed, as a list. -/
def gliderCells : List Key :=
  [((1 : Int), (0 : Int), (0 : Int), (0 : Int)),
    (2, 1, 0, 0), (0, 2, 0, 0), (1, 2, 0, 0), (2, 2, 0, 0)]

/-- The active cells of the plus-shaped seed, as a list. -/
def plusCells : List Key :=
  [((1 : Int), (0 : Int), (0 : Int), (0 : Int)),
    (0, 1, 0, 0), (1, 1, 0, 0), (2, 1, 0, 0), (1, 2, 0, 0)]

end Day17

namespace Day14

/-- `StoneType` from day14.rs. -/
inductive StoneType where
  | Empty
  | Fixed
  | Round
deriving DecidableEq

/-- `StonePulleyGrid` from day14.rs: the platform as a matrix of stones
with its dimensions. -/
structure StonePulleyGrid where
  num_rows : Nat
  num_cols : Nat
  stones : List (List StoneType)
deriving DecidableEq

/-- `board[r][c]` as an `Option` (a Rust index panic is out of range of
the verified runs, which stay within well-formed boards). -/
def cellAt (b : List (List StoneType)) (r c : Nat) : Option StoneType :=
  (b.get? r).bind fun row => row.get? c

/-- `board[r][c] = v`, a no-op when the indices are out of range. -/
def setCell (b : List (List StoneType)) (r c : Nat) (v : StoneType) :
    List (List StoneType) :=
  match b.get? r with
  | some row => b.set r (row.set c v)
  | none => b

/-- The body of the innermost loop of `StonePulleyGrid::next`: if the
stone at `(row_idx, col)` is round and the cell to its north is empty,
swap them (`Position::north` fails at row 0). -/
def moveNorth (b : List (List StoneType)) (row_idx col : Nat) :
    List (List StoneType) :=
  if cellAt b row_idx col = some StoneType.Round then
    match row_idx with
    | 0 => b
    | r + 1 =>
        if cellAt b r col = some StoneType.Empty then
          setCell (setCell b r col StoneType.Round) (r + 1) col StoneType.Empty
        else b
  else b

/-- `StonePulleyGrid::next`: bubble every round stone as far north as
possible, via the source's triple loop over
`row_offset in 1..num_rows`, `row_idx in 1..=(num_rows - row_offset)`,
`col in 0..num_cols`, mutating the board in place. -/
def StonePulleyGrid.next (g : StonePulleyGrid) : StonePulleyGrid :=
  let board :=
    (List.range' 1 (g.num_rows - 1)).foldl
      (fun b1 off =>
        (List.range' 1 (g.num_rows - off)).foldl
          (fun b2 row_idx =>
            (List.range g.num_cols).foldl
              (fun b3 col => moveNorth b3 row_idx col) b2)
          b1)
      g.stones
  { g with stones := board }

/-- `StonePulleyGrid::rot_90_cw`: `new[c][num_rows - r - 1] = old[r][c]`
into a `num_cols x num_rows` all-empty buffer.  Note the source keeps
`num_rows`/`num_cols` unchanged (`..self`). -/
def StonePulleyGrid.rot_90_cw (g : StonePulleyGrid) : StonePulleyGrid :=
  let newStones :=
    g.stones.enum.foldl
      (fun nb rc =>
        rc.2.enum.foldl
          (fun nb2 cs => setCell nb2 cs.1 (g.num_rows - rc.1 - 1) cs.2) nb)
      (List.replicate g.num_cols (List.replicate g.num_rows StoneType.Empty))
  { g with stones := newStones }

/-- `StonePulleyGrid::cycle`: `num_cycles` repetitions of four
tilt-then-rotate quarter turns. -/
def StonePulleyGrid.cycle (g : StonePulleyGrid) (num_cycles : Nat) : StonePulleyGrid :=
  (List.range num_cycles).foldl
    (fun acc _ => (List.range 4).foldl (fun sub _ => sub.next.rot_90_cw) acc) g

/-- Decimal digit character, `'0' + d`. -/
def digitChar (d : Nat) : Char := Char.ofNat (48 + d)

/-- Decimal rendering of a natural number (fuel-structured; `decChars`
supplies enough fuel).  Models Rust's `Display` for `usize`. -/
def decAux : Nat → Nat → List Char
  | 0, _ => []
  | fuel + 1, n =>
      if n < 10 then [digitChar n]
      else decAux fuel (n / 10) ++ [digitChar (n % 10)]

/-- Decimal rendering of a natural number. -/
def decChars (n : Nat) : List Char := decAux (n + 1) n

/-- `Position::to_string`, the `"x,y"` rendering used by `hash`. -/
def posChars (x y : Nat) : List Char := decChars x ++ ',' :: decChars y

/-- The positions listed by `StonePulleyGrid::hash`: the coordinates
`(col, num_rows - row)` of every round stone, in row-major order. -/
def roundPositions (g : StonePulleyGrid) : List (Nat × Nat) :=
  g.stones.enum.flatMap fun rc =>
    rc.2.enum.filterMap fun cs =>
      if cs.2 = StoneType.Round then some (cs.1, g.num_rows - rc.1) else none

/-- `itertools::join` with a one-character separator. -/
def sepJoin (sep : Char) : List (List Char) → List Char
  | [] => []
  | [s] => s
  | s :: rest => s ++ sep :: sepJoin sep rest

/-- `StonePulleyGrid::hash`: the round-stone positions rendered as
`"x,y"` strings joined with `"|"`. -/
def StonePulleyGrid.hash (g : StonePulleyGrid) : String :=
  ⟨sepJoin '|' ((roundPositions g).map fun p => posChars p.1 p.2)⟩

/-- Association-list model of the `HashMap<String, i64>` history:
lookup. -/
def lookupH : List (String × Int) → String → Option Int
  | [], _ => none
  | (k, v) :: rest, key => if k = key then some v else lookupH rest key

/-- Association-list model of the history: insert-or-replace. -/
def insertH : List (String × Int) → String → Int → List (String × Int)
  | [], key, v => [(key, v)]
  | (k, w) :: rest, key, v =>
      if k = key then (k, v) :: rest else (k, w) :: insertH rest key v

/-- The mutable state of the `part02` loop. -/
structure LoopState where
  board : StonePulleyGrid
  history : List (String × Int)
  cycleFound : Bool
  current : Int
deriving DecidableEq

/-- One iteration of the `part02` `while` body (entered with
`current < N`).  On a fingerprint hit the skip is taken and, via the
source's `continue`, `current_cycle` is not incremented.  Division is
`i64` truncated division. -/
def loopStep (N : Int) (s : LoopState) : LoopState :=
  let board2 := s.board.cycle 1
  if s.cycleFound then
    { board := board2, history := s.history, cycleFound := true,
      current := s.current + 1 }
  else
    match lookupH s.history board2.hash with
    | some position =>
        let cycleLength := s.current - position - 1
        let remainingCycles := N - s.current
        let cyclesToSkip := Int.tdiv remainingCycles cycleLength
        { board := board2, history := s.history, cycleFound := true,
          current := s.current + cyclesToSkip * cycleLength }
    | none =>
        { board := board2,
          history := insertH s.history board2.hash (s.current - 1),
          cycleFound := false, current := s.current + 1 }

/-- The `while current_cycle < total_cycles` loop of `part02`, with fuel
(`none` = still running after `fuel` iterations). -/
def loopF (N : Int) : Nat → LoopState → Option LoopState
  | 0, s => if s.current < N then none else some s
  | fuel + 1, s =>
      if s.current < N then loopF N fuel (loopStep N s) else some s

/-- The initial state of the `part02` loop for a parsed grid. -/
def part02Init (g : StonePulleyGrid) : LoopState :=
  { board := g, history := [], cycleFound := false, current := 1 }

/-- The content of the `part02` history map after `m` iterations in
which no fingerprint repeated: entry `j` maps the fingerprint of the
board after `j+1` cycles to the index `j`. -/
def histList (g : StonePulleyGrid) (m : Nat) : List (String × Int) :=
  (List.range m).map fun j => ((g.cycle (j + 1)).hash, (j : Int))

/-- Shape well-formedness: the matrix agrees with the recorded
dimensions. -/
def StonePulleyGrid.WF (g : StonePulleyGrid) : Prop :=
  g.stones.length = g.num_rows ∧ ∀ row ∈ g.stones, row.length = g.num_cols

/-- The grids `part02` actually runs on are square; rotation keeps the
recorded dimensions, so squareness is what keeps them truthful. -/
def StonePulleyGrid.Square (g : StonePulleyGrid) : Prop :=
  g.num_rows = g.num_cols

/-- A concrete 3x3 platform (`...` / `...` / `#OO`) whose trajectory
stabilises only after two cycles. -/
def cexGrid : StonePulleyGrid :=
  ⟨3, 3,
    [[StoneType.Empty, StoneType.Empty, StoneType.Empty],
     [StoneType.Empty, StoneType.Empty, StoneType.Empty],
     [StoneType.Fixed, StoneType.Round, StoneType.Round]]⟩

end Day14

/-! ## Theorems -/

namespace Day11

/-- Row-major linearisation stays below the grid area. -/
theorem indexNat_lt {sx sy x y : Int} (hx0 : 0 ≤ x) (hx : x < sx)
    (hy0 : 0 ≤ y) (hy : y < sy) :
    (x + y * sx).toNat < (sx * sy).toNat := by
  have hsx : 0 < sx := lt_of_le_of_lt hx0 hx
  have hsy : 0 < sy := lt_of_le_of_lt hy0 hy
  rw [Int.toNat_lt_toNat (mul_pos hsx hsy)]
  nlinarith [mul_le_mul_of_nonneg_right (show y ≤ sy - 1 by omega) (le_of_lt hsx)]

/-- Row-major linearisation is injective on in-bounds coordinates. -/
theorem indexNat_inj {sx x1 y1 x2 y2 : Int}
    (hx10 : 0 ≤ x1) (hx1 : x1 < sx) (hy10 : 0 ≤ y1)
    (hx20 : 0 ≤ x2) (hx2 : x2 < sx) (hy20 : 0 ≤ y2)
    (h : (x1 + y1 * sx).toNat = (x2 + y2 * sx).toNat) : x1 = x2 ∧ y1 = y2 := by
  have hsx : 0 < sx := lt_of_le_of_lt hx10 hx1
  have h1 : (0 : Int) ≤ x1 + y1 * sx :=
    add_nonneg hx10 (mul_nonneg hy10 (le_of_lt hsx))
  have h2 : (0 : Int) ≤ x2 + y2 * sx :=
    add_nonneg hx20 (mul_nonneg hy20 (le_of_lt hsx))
  have heq : x1 + y1 * sx = x2 + y2 * sx := by
    have := congrArg (fun n : Nat => (n : Int)) h
    simpa [Int.toNat_of_nonneg h1, Int.toNat_of_nonneg h2] using this
  have hy : y1 = y2 := by
    rcases lt_trichotomy y1 y2 with hlt | he | hgt
    · exfalso
      nlinarith [mul_le_mul_of_nonneg_right (show (1 : Int) ≤ y2 - y1 by omega)
        (le_of_lt hsx)]
    · exact he
    · exfalso
      nlinarith [mul_le_mul_of_nonneg_right (show (1 : Int) ≤ y1 - y2 by omega)
        (le_of_lt hsx)]
  subst hy
  exact ⟨by linarith, rfl⟩

/-- `get` is `none` out of bounds. -/
theorem Map.get_out {T : Type} (m : Map T) (p : Vec2D) (h : ¬ m.inBounds p) :
    m.get p = none := by
  simp [Map.get, Map.index, h]

/-- `set` is the identity out of bounds. -/
theorem Map.set_out {T : Type} (m : Map T) (p : Vec2D) (v : T)
    (h : ¬ m.inBounds p) : m.set p v = m := by
  simp [Map.set, Map.index, h]

/-- `set` keeps the size. -/
theorem Map.size_set {T : Type} (m : Map T) (p : Vec2D) (v : T) :
    (m.set p v).size = m.size := by
  rcases hidx : m.index p with _ | idx <;> simp [Map.set, hidx]

/-- `set` keeps the tile-vector length. -/
theorem Map.length_tiles_set {T : Type} (m : Map T) (p : Vec2D) (v : T) :
    (m.set p v).tiles.length = m.tiles.length := by
  rcases hidx : m.index p with _ | idx <;> simp [Map.set, hidx]

/-- `set` keeps well-formedness. -/
theorem Map.wf_set {T : Type} (m : Map T) (p : Vec2D) (v : T) (hwf : m.WF) :
    (m.set p v).WF := by
  have h1 : (m.set p v).tiles.length = m.tiles.length := m.length_tiles_set p v
  have h2 : (m.set p v).size = m.size := m.size_set p v
  show (m.set p v).tiles.length = ((m.set p v).size.x * (m.set p v).size.y).toNat
  rw [h1, h2]
  exact hwf

/-- In bounds on a well-formed map, `set` then `get` at the same
coordinate yields the written value. -/
theorem Map.get_set_self {T : Type} (m : Map T) (p : Vec2D) (v : T)
    (hwf : m.WF) (h : m.inBounds p) : (m.set p v).get p = some v := by
  have hlen : m.tiles.length = (m.size.x * m.size.y).toNat := hwf
  have hlt : (p.x + p.y * m.size.x).toNat < m.tiles.length := by
    rw [hlen]
    exact indexNat_lt h.1 h.2.1 h.2.2.1 h.2.2.2
  have hset : m.set p v =
      { size := m.size, tiles := m.tiles.set (p.x + p.y * m.size.x).toNat v } := by
    rw [Map.set]
    simp [Map.index, h]
  rw [hset, Map.get]
  have hindex : ∀ (tl : List T),
      ({ size := m.size, tiles := tl } : Map T).index p = m.index p :=
    fun tl => rfl
  rw [hindex, Map.index, if_pos h]
  simp only [Option.bind]
  rw [List.get?_eq_getElem?]
  exact List.getElem?_set_eq_of_lt v hlt

/-- `set` at one coordinate leaves `get` at any other coordinate
unchanged. -/
theorem Map.get_set_ne {T : Type} (m : Map T) (p q : Vec2D) (v : T)
    (hq : q ≠ p) : (m.set p v).get q = m.get q := by
  by_cases hp : m.inBounds p
  · have hset : m.set p v =
        { size := m.size, tiles := m.tiles.set (p.x + p.y * m.size.x).toNat v } := by
      rw [Map.set]
      simp [Map.index, hp]
    have hindex : ∀ (tl : List T),
        ({ size := m.size, tiles := tl } : Map T).index q = m.index q :=
      fun tl => rfl
    rw [hset, Map.get, hindex, Map.get]
    by_cases hqb : m.inBounds q
    · have hne : (p.x + p.y * m.size.x).toNat ≠ (q.x + q.y * m.size.x).toNat := by
        intro he
        rcases indexNat_inj hp.1 hp.2.1 hp.2.2.1 hqb.1 hqb.2.1 hqb.2.2.1 he with
          ⟨hx, hy⟩
        rcases p with ⟨px, py⟩
        rcases q with ⟨qx, qy⟩
        simp_all
      simp only [Map.index, if_pos hqb, Option.bind]
      rw [List.get?_eq_getElem?, List.get?_eq_getElem?]
      exact List.getElem?_set_ne hne
    · simp [Map.index, hqb]
  · rw [Map.set_out m p v hp]

/-- `Map.new` is well formed. -/
theorem Map.wf_new {T : Type} [Inhabited T] (s : Vec2D) : (Map.new T s).WF := by
  show (List.replicate (s.x * s.y).toNat (default : T)).length = (s.x * s.y).toNat
  simp

/-- `get` on a freshly allocated map yields the default value in bounds. -/
theorem Map.get_new {T : Type} [Inhabited T] (s : Vec2D) (p : Vec2D)
    (h : (Map.new T s).inBounds p) : (Map.new T s).get p = some default := by
  have hb : 0 ≤ p.x ∧ p.x < s.x ∧ 0 ≤ p.y ∧ p.y < s.y := h
  have hlt : (p.x + p.y * s.x).toNat < (s.x * s.y).toNat :=
    indexNat_lt hb.1 hb.2.1 hb.2.2.1 hb.2.2.2
  rw [Map.get, Map.index, if_pos h]
  simp only [Option.bind]
  rw [List.get?_eq_getElem?]
  show (List.replicate (s.x * s.y).toNat (default : T))[(p.x + p.y * s.x).toNat]? =
    some default
  rw [List.getElem?_replicate, if_pos hlt]

/-- C2: Seat occupancy transition rule: `Tile::next` keeps floor as
floor; an empty seat becomes occupied exactly when no neighbor is
occupied; an occupied seat empties exactly when the occupied-neighbor
count exceeds the threshold, which is 3 with `neighbor_limit = None`
(direct adjacency) and 4 with `neighbor_limit = Some(4)` (visible
seats). -/
theorem tile_next_rule (ns : List Tile) (lim : Option Nat) :
    Tile.next Tile.Floor ns lim = Tile.Floor ∧
    Tile.next Tile.EmptySeat ns lim =
      (if countOccupied ns = 0 then Tile.OccupiedSeat else Tile.EmptySeat) ∧
    (Tile.next Tile.OccupiedSeat ns none = Tile.EmptySeat ↔
      3 < countOccupied ns) ∧
    (Tile.next Tile.OccupiedSeat ns (some 4) = Tile.EmptySeat ↔
      4 < countOccupied ns) := by
  refine ⟨rfl, ?_, ?_, ?_⟩
  · cases h : countOccupied ns <;> simp [Tile.next, h]
  · simp only [Tile.next, Option.getD]
    split_ifs with hc <;> simp <;> omega
  · simp only [Tile.next, Option.getD]
    split_ifs with hc <;> simp <;> omega

/-- C5: Edge absence, not panic: on a well-formed map, `Map::get`
returns `none` for every out-of-bounds coordinate (however far outside
the grid) and the stored cell for every in-bounds coordinate; it has no
failure path. -/
theorem map_get_bounds {T : Type} (m : Map T) (p : Vec2D) (hwf : m.WF) :
    (¬ m.inBounds p → m.get p = none) ∧
    (m.inBounds p → ∃ t, m.get p = some t ∧
      m.tiles.get? (p.x + p.y * m.size.x).toNat = some t) := by
  constructor
  · intro h
    simp [Map.get, Map.index, h]
  · intro h
    have hlen : m.tiles.length = (m.size.x * m.size.y).toNat := hwf
    have hlt : (p.x + p.y * m.size.x).toNat < m.tiles.length := by
      rw [hlen]
      exact indexNat_lt h.1 h.2.1 h.2.2.1 h.2.2.2
    refine ⟨m.tiles.get ⟨_, hlt⟩, ?_, ?_⟩
    · simp [Map.get, Map.index, h, List.get?_eq_some]
    · rw [List.get?_eq_some]
      exact ⟨hlt, rfl⟩

/-- Witness for `map_get_bounds` on a concrete 2x2 map. -/
theorem map_get_bounds_witness :
    ((⟨⟨2, 2⟩, [0, 1, 2, 3]⟩ : Map Nat).get ⟨5, 0⟩ = none) ∧
    ∃ t, (⟨⟨2, 2⟩, [0, 1, 2, 3]⟩ : Map Nat).get ⟨1, 0⟩ = some t ∧
      (([0, 1, 2, 3] : List Nat).get?
        ((1 : Int) + (0 : Int) * (2 : Int)).toNat = some t) :=
  ⟨(map_get_bounds (⟨⟨2, 2⟩, [0, 1, 2, 3]⟩ : Map Nat) ⟨5, 0⟩ rfl).1
      (by decide),
   (map_get_bounds (⟨⟨2, 2⟩, [0, 1, 2, 3]⟩ : Map Nat) ⟨1, 0⟩ rfl).2
      (by decide)⟩

/-- C6: Out-of-bounds write is a silent no-op: `Map::set` leaves the map
untouched for every out-of-bounds coordinate; in bounds (on a
well-formed map) it stores the value at that coordinate, keeps the size,
and leaves every other coordinate's value unchanged. -/
theorem map_set_frame {T : Type} (m : Map T) (p : Vec2D) (v : T) :
    (¬ m.inBounds p → m.set p v = m) ∧
    (m.set p v).size = m.size ∧
    (m.WF → m.inBounds p → (m.set p v).get p = some v) ∧
    ∀ q, q ≠ p → (m.set p v).get q = m.get q := by
  have hsetpos : m.inBounds p →
      m.set p v =
        { size := m.size, tiles := m.tiles.set (p.x + p.y * m.size.x).toNat v } := by
    intro hp
    rw [Map.set]
    simp [Map.index, hp]
  have hindex : ∀ (tl : List T) (q : Vec2D),
      ({ size := m.size, tiles := tl } : Map T).index q = m.index q := by
    intro tl q
    rfl
  refine ⟨?_, ?_, ?_, ?_⟩
  · intro h
    simp [Map.set, Map.index, h]
  · rcases hidx : m.index p with _ | idx <;> simp [Map.set, hidx]
  · intro hwf h
    have hlen : m.tiles.length = (m.size.x * m.size.y).toNat := hwf
    have hlt : (p.x + p.y * m.size.x).toNat < m.tiles.length := by
      rw [hlen]
      exact indexNat_lt h.1 h.2.1 h.2.2.1 h.2.2.2
    rw [hsetpos h, Map.get, hindex]
    simp only [Map.index, if_pos h, Option.bind]
    rw [List.get?_eq_getElem?]
    exact List.getElem?_set_eq_of_lt v hlt
  · intro q hq
    by_cases hp : m.inBounds p
    · rw [hsetpos hp, Map.get, hindex, Map.get]
      by_cases hqb : m.inBounds q
      · have hne : (p.x + p.y * m.size.x).toNat ≠ (q.x + q.y * m.size.x).toNat := by
          intro he
          rcases indexNat_inj hp.1 hp.2.1 hp.2.2.1 hqb.1 hqb.2.1 hqb.2.2.1 he with
            ⟨hx, hy⟩
          rcases p with ⟨px, py⟩
          rcases q with ⟨qx, qy⟩
          simp_all
        simp only [Map.index, if_pos hqb, Option.bind]
        rw [List.get?_eq_getElem?, List.get?_eq_getElem?]
        exact List.getElem?_set_ne hne
      · simp [Map.index, hqb]
    · simp [Map.set, Map.index, hp]

/-- Witness for `map_set_frame` on a concrete 2x2 map. -/
theorem map_set_frame_witness :
    ((⟨⟨2, 2⟩, [0, 1, 2, 3]⟩ : Map Nat).set ⟨0, 7⟩ 9 =
      (⟨⟨2, 2⟩, [0, 1, 2, 3]⟩ : Map Nat)) ∧
    ((⟨⟨2, 2⟩, [0, 1, 2, 3]⟩ : Map Nat).set ⟨1, 0⟩ 9).get ⟨1, 0⟩ = some 9 ∧
    ((⟨⟨2, 2⟩, [0, 1, 2, 3]⟩ : Map Nat).set ⟨1, 0⟩ 9).get ⟨0, 1⟩ =
      (⟨⟨2, 2⟩, [0, 1, 2, 3]⟩ : Map Nat).get ⟨0, 1⟩ :=
  ⟨(map_set_frame (⟨⟨2, 2⟩, [0, 1, 2, 3]⟩ : Map Nat) ⟨0, 7⟩ 9).1 (by decide),
   (map_set_frame (⟨⟨2, 2⟩, [0, 1, 2, 3]⟩ : Map Nat) ⟨1, 0⟩ 9).2.2.1
      rfl (by decide),
   (map_set_frame (⟨⟨2, 2⟩, [0, 1, 2, 3]⟩ : Map Nat) ⟨1, 0⟩ 9).2.2.2 ⟨0, 1⟩
      (by decide)⟩

/-- Reading back the byte of a tile gives that tile. -/
theorem tileOfByte_tileByte (t : Tile) : tileOfByte (tileByte t) = some t := by
  cases t <;> rfl

/-- No tile byte is the newline byte. -/
theorem tileByte_ne_newline (t : Tile) : tileByte t ≠ 10 := by
  cases t <;> simp [tileByte]

/-- `fillRow` on an encoded row of exactly the expected width consumes
it fully, performing the corresponding writes. -/
theorem fillRow_encode (row : List Tile) :
    ∀ (rest : List Nat) (m : Map Tile) (y x : Int),
    fillRow y row.length x m (row.map tileByte ++ rest) =
      some (writeRowAux m x y row, rest) := by
  induction row with
  | nil => intro rest m y x; rfl
  | cons t ts ih =>
      intro rest m y x
      simp only [List.map_cons, List.cons_append, List.length_cons]
      rw [fillRow, tileOfByte_tileByte]
      rw [writeRowAux]
      exact ih rest (m.set ⟨x, y⟩ t) y (x + 1)

/-- `fillRows` on an exhausted input leaves the map unchanged. -/
theorem fillRows_nil (c : Nat) : ∀ (k : Nat) (y : Int) (m : Map Tile),
    fillRows c k y m [] = some m := by
  intro k
  induction k with
  | zero => intro y m; rfl
  | succ n ih =>
      intro y m
      rw [fillRows]
      cases c with
      | zero =>
          rw [fillRow]
          exact ih (y + 1) m
      | succ w =>
          rw [fillRow]
          exact ih (y + 1) m

/-- `fillRows` over an encoded rectangular block performs the row writes
in order; surplus iterations are no-ops. -/
theorem fillRows_encode (c : Nat) :
    ∀ (rs : List (List Tile)) (k : Nat) (m : Map Tile) (y : Int),
    (∀ r ∈ rs, r.length = c) →
    fillRows c (rs.length + k) y m (encodeRows rs) = some (applyRows m y rs) := by
  intro rs
  induction rs with
  | nil =>
      intro k m y _
      simp only [List.length_nil, Nat.zero_add, encodeRows, List.flatMap_nil]
      rw [applyRows]
      exact fillRows_nil c k y m
  | cons row rs2 ih =>
      intro k m y hlen
      have hrow : row.length = c := hlen row (List.mem_cons_self row rs2)
      have henc : encodeRows (row :: rs2) =
          row.map tileByte ++ (10 :: encodeRows rs2) := by
        simp [encodeRows]
      have hcount : (row :: rs2).length + k = (rs2.length + k) + 1 := by
        simp
        omega
      have hfr := fillRow_encode row (10 :: encodeRows rs2) m y 0
      rw [hrow] at hfr
      rw [henc, hcount, fillRows, hfr]
      simp only [List.drop_succ_cons, List.drop_zero]
      rw [applyRows]
      exact ih k (writeRowAux m 0 y row) (y + 1)
        (fun r hr => hlen r (List.mem_cons_of_mem row hr))

/-- `writeRowAux` keeps the size. -/
theorem writeRowAux_size (row : List Tile) : ∀ (m : Map Tile) (x y : Int),
    (writeRowAux m x y row).size = m.size := by
  induction row with
  | nil => intro m x y; rfl
  | cons t ts ih =>
      intro m x y
      rw [writeRowAux, ih, Map.size_set]

/-- `writeRowAux` keeps well-formedness. -/
theorem writeRowAux_wf (row : List Tile) : ∀ (m : Map Tile) (x y : Int),
    m.WF → (writeRowAux m x y row).WF := by
  induction row with
  | nil => intro m x y h; exact h
  | cons t ts ih =>
      intro m x y h
      rw [writeRowAux]
      exact ih _ _ _ (Map.wf_set m ⟨x, y⟩ t h)

/-- `writeRowAux` does not touch other rows. -/
theorem writeRowAux_get_ne (row : List Tile) : ∀ (m : Map Tile) (x y : Int)
    (q : Vec2D), q.y ≠ y → (writeRowAux m x y row).get q = m.get q := by
  induction row with
  | nil => intro m x y q _; rfl
  | cons t ts ih =>
      intro m x y q hq
      rw [writeRowAux, ih _ _ _ q hq]
      exact Map.get_set_ne m ⟨x, y⟩ q t (fun he => hq (by rw [he]))

/-- `writeRowAux` does not touch columns left of its starting column. -/
theorem writeRowAux_get_lt (row : List Tile) : ∀ (m : Map Tile) (x y : Int)
    (q : Vec2D), q.x < x → (writeRowAux m x y row).get q = m.get q := by
  induction row with
  | nil => intro m x y q _; rfl
  | cons t ts ih =>
      intro m x y q hq
      rw [writeRowAux, ih _ _ _ q (by omega)]
      refine Map.get_set_ne m ⟨x, y⟩ q t (fun he => ?_)
      rw [he] at hq
      exact absurd hq (by simp)

/-- `writeRowAux` writes each tile of the row at its column. -/
theorem writeRowAux_get_at (row : List Tile) : ∀ (m : Map Tile) (x y : Int),
    m.WF → 0 ≤ x → 0 ≤ y → y < m.size.y → x + row.length ≤ m.size.x →
    ∀ i : Nat, i < row.length →
      (writeRowAux m x y row).get ⟨x + (i : Int), y⟩ = row.get? i := by
  induction row with
  | nil => intro m x y _ _ _ _ _ i hi; exact absurd hi (by simp)
  | cons t ts ih =>
      intro m x y hwf hx hy hylt hxle i hi
      have hxlt : x < m.size.x := by
        simp only [List.length_cons] at hxle
        omega
      rw [writeRowAux]
      cases i with
      | zero =>
          have hco : (⟨x + ((0 : Nat) : Int), y⟩ : Vec2D) = ⟨x, y⟩ := by
            simp
          rw [hco, writeRowAux_get_lt ts _ _ _ _ (by simp)]
          rw [Map.get_set_self m ⟨x, y⟩ t hwf ⟨hx, hxlt, hy, hylt⟩]
          rfl
      | succ i2 =>
          have hco : (⟨x + ((i2 + 1 : Nat) : Int), y⟩ : Vec2D) =
              ⟨(x + 1) + (i2 : Int), y⟩ := by
            have : x + ((i2 + 1 : Nat) : Int) = (x + 1) + (i2 : Int) := by
              push_cast
              ring
            rw [this]
          rw [hco]
          have hsz : (m.set ⟨x, y⟩ t).size = m.size := Map.size_set m ⟨x, y⟩ t
          have := ih (m.set ⟨x, y⟩ t) (x + 1) y
            (Map.wf_set m ⟨x, y⟩ t hwf) (by omega) hy
            (by rw [hsz]; exact hylt)
            (by rw [hsz]; simp only [List.length_cons] at hxle; omega)
            i2 (by simp only [List.length_cons] at hi; omega)
          rw [this]
          rfl

/-- `applyRows` keeps the size. -/
theorem applyRows_size (rs : List (List Tile)) : ∀ (m : Map Tile) (y : Int),
    (applyRows m y rs).size = m.size := by
  induction rs with
  | nil => intro m y; rfl
  | cons row rs2 ih =>
      intro m y
      rw [applyRows, ih, writeRowAux_size]

/-- `applyRows` keeps well-formedness. -/
theorem applyRows_wf (rs : List (List Tile)) : ∀ (m : Map Tile) (y : Int),
    m.WF → (applyRows m y rs).WF := by
  induction rs with
  | nil => intro m y h; exact h
  | cons row rs2 ih =>
      intro m y h
      rw [applyRows]
      exact ih _ _ (writeRowAux_wf row m 0 y h)

/-- `applyRows` does not touch rows above its starting row. -/
theorem applyRows_get_low (rs : List (List Tile)) : ∀ (m : Map Tile) (y : Int)
    (q : Vec2D), q.y < y → (applyRows m y rs).get q = m.get q := by
  induction rs with
  | nil => intro m y q _; rfl
  | cons row rs2 ih =>
      intro m y q hq
      rw [applyRows, ih _ _ q (by omega)]
      exact writeRowAux_get_ne row m 0 y q (by omega)

/-- `applyRows` does not touch rows at or beyond its ending row. -/
theorem applyRows_get_high (rs : List (List Tile)) : ∀ (m : Map Tile) (y : Int)
    (q : Vec2D), y + rs.length ≤ q.y → (applyRows m y rs).get q = m.get q := by
  induction rs with
  | nil => intro m y q _; rfl
  | cons row rs2 ih =>
      intro m y q hq
      simp only [List.length_cons] at hq
      rw [applyRows, ih _ _ q (by push_cast at hq; omega)]
      exact writeRowAux_get_ne row m 0 y q (by push_cast at hq; omega)

/-- `applyRows` writes each row of the block at its coordinates. -/
theorem applyRows_get_at (c : Nat) (rs : List (List Tile)) :
    ∀ (m : Map Tile) (y : Int),
    m.WF → 0 ≤ y → (∀ r ∈ rs, r.length = c) → (c : Int) ≤ m.size.x →
    y + rs.length ≤ m.size.y →
    ∀ j : Nat, j < rs.length → ∀ x : Nat, x < c →
      (applyRows m y rs).get ⟨(x : Int), y + (j : Int)⟩ =
        ((rs.get? j).getD []).get? x := by
  induction rs with
  | nil => intro m y _ _ _ _ _ j hj; exact absurd hj (by simp)
  | cons row rs2 ih =>
      intro m y hwf hy hlen hcx hcy j hj x hx
      have hrow : row.length = c := hlen row (List.mem_cons_self row rs2)
      simp only [List.length_cons] at hcy hj
      rw [applyRows]
      cases j with
      | zero =>
          have hco : (⟨(x : Int), y + ((0 : Nat) : Int)⟩ : Vec2D) =
              ⟨(x : Int), y⟩ := by
            simp
          rw [hco, applyRows_get_low rs2 _ _ _ (by simp)]
          have := writeRowAux_get_at row m 0 y hwf le_rfl hy
            (by push_cast at hcy; omega) (by rw [hrow]; omega)
            x (by omega)
          simp only [Int.zero_add] at this
          rw [this]
          rfl
      | succ j2 =>
          have hco : (⟨(x : Int), y + ((j2 + 1 : Nat) : Int)⟩ : Vec2D) =
              ⟨(x : Int), (y + 1) + (j2 : Int)⟩ := by
            have : y + ((j2 + 1 : Nat) : Int) = (y + 1) + (j2 : Int) := by
              push_cast
              ring
            rw [this]
          rw [hco]
          have hsz : (writeRowAux m 0 y row).size = m.size :=
            writeRowAux_size row m 0 y
          have := ih (writeRowAux m 0 y row) (y + 1)
            (writeRowAux_wf row m 0 y hwf) (by omega)
            (fun r hr => hlen r (List.mem_cons_of_mem row hr))
            (by rw [hsz]; exact hcx)
            (by rw [hsz]; push_cast at hcy; omega)
            j2 (by omega) x hx
          rw [this]
          rfl

/-- Scanning the tile bytes of one row just advances the column count. -/
theorem scanDims_tiles (row : List Tile) : ∀ (rest : List Nat)
    (curr maxc r0 : Nat),
    scanDims (row.map tileByte ++ rest) curr maxc r0 =
      scanDims rest (curr + row.length) maxc r0 := by
  induction row with
  | nil => intro rest curr maxc r0; rfl
  | cons t ts ih =>
      intro rest curr maxc r0
      simp only [List.map_cons, List.cons_append, List.length_cons]
      rw [scanDims, if_neg (tileByte_ne_newline t), ih]
      have : curr + 1 + ts.length = curr + (ts.length + 1) := by omega
      rw [this]

/-- The counting pass over an encoded rectangular block yields the row
width and one extra row for the trailing newline. -/
theorem scanDims_encode (c : Nat) : ∀ (rs : List (List Tile)),
    rs ≠ [] → (∀ r ∈ rs, r.length = c) → ∀ (maxc r0 : Nat),
    scanDims (encodeRows rs) 0 maxc r0 = (max maxc c, r0 + rs.length) := by
  intro rs
  induction rs with
  | nil => intro h; exact absurd rfl h
  | cons row rs2 ih =>
      intro _ hlen maxc r0
      have hrow : row.length = c := hlen row (List.mem_cons_self row rs2)
      have henc : encodeRows (row :: rs2) =
          row.map tileByte ++ (10 :: encodeRows rs2) := by
        simp [encodeRows]
      rw [henc, scanDims_tiles, scanDims, if_pos rfl]
      simp only [Nat.zero_add, hrow]
      cases hrs2 : rs2 with
      | nil =>
          simp [scanDims, encodeRows]
      | cons r2 rest2 =>
          rw [← hrs2]
          rw [ih (by rw [hrs2]; simp)
            (fun r hr => hlen r (List.mem_cons_of_mem row hr))]
          have h1 : max (max maxc c) c = max maxc c := by omega
          have h2 : r0 + 1 + rs2.length = r0 + (rs2.length + 1) := by omega
          rw [h1, h2]
          simp

/-- C9: Trailing-newline tolerance: parsing any well-formed rectangular
byte block whose every row (including the last) ends with a newline
succeeds and yields a grid with one extra final row of the default cell
`Tile::Floor`; the content rows parse to their tiles. -/
theorem parse_trailing_newline (rows : List (List Tile)) (c : Nat)
    (hne : rows ≠ []) (hlen : ∀ r ∈ rows, r.length = c) :
    ∃ m, Map.parse (encodeRows rows) = some m ∧
      m.size = ⟨(c : Int), ((rows.length + 1 : Nat) : Int)⟩ ∧
      (∀ x : Nat, x < c →
        m.get ⟨(x : Int), ((rows.length : Nat) : Int)⟩ = some Tile.Floor) ∧
      (∀ y x : Nat, y < rows.length → x < c →
        m.get ⟨(x : Int), (y : Int)⟩ = ((rows.get? y).getD []).get? x) := by
  have hscan : scanDims (encodeRows rows) 0 0 1 = (c, 1 + rows.length) := by
    rw [scanDims_encode c rows hne hlen 0 1]
    simp
  have hdims : (1 : Nat) + rows.length = rows.length + 1 := by omega
  set m0 : Map Tile :=
    Map.new Tile ⟨(c : Int), ((rows.length + 1 : Nat) : Int)⟩ with hm0
  have hparse : Map.parse (encodeRows rows) = some (applyRows m0 0 rows) := by
    rw [Map.parse, hscan]
    simp only [hdims]
    exact fillRows_encode c rows 1 m0 0 hlen
  have hwf0 : m0.WF := Map.wf_new _
  have hs0x : m0.size.x = (c : Int) := rfl
  have hs0y : m0.size.y = ((rows.length + 1 : Nat) : Int) := rfl
  have hsz : (applyRows m0 0 rows).size = m0.size := applyRows_size rows m0 0
  refine ⟨applyRows m0 0 rows, hparse, ?_, ?_, ?_⟩
  · rw [hsz]
    rfl
  · intro x hx
    have hhigh : (0 : Int) + rows.length ≤ ((rows.length : Nat) : Int) := by
      simp
    rw [applyRows_get_high rows m0 0 ⟨(x : Int), ((rows.length : Nat) : Int)⟩ hhigh]
    have hin : m0.inBounds ⟨(x : Int), ((rows.length : Nat) : Int)⟩ := by
      refine ⟨by positivity, ?_, by positivity, ?_⟩
      · rw [hs0x]
        show (x : Int) < (c : Int)
        exact_mod_cast hx
      · rw [hs0y]
        show ((rows.length : Nat) : Int) < ((rows.length + 1 : Nat) : Int)
        push_cast
        omega
    rw [Map.get_new _ _ hin]
    rfl
  · intro y x hy hx
    have := applyRows_get_at c rows m0 0 hwf0 le_rfl hlen
      (by rw [hs0x])
      (by rw [hs0y]; push_cast; omega)
      y (by omega) x hx
    simp only [Int.zero_add] at this
    rw [this]

/-- Witness for `parse_trailing_newline` at the spec's example `"..\n"`:
a 2x2 grid whose second row is floor. -/
theorem parse_trailing_newline_witness :
    ∃ m, Map.parse (encodeRows [[Tile.Floor, Tile.Floor]]) = some m ∧
      m.size = ⟨(2 : Int), (2 : Int)⟩ ∧
      (∀ x : Nat, x < 2 →
        m.get ⟨(x : Int), (1 : Int)⟩ = some Tile.Floor) ∧
      (∀ y x : Nat, y < 1 → x < 2 →
        m.get ⟨(x : Int), (y : Int)⟩ =
          (([[Tile.Floor, Tile.Floor]].get? y).getD []).get? x) :=
  parse_trailing_newline [[Tile.Floor, Tile.Floor]] 2 (by decide)
    (by intro r hr; simp at hr; rw [hr]; rfl)

/-- C4: Idempotence at fixed point: whenever the fixed-point search of
`Map::last` (resp. `Map::last_visible`) terminates with a grid, one more
application of the corresponding transition leaves that grid unchanged. -/
theorem fixed_point_idempotent (m g : Map Tile) (fuel : Nat) :
    (m.lastFuel fuel = some g → g.next = g) ∧
    (m.lastVisibleFuel fuel = some g → g.nextVisible = g) := by
  induction fuel generalizing m with
  | zero =>
      constructor <;> intro h <;> simp [Map.lastFuel, Map.lastVisibleFuel] at h
  | succ n ih =>
      constructor
      · intro h
        rw [Map.lastFuel] at h
        by_cases hc : m.next = m
        · have hg : m.next = g := by
            simpa [hc] using h
          rw [← hg, hc, hc]
        · rw [if_neg hc] at h
          exact (ih m.next).1 h
      · intro h
        rw [Map.lastVisibleFuel] at h
        by_cases hc : m.nextVisible = m
        · have hg : m.nextVisible = g := by
            simpa [hc] using h
          rw [← hg, hc, hc]
        · rw [if_neg hc] at h
          exact (ih m.nextVisible).2 h

/-- Witness for `fixed_point_idempotent` on the 1x1 default (all-floor)
map, which is already a fixed point of both transitions. -/
theorem fixed_point_idempotent_witness :
    (Map.new Tile ⟨1, 1⟩).next = Map.new Tile ⟨1, 1⟩ ∧
    (Map.new Tile ⟨1, 1⟩).nextVisible = Map.new Tile ⟨1, 1⟩ :=
  ⟨(fixed_point_idempotent (Map.new Tile ⟨1, 1⟩) (Map.new Tile ⟨1, 1⟩) 1).1
      (by decide),
   (fixed_point_idempotent (Map.new Tile ⟨1, 1⟩) (Map.new Tile ⟨1, 1⟩) 1).2
      (by decide)⟩

end Day11

namespace Day17

/-- C3: Life activation rule: after `Cube::activate(n)` the cube is
active iff it was active with 2 or 3 active neighbors, or inactive with
exactly 3 active neighbors. -/
theorem cube_activate_rule (c : Cube) (n : Nat) :
    (c.activate n).active = true ↔
      (c.active = true ∧ (n = 2 ∨ n = 3)) ∨ (c.active = false ∧ n = 3) := by
  unfold Cube.activate
  by_cases h : c.active <;> split_ifs <;> simp_all <;> omega


theorem ofLanes_nil : ofLanes [] = 0 := rfl

theorem ofLanes_cons (a : Nat) (l : List Nat) :
    ofLanes (a :: l) = a + 65536 * ofLanes l := rfl

theorem ofLanes_append (l1 l2 : List Nat) :
    ofLanes (l1 ++ l2) = ofLanes l1 + 2 ^ (16 * l1.length) * ofLanes l2 := by
  induction l1 with
  | nil => simp [ofLanes]
  | cons a l ih =>
      simp only [List.cons_append, ofLanes_cons, ih, List.length_cons]
      have : 2 ^ (16 * (l.length + 1)) = 65536 * 2 ^ (16 * l.length) := by
        rw [Nat.mul_add, Nat.pow_add]; ring
      rw [this]; ring

theorem ofLanes_replicate_zero (s : Nat) : ofLanes (List.replicate s 0) = 0 := by
  induction s with
  | zero => rfl
  | succ n ih => simp [List.replicate_succ, ofLanes_cons, ih]

theorem ofLanes_append_zeros (l : List Nat) (s : Nat) :
    ofLanes (l ++ List.replicate s 0) = ofLanes l := by
  rw [ofLanes_append, ofLanes_replicate_zero]; ring

/-- Bit `i` of a packed `a + 65536 * X` with `a < 65536`. -/
theorem testBit_lane {a : Nat} (X : Nat) (ha : a < 65536) (i : Nat) :
    (a + 65536 * X).testBit i =
      if i < 16 then a.testBit i else X.testBit (i - 16) := by
  by_cases h : i < 16
  · simp only [h, if_true]
    have he : i + (16 - i) = 16 := by omega
    have hdvd : (65536 : Nat) = 2 ^ i * 2 ^ (16 - i) := by
      rw [← Nat.pow_add, he]
    have h2 : 2 ^ (16 - i) * X = 2 * (2 ^ (15 - i) * X) := by
      have h3 : (16 - i) = 1 + (15 - i) := by omega
      rw [h3, Nat.pow_add]; ring
    rw [Nat.testBit_to_div_mod, Nat.testBit_to_div_mod, hdvd, Nat.mul_assoc,
      Nat.add_mul_div_left _ _ (Nat.two_pow_pos i), h2]
    have h4 : (a / 2 ^ i + 2 * (2 ^ (15 - i) * X)) % 2 = a / 2 ^ i % 2 := by
      omega
    rw [h4]
  · simp only [h, if_false]
    have hdiv : (a + 65536 * X) / 2 ^ i = X / 2 ^ (i - 16) := by
      have hi : (2 : Nat) ^ i = 2 ^ 16 * 2 ^ (i - 16) := by
        rw [← Nat.pow_add]
        congr 1
        omega
      rw [hi, ← Nat.div_div_eq_div_mul]
      congr 1
      have h5 : (a + 65536 * X) / 65536 = a / 65536 + X :=
        Nat.add_mul_div_left a X (by norm_num)
      show (a + 65536 * X) / 65536 = X
      rw [h5, Nat.div_eq_of_lt ha, Nat.zero_add]
    rw [Nat.testBit_to_div_mod, Nat.testBit_to_div_mod, hdiv]

/-- Lanewise split of `&&&`. -/
theorem land_lane_split {a b : Nat} (X Y : Nat) (ha : a < 65536)
    (hb : b < 65536) :
    (a + 65536 * X) &&& (b + 65536 * Y) = (a &&& b) + 65536 * (X &&& Y) := by
  have hab : a &&& b < 65536 := Nat.and_lt_two_pow a (n := 16) hb
  apply Nat.eq_of_testBit_eq
  intro i
  rw [Nat.testBit_land, testBit_lane X ha, testBit_lane Y hb,
    testBit_lane (X &&& Y) hab]
  by_cases h : i < 16 <;> simp [h, Nat.testBit_land]

/-- Lanewise split of `|||`. -/
theorem lor_lane_split {a b : Nat} (X Y : Nat) (ha : a < 65536)
    (hb : b < 65536) :
    (a + 65536 * X) ||| (b + 65536 * Y) = (a ||| b) + 65536 * (X ||| Y) := by
  have hab : a ||| b < 65536 := Nat.or_lt_two_pow (n := 16) ha hb
  apply Nat.eq_of_testBit_eq
  intro i
  rw [Nat.testBit_lor, testBit_lane X ha, testBit_lane Y hb,
    testBit_lane (X ||| Y) hab]
  by_cases h : i < 16 <;> simp [h, Nat.testBit_lor]

/-- Lanewise split of `^^^`. -/
theorem xor_lane_split {a b : Nat} (X Y : Nat) (ha : a < 65536)
    (hb : b < 65536) :
    (a + 65536 * X) ^^^ (b + 65536 * Y) = (a ^^^ b) + 65536 * (X ^^^ Y) := by
  have hab : a ^^^ b < 65536 := Nat.xor_lt_two_pow (n := 16) ha hb
  apply Nat.eq_of_testBit_eq
  intro i
  rw [Nat.testBit_xor, testBit_lane X ha, testBit_lane Y hb,
    testBit_lane (X ^^^ Y) hab]
  by_cases h : i < 16 <;> simp [h, Nat.testBit_xor]

theorem ofLanes_land {l1 l2 : List Nat} (h1 : Lanes16 l1) (h2 : Lanes16 l2) :
    ofLanes l1 &&& ofLanes l2 = ofLanes (List.zipWith (· &&& ·) l1 l2) := by
  induction l1 generalizing l2 with
  | nil => simp [ofLanes]
  | cons a l ih =>
      cases l2 with
      | nil => simp [ofLanes]
      | cons b m =>
          have ha : a < 65536 := h1 a (List.mem_cons_self a l)
          have hb : b < 65536 := h2 b (List.mem_cons_self b m)
          simp only [List.zipWith_cons_cons, ofLanes_cons]
          rw [land_lane_split (ofLanes l) (ofLanes m) ha hb,
            ih (fun x hx => h1 x (List.mem_cons_of_mem a hx))
              (fun x hx => h2 x (List.mem_cons_of_mem b hx))]

theorem ofLanes_lor {l1 l2 : List Nat} (h1 : Lanes16 l1) (h2 : Lanes16 l2)
    (hlen : l1.length = l2.length) :
    ofLanes l1 ||| ofLanes l2 = ofLanes (List.zipWith (· ||| ·) l1 l2) := by
  induction l1 generalizing l2 with
  | nil =>
      cases l2 with
      | nil => rfl
      | cons b m => simp at hlen
  | cons a l ih =>
      cases l2 with
      | nil => simp at hlen
      | cons b m =>
          have ha : a < 65536 := h1 a (List.mem_cons_self a l)
          have hb : b < 65536 := h2 b (List.mem_cons_self b m)
          simp only [List.length_cons, Nat.add_right_cancel_iff] at hlen
          simp only [List.zipWith_cons_cons, ofLanes_cons]
          rw [lor_lane_split (ofLanes l) (ofLanes m) ha hb,
            ih (fun x hx => h1 x (List.mem_cons_of_mem a hx))
              (fun x hx => h2 x (List.mem_cons_of_mem b hx)) hlen]

theorem ofLanes_xor {l1 l2 : List Nat} (h1 : Lanes16 l1) (h2 : Lanes16 l2)
    (hlen : l1.length = l2.length) :
    ofLanes l1 ^^^ ofLanes l2 = ofLanes (List.zipWith (· ^^^ ·) l1 l2) := by
  induction l1 generalizing l2 with
  | nil =>
      cases l2 with
      | nil => rfl
      | cons b m => simp at hlen
  | cons a l ih =>
      cases l2 with
      | nil => simp at hlen
      | cons b m =>
          have ha : a < 65536 := h1 a (List.mem_cons_self a l)
          have hb : b < 65536 := h2 b (List.mem_cons_self b m)
          simp only [List.length_cons, Nat.add_right_cancel_iff] at hlen
          simp only [List.zipWith_cons_cons, ofLanes_cons]
          rw [xor_lane_split (ofLanes l) (ofLanes m) ha hb,
            ih (fun x hx => h1 x (List.mem_cons_of_mem a hx))
              (fun x hx => h2 x (List.mem_cons_of_mem b hx)) hlen]

theorem ofLanes_add {l1 l2 : List Nat} (h : l1.length = l2.length) :
    ofLanes l1 + ofLanes l2 = ofLanes (List.zipWith (· + ·) l1 l2) := by
  induction l1 generalizing l2 with
  | nil => cases l2 with
      | nil => rfl
      | cons b m => simp at h
  | cons a l ih =>
      cases l2 with
      | nil => simp at h
      | cons b m =>
          simp only [List.length_cons, Nat.add_right_cancel_iff] at h
          simp only [List.zipWith_cons_cons, ofLanes_cons]
          rw [← ih h]; ring

theorem ofLanes_mul (c : Nat) (l : List Nat) :
    c * ofLanes l = ofLanes (l.map fun a => c * a) := by
  induction l with
  | nil => simp [ofLanes]
  | cons a l ih => simp only [List.map_cons, ofLanes_cons, ← ih]; ring

theorem ofLanes_shiftLeft (l : List Nat) (s : Nat) :
    ofLanes l <<< (16 * s) = ofLanes (List.replicate s 0 ++ l) := by
  rw [Nat.shiftLeft_eq, ofLanes_append, ofLanes_replicate_zero,
    List.length_replicate]
  ring

theorem ofLanes_tail {l : List Nat} (h : Lanes16 l) :
    ofLanes l >>> 16 = ofLanes l.tail := by
  cases l with
  | nil => simp [ofLanes]
  | cons a m =>
      have ha : a < 65536 := h a (List.mem_cons_self a m)
      rw [Nat.shiftRight_eq_div_pow]
      show (a + 65536 * ofLanes m) / 65536 = ofLanes m
      rw [Nat.add_mul_div_left a (ofLanes m) (by norm_num),
        Nat.div_eq_of_lt ha, Nat.zero_add]

theorem Lanes16.tail {l : List Nat} (h : Lanes16 l) : Lanes16 l.tail :=
  fun a ha => h a (List.mem_of_mem_tail ha)

theorem ofLanes_shiftRight {l : List Nat} (h : Lanes16 l) (s : Nat) :
    ofLanes l >>> (16 * s) = ofLanes (l.drop s) := by
  induction s generalizing l with
  | zero => simp
  | succ n ih =>
      have : 16 * (n + 1) = 16 + 16 * n := by ring
      rw [this, Nat.shiftRight_add, ofLanes_tail h, ih h.tail,
        List.drop_tail]

theorem ofLanes_mod_65535 (l : List Nat) :
    ofLanes l % 65535 = l.sum % 65535 := by
  induction l with
  | nil => rfl
  | cons a m ih =>
      show (a + 65536 * ofLanes m) % 65535 = (a + m.sum) % 65535
      have h1 : a + 65536 * ofLanes m = a + ofLanes m + 65535 * ofLanes m := by
        ring
      rw [h1, Nat.add_mul_mod_self_left, Nat.add_mod, ih, ← Nat.add_mod]

theorem ofLanes_div256 (l : List Nat) :
    ofLanes (l.map fun a => 256 * a) >>> 8 = ofLanes l := by
  rw [← ofLanes_mul, Nat.shiftRight_eq_div_pow]
  show 256 * ofLanes l / 256 = ofLanes l
  exact Nat.mul_div_cancel_left _ (by norm_num)

theorem pw2_eq (k : Nat) : pw2 k = 2 ^ k := by
  unfold pw2
  rw [Nat.shiftLeft_eq, Nat.one_mul]

theorem partGeo_mul (y : Nat) : ∀ len, y * partGeo (y + 1) len + 1 = (y + 1) ^ len
  | 0 => by simp [partGeo]
  | len + 1 => by
      have ih := partGeo_mul y len
      show y * (partGeo (y + 1) len + (y + 1) ^ len) + 1 = (y + 1) ^ (len + 1)
      calc y * (partGeo (y + 1) len + (y + 1) ^ len) + 1
          = (y * partGeo (y + 1) len + 1) + y * (y + 1) ^ len := by ring
        _ = (y + 1) ^ len + y * (y + 1) ^ len := by rw [ih]
        _ = (y + 1) ^ (len + 1) := by rw [pow_succ]; ring

theorem geoMask_eq (stride lo hi : Nat) (hs : 0 < stride) :
    geoMask stride lo hi =
      partGeo (2 ^ (16 * stride)) (hi + 1 - lo) * 2 ^ (16 * stride * lo) := by
  unfold geoMask
  rw [pw2_eq, pw2_eq, pw2_eq]
  have hy : 1 ≤ 2 ^ (16 * stride) := Nat.one_le_two_pow
  set y := 2 ^ (16 * stride) - 1 with hydef
  have hyy : 2 ^ (16 * stride) = y + 1 := by omega
  have hpos : 0 < y := by
    have : 2 ^ 16 ≤ 2 ^ (16 * stride) := by
      apply Nat.pow_le_pow_right (by norm_num)
      omega
    omega
  have hnum : 2 ^ (16 * stride * (hi + 1 - lo)) - 1 =
      y * partGeo (2 ^ (16 * stride)) (hi + 1 - lo) := by
    have hp : 2 ^ (16 * stride * (hi + 1 - lo)) =
        (2 ^ (16 * stride)) ^ (hi + 1 - lo) := by
      rw [← Nat.pow_mul]
    rw [hp, hyy, ← partGeo_mul y (hi + 1 - lo)]
    omega
  rw [hnum, Nat.mul_div_cancel_left _ hpos]

theorem selSum_congr (stride : Nat) {q r : Nat → Bool} :
    ∀ n, (∀ j, j < n → q j = r j) → selSum stride q n = selSum stride r n
  | 0, _ => rfl
  | n + 1, h => by
      simp only [selSum]
      rw [selSum_congr stride n fun j hj => h j (Nat.lt_succ_of_lt hj),
        h n (Nat.lt_succ_self n)]

theorem selSum_false (stride : Nat) : ∀ n, selSum stride (fun _ => false) n = 0
  | 0 => rfl
  | n + 1 => by simp [selSum, selSum_false stride n]

theorem selSum_add (stride : Nat) (q : Nat → Bool) (m : Nat) :
    ∀ k, selSum stride q (m + k) =
      selSum stride q m +
        2 ^ (16 * stride * m) * selSum stride (fun r => q (m + r)) k
  | 0 => by simp [selSum]
  | k + 1 => by
      show selSum stride q (m + k) + _ = _
      rw [selSum_add stride q m k]
      simp only [selSum]
      have hpow : (2 : Nat) ^ (16 * stride * (m + k)) =
          2 ^ (16 * stride * m) * 2 ^ (16 * stride * k) := by
        rw [← Nat.pow_add, Nat.mul_add]
      by_cases h : q (m + k) <;> simp [h, hpow] <;> ring

theorem selSum_and_const (stride : Nat) (P : Nat → Bool) (c : Bool) (s : Nat) :
    selSum stride (fun r => P r && c) s = if c then selSum stride P s else 0 := by
  cases c with
  | false =>
      rw [selSum_congr stride s (fun j _ => Bool.and_false (P j)),
        selSum_false]
      rfl
  | true => simp

/-- Peeling one dimension off a product-structured selector. -/
theorem selSum_peel (t s : Nat) (P R : Nat → Bool) (hs : 0 < s) :
    ∀ n, selSum t (fun j => P (j % s) && R (j / s)) (s * n) =
      selSum t P s * selSum (t * s) R n
  | 0 => by simp [selSum]
  | n + 1 => by
      have hmul : s * (n + 1) = s * n + s := by ring
      rw [hmul, selSum_add, selSum_peel t s P R hs n]
      have hinner : selSum t
          (fun r => P ((s * n + r) % s) && R ((s * n + r) / s)) s =
          selSum t (fun r => P r && R n) s := by
        apply selSum_congr
        intro j hj
        have h1 : (s * n + j) % s = j := by
          rw [Nat.mul_add_mod]
          exact Nat.mod_eq_of_lt hj
        have h2 : (s * n + j) / s = n := by
          rw [Nat.mul_add_div hs]
          rw [Nat.div_eq_of_lt hj, Nat.add_zero]
        rw [h1, h2]
      rw [hinner, selSum_and_const]
      show _ = selSum t P s * (selSum (t * s) R n + _)
      have hexp : 16 * t * (s * n) = 16 * (t * s) * n := by ring
      rw [hexp]
      by_cases h : R n <;> simp [h] <;> ring

theorem laneAt_nil (i : Nat) : laneAt [] i = 0 := by
  cases i <;> rfl

theorem laneAt_cons_zero (a : Nat) (l : List Nat) : laneAt (a :: l) 0 = a := rfl

theorem laneAt_cons_succ (a : Nat) (l : List Nat) (i : Nat) :
    laneAt (a :: l) (i + 1) = laneAt l i := rfl

theorem laneAt_drop (s : Nat) (l : List Nat) (i : Nat) :
    laneAt (l.drop s) i = laneAt l (s + i) := by
  induction s generalizing l with
  | zero => simp [laneAt]
  | succ n ih =>
      cases l with
      | nil => simp [laneAt_nil]
      | cons a m =>
          show laneAt (m.drop n) i = laneAt (a :: m) (n + 1 + i)
          have : n + 1 + i = (n + i) + 1 := by omega
          rw [this, laneAt_cons_succ, ih]

theorem laneAt_replicate_zero (s i : Nat) : laneAt (List.replicate s 0) i = 0 := by
  unfold laneAt
  rw [List.getD_eq_getElem?_getD, List.getElem?_replicate]
  by_cases h : i < s <;> simp [h]

theorem laneAt_append (l1 l2 : List Nat) (i : Nat) :
    laneAt (l1 ++ l2) i =
      if i < l1.length then laneAt l1 i else laneAt l2 (i - l1.length) := by
  unfold laneAt
  by_cases h : i < l1.length
  · rw [List.getD_eq_getElem?_getD, List.getElem?_append_left h, if_pos h,
      List.getD_eq_getElem?_getD]
  · rw [List.getD_eq_getElem?_getD, List.getElem?_append_right (by omega),
      if_neg h, List.getD_eq_getElem?_getD]

theorem laneAt_zipWith {f : Nat → Nat → Nat} (hf : f 0 0 = 0)
    (l1 l2 : List Nat) (hlen : l1.length = l2.length) (i : Nat) :
    laneAt (List.zipWith f l1 l2) i = f (laneAt l1 i) (laneAt l2 i) := by
  induction l1 generalizing l2 i with
  | nil =>
      cases l2 with
      | nil => simp [laneAt_nil, hf]
      | cons b m => simp at hlen
  | cons a l ih =>
      cases l2 with
      | nil => simp at hlen
      | cons b m =>
          simp only [List.length_cons, Nat.add_right_cancel_iff] at hlen
          cases i with
          | zero => rfl
          | succ j =>
              show laneAt (List.zipWith f l m) j = _
              rw [ih m hlen j]
              rfl

theorem laneAt_zipWith_and (l1 l2 : List Nat) (i : Nat) :
    laneAt (List.zipWith (· &&& ·) l1 l2) i = laneAt l1 i &&& laneAt l2 i := by
  induction l1 generalizing l2 i with
  | nil =>
      cases l2 <;> simp [laneAt_nil, Nat.zero_and]
  | cons a l ih =>
      cases l2 with
      | nil => simp [laneAt_nil, Nat.and_zero]
      | cons b m =>
          cases i with
          | zero => rfl
          | succ j =>
              show laneAt (List.zipWith (· &&& ·) l m) j = _
              rw [ih m j]
              rfl

theorem laneAt_mem_or_zero (l : List Nat) (i : Nat) :
    laneAt l i ∈ l ∨ laneAt l i = 0 := by
  unfold laneAt
  by_cases h : i < l.length
  · left
    rw [List.getD_eq_getElem?_getD, List.getElem?_eq_getElem h]
    exact List.getElem_mem h
  · right
    rw [List.getD_eq_getElem?_getD, List.getElem?_eq_none (by omega)]
    rfl

theorem indLanes_length (n : Nat) (q : Nat → Bool) :
    (indLanes n q).length = n := by simp [indLanes]

theorem indLanes_le_one {n : Nat} {q : Nat → Bool} {a : Nat}
    (ha : a ∈ indLanes n q) : a ≤ 1 := by
  simp only [indLanes, List.mem_map] at ha
  obtain ⟨i, _, hi⟩ := ha
  by_cases h : q i <;> simp [h] at hi <;> omega

theorem indLanes_lanes16 (n : Nat) (q : Nat → Bool) : Lanes16 (indLanes n q) :=
  fun a ha => lt_of_le_of_lt (indLanes_le_one ha) (by norm_num)

theorem laneAt_indLanes (n : Nat) (q : Nat → Bool) (i : Nat) :
    laneAt (indLanes n q) i =
      if i < n then (if q i then 1 else 0) else 0 := by
  unfold laneAt indLanes
  rw [List.getD_eq_getElem?_getD, List.getElem?_map]
  by_cases h : i < n
  · rw [List.getElem?_range h]
    simp [h]
  · rw [List.getElem?_eq_none (by simpa using by omega)]
    simp [h]

theorem indLanes_congr {n : Nat} {q r : Nat → Bool}
    (h : ∀ i, i < n → q i = r i) : indLanes n q = indLanes n r := by
  unfold indLanes
  apply List.map_congr_left
  intro i hi
  rw [h i (List.mem_range.mp hi)]

/-- `ofLanes` of an indicator list is the corresponding selector sum. -/
theorem ofLanes_indLanes (q : Nat → Bool) :
    ∀ n, ofLanes (indLanes n q) = selSum 1 q n
  | 0 => rfl
  | n + 1 => by
      have hr : indLanes (n + 1) q =
          indLanes n q ++ [if q n then 1 else 0] := by
        unfold indLanes
        rw [List.range_succ, List.map_append]
        rfl
      rw [hr, ofLanes_append, ofLanes_indLanes q n, indLanes_length]
      show selSum 1 q n + 2 ^ (16 * n) * ((if q n then 1 else 0) + 65536 * 0) =
        selSum 1 q n + (if q n then 2 ^ (16 * 1 * n) else 0)
      by_cases h : q n <;> simp [h]

theorem selSum_true (stride : Nat) :
    ∀ n, selSum stride (fun _ => true) n = partGeo (2 ^ (16 * stride)) n
  | 0 => rfl
  | n + 1 => by
      show selSum stride (fun _ => true) n + _ = partGeo (2 ^ (16 * stride)) n + _
      rw [selSum_true stride n]
      simp only [if_true]
      rw [← Nat.pow_mul]

theorem selSum_zero_of_false (stride : Nat) {q : Nat → Bool} (n : Nat)
    (h : ∀ j, j < n → q j = false) : selSum stride q n = 0 := by
  rw [selSum_congr stride n h, selSum_false]

/-- Extending the range beyond the last true index changes nothing. -/
theorem selSum_extend (stride : Nat) (q : Nat → Bool) (m k : Nat)
    (h : ∀ j, m ≤ j → q j = false) :
    selSum stride q (m + k) = selSum stride q m := by
  rw [selSum_add]
  have : selSum stride (fun r => q (m + r)) k = 0 :=
    selSum_zero_of_false stride k fun j _ => h (m + j) (by omega)
  rw [this]
  ring

theorem selSum_interval (stride lo hi n : Nat) (hn : hi < n) :
    selSum stride (ivP lo hi) n =
      partGeo (2 ^ (16 * stride)) (hi + 1 - lo) * 2 ^ (16 * stride * lo) := by
  by_cases hlh : hi < lo
  · have h0 : hi + 1 - lo = 0 := by omega
    rw [selSum_zero_of_false stride n fun j hj => by
        unfold ivP
        have h2 : ¬(lo ≤ j) ∨ ¬(j ≤ hi) := by omega
        rcases h2 with h2 | h2 <;> simp [h2],
      h0]
    simp [partGeo]
  · push_neg at hlh
    have hfin : ∀ j, hi + 1 ≤ j → ivP lo hi j = false := by
      intro j hj
      unfold ivP
      have h2 : ¬(j ≤ hi) := by omega
      simp [h2]
    have hlow : selSum stride (ivP lo hi) lo = 0 :=
      selSum_zero_of_false stride lo fun j hj => by
        unfold ivP
        have h1 : ¬(lo ≤ j) := by omega
        simp [h1]
    have hmidc : ∀ j, j < hi + 1 - lo →
        ivP lo hi (lo + j) = (fun _ => true) j := by
      intro j hj
      unfold ivP
      have h1 : lo ≤ lo + j := by omega
      have h2 : lo + j ≤ hi := by omega
      simp [h1, h2]
    have hmid : selSum stride (fun r => ivP lo hi (lo + r)) (hi + 1 - lo) =
        partGeo (2 ^ (16 * stride)) (hi + 1 - lo) := by
      rw [selSum_congr stride (hi + 1 - lo) hmidc, selSum_true]
    have hsplit : n = (lo + (hi + 1 - lo)) + (n - hi - 1) := by omega
    rw [hsplit,
      selSum_extend stride _ (lo + (hi + 1 - lo)) (n - hi - 1)
        (fun j hj => hfin j (by omega)),
      selSum_add, hlow, hmid]
    ring

theorem geoMask_of_selSum {stride lo hi n : Nat} (hs : 0 < stride)
    (hn : hi < n) :
    selSum stride (ivP lo hi) n = geoMask stride lo hi := by
  rw [selSum_interval stride lo hi n hn, geoMask_eq stride lo hi hs]

/-- The box mask closed form packs exactly the box indicator lanes. -/
theorem boxMaskF_eq (g : Geom) (hsx : 0 < g.sx) (hsy : 0 < g.sy)
    (hsz : 0 < g.sz) (hsw : 0 < g.sw)
    (lx hx ly hy lz hz lw hw : Nat) (hbx : hx < g.sx) (hby : hy < g.sy)
    (hbz : hz < g.sz) (hbw : hw < g.sw) :
    ofLanes (indLanes g.W (g.boxPred lx hx ly hy lz hz lw hw)) =
      boxMaskF g lx hx ly hy lz hz lw hw := by
  rw [ofLanes_indLanes]
  have e1 : selSum 1 (g.boxPred lx hx ly hy lz hz lw hw)
      (g.sx * (g.sy * (g.sz * g.sw))) =
      selSum 1 (ivP lx hx) g.sx *
        selSum (1 * g.sx) (yzwPred g.sy g.sz ly hy lz hz lw hw)
          (g.sy * (g.sz * g.sw)) :=
    selSum_peel 1 g.sx (ivP lx hx)
      (yzwPred g.sy g.sz ly hy lz hz lw hw) hsx (g.sy * (g.sz * g.sw))
  have e2 : selSum (1 * g.sx) (yzwPred g.sy g.sz ly hy lz hz lw hw)
      (g.sy * (g.sz * g.sw)) =
      selSum (1 * g.sx) (ivP ly hy) g.sy *
        selSum (1 * g.sx * g.sy) (zwPred g.sz lz hz lw hw)
          (g.sz * g.sw) :=
    selSum_peel (1 * g.sx) g.sy (ivP ly hy)
      (zwPred g.sz lz hz lw hw) hsy (g.sz * g.sw)
  have e3 : selSum (1 * g.sx * g.sy) (zwPred g.sz lz hz lw hw)
      (g.sz * g.sw) =
      selSum (1 * g.sx * g.sy) (ivP lz hz) g.sz *
        selSum (1 * g.sx * g.sy * g.sz) (ivP lw hw) g.sw :=
    selSum_peel (1 * g.sx * g.sy) g.sz (ivP lz hz) (ivP lw hw) hsz g.sw
  show selSum 1 (g.boxPred lx hx ly hy lz hz lw hw)
      (g.sx * (g.sy * (g.sz * g.sw))) = _
  rw [e1, e2, e3,
    geoMask_of_selSum (by norm_num) hbx,
    geoMask_of_selSum (by omega) hby,
    geoMask_of_selSum (by positivity) hbz,
    geoMask_of_selSum (by positivity) hbw]
  unfold boxMaskF
  ring_nf

theorem indLanes_true (n : Nat) :
    indLanes n (fun _ => true) = List.replicate n 1 := by
  unfold indLanes
  simp only [if_true]
  induction n with
  | zero => rfl
  | succ m ih =>
      rw [List.range_succ, List.map_append, ih, List.replicate_succ]
      show List.replicate m 1 ++ [1] = 1 :: List.replicate m 1
      rw [← List.replicate_succ, List.replicate_succ']

theorem repunitF_eq {Wn : Nat} (h : 0 < Wn) :
    repunitF Wn = ofLanes (List.replicate Wn 1) := by
  have h1 : ofLanes (List.replicate Wn 1) =
      ofLanes (indLanes Wn (fun _ => true)) := by rw [indLanes_true]
  rw [h1, ofLanes_indLanes]
  have h2 : selSum 1 (fun _ => true) Wn =
      selSum 1 (ivP 0 (Wn - 1)) Wn := by
    apply selSum_congr
    intro j hj
    unfold ivP
    have h3 : j ≤ Wn - 1 := by omega
    simp [h3]
  rw [h2, geoMask_of_selSum (by norm_num) (by omega)]
  rfl

theorem bcastF_eq {Wn : Nat} (c : Nat) (h : 0 < Wn) :
    bcastF Wn c = ofLanes (List.replicate Wn c) := by
  unfold bcastF
  rw [repunitF_eq h, ofLanes_mul, List.map_replicate]
  simp

theorem Geom.lane_lt (g : Geom) {a b c d : Nat} (ha : a < g.sx)
    (hb : b < g.sy) (hc : c < g.sz) (hd : d < g.sw) :
    g.lane a b c d < g.W := by
  unfold Geom.lane Geom.W
  have h1 : c + g.sz * d < g.sz * g.sw := by
    calc c + g.sz * d < g.sz + g.sz * d := by omega
      _ = g.sz * (d + 1) := by ring
      _ ≤ g.sz * g.sw := Nat.mul_le_mul_left _ (by omega)
  have h2 : b + g.sy * (c + g.sz * d) < g.sy * (g.sz * g.sw) := by
    calc b + g.sy * (c + g.sz * d) < g.sy + g.sy * (c + g.sz * d) := by omega
      _ = g.sy * ((c + g.sz * d) + 1) := by ring
      _ ≤ g.sy * (g.sz * g.sw) := Nat.mul_le_mul_left _ (by omega)
  calc a + g.sx * (b + g.sy * (c + g.sz * d))
      < g.sx + g.sx * (b + g.sy * (c + g.sz * d)) := by omega
    _ = g.sx * ((b + g.sy * (c + g.sz * d)) + 1) := by ring
    _ ≤ g.sx * (g.sy * (g.sz * g.sw)) := Nat.mul_le_mul_left _ (by omega)

theorem Geom.dec_lane (g : Geom) {a b c d : Nat} (ha : a < g.sx)
    (hb : b < g.sy) (hc : c < g.sz) (hd : d < g.sw) :
    g.decA (g.lane a b c d) = a ∧ g.decB (g.lane a b c d) = b ∧
      g.decC (g.lane a b c d) = c ∧ g.decD (g.lane a b c d) = d := by
  unfold Geom.lane Geom.decA Geom.decB Geom.decC Geom.decD
  have hx : (a + g.sx * (b + g.sy * (c + g.sz * d))) % g.sx = a := by
    rw [Nat.add_mul_mod_self_left]
    exact Nat.mod_eq_of_lt ha
  have hx2 : (a + g.sx * (b + g.sy * (c + g.sz * d))) / g.sx =
      b + g.sy * (c + g.sz * d) := by
    rw [Nat.add_mul_div_left _ _ (by omega), Nat.div_eq_of_lt ha, Nat.zero_add]
  have hy : (b + g.sy * (c + g.sz * d)) % g.sy = b := by
    rw [Nat.add_mul_mod_self_left]
    exact Nat.mod_eq_of_lt hb
  have hy2 : (b + g.sy * (c + g.sz * d)) / g.sy = c + g.sz * d := by
    rw [Nat.add_mul_div_left _ _ (by omega), Nat.div_eq_of_lt hb, Nat.zero_add]
  have hz : (c + g.sz * d) % g.sz = c := by
    rw [Nat.add_mul_mod_self_left]
    exact Nat.mod_eq_of_lt hc
  have hz2 : (c + g.sz * d) / g.sz = d := by
    rw [Nat.add_mul_div_left _ _ (by omega), Nat.div_eq_of_lt hc, Nat.zero_add]
  exact ⟨hx, by rw [hx2, hy], by rw [hx2, hy2, hz], by rw [hx2, hy2, hz2]⟩

theorem Geom.decA_lt (g : Geom) (i : Nat) (h : 0 < g.sx) : g.decA i < g.sx :=
  Nat.mod_lt _ h

theorem Geom.decB_lt (g : Geom) (i : Nat) (h : 0 < g.sy) : g.decB i < g.sy :=
  Nat.mod_lt _ h

theorem Geom.decC_lt (g : Geom) (i : Nat) (h : 0 < g.sz) : g.decC i < g.sz :=
  Nat.mod_lt _ h

theorem Geom.decD_lt (g : Geom) {i : Nat} (hp : g.Pos) (h : i < g.W) :
    g.decD i < g.sw := by
  unfold Geom.decD
  obtain ⟨hx, hy, hz, hw⟩ := hp
  rw [Nat.div_lt_iff_lt_mul hz, Nat.div_lt_iff_lt_mul hy,
    Nat.div_lt_iff_lt_mul hx]
  calc i < g.W := h
    _ = g.sw * g.sz * g.sy * g.sx := by unfold Geom.W; ring

theorem Geom.lane_dec (g : Geom) (i : Nat) :
    g.lane (g.decA i) (g.decB i) (g.decC i) (g.decD i) = i := by
  unfold Geom.lane Geom.decA Geom.decB Geom.decC Geom.decD
  have h1 : i % g.sx + g.sx * (i / g.sx) = i := Nat.mod_add_div i g.sx
  have h2 : i / g.sx % g.sy + g.sy * (i / g.sx / g.sy) = i / g.sx :=
    Nat.mod_add_div _ g.sy
  have h3 : i / g.sx / g.sy % g.sz + g.sz * (i / g.sx / g.sy / g.sz) =
      i / g.sx / g.sy := Nat.mod_add_div _ g.sz
  calc i % g.sx + g.sx * (i / g.sx % g.sy + g.sy *
        (i / g.sx / g.sy % g.sz + g.sz * (i / g.sx / g.sy / g.sz)))
      = i % g.sx + g.sx * (i / g.sx % g.sy + g.sy * (i / g.sx / g.sy)) := by
        rw [h3]
    _ = i % g.sx + g.sx * (i / g.sx) := by rw [h2]
    _ = i := h1

theorem ivP_eq_decide (lo hi j : Nat) : ivP lo hi j = decide (lo ≤ j ∧ j ≤ hi) :=
  (Bool.decide_and _ _).symm

/-- Within one dimension, the clipped interval is exactly validity. -/
theorem clip_iff {S : Nat} {d : Int} (hd : -(S : Int) < d ∧ d < S)
    {a : Nat} (ha : a < S) :
    ivP (clipLo d) (clipHi S d) a =
      (decide (0 ≤ (a : Int) + d) && decide ((a : Int) + d < S)) := by
  rw [ivP_eq_decide, ← Bool.decide_and, decide_eq_decide]
  unfold clipLo clipHi
  omega

/-- On lanes below `g.W`, the clipped box mask predicate is exactly
component-wise validity. -/
theorem boxPred_clip_eq_validAt (g : Geom) (hp : g.Pos) {o : Key}
    (ho : g.SmallOff o) {i : Nat} (hi : i < g.W) :
    g.boxPred (clipLo o.1) (clipHi g.sx o.1) (clipLo o.2.1) (clipHi g.sy o.2.1)
        (clipLo o.2.2.1) (clipHi g.sz o.2.2.1) (clipLo o.2.2.2)
        (clipHi g.sw o.2.2.2) i = g.validAt i o := by
  obtain ⟨hx, hy, hz, hw⟩ := hp
  obtain ⟨hox, hoy, hoz, how⟩ := ho
  unfold Geom.boxPred yzwPred zwPred Geom.validAt Geom.decA Geom.decB
    Geom.decC Geom.decD
  have e1 := clip_iff hox (g.decA_lt i hx)
  have e2 := clip_iff hoy (g.decB_lt i hy)
  have e3 := clip_iff hoz (g.decC_lt i hz)
  have e4 := clip_iff how (g.decD_lt ⟨hx, hy, hz, hw⟩ hi)
  unfold Geom.decA at e1
  unfold Geom.decB at e2
  unfold Geom.decC at e3
  unfold Geom.decD at e4
  rw [e1, e2, e3, e4]

/-- A valid neighbor read lands on the lane of the shifted cell. -/
theorem Geom.nbrLane_eq (g : Geom) (hp : g.Pos) {i : Nat} (hi : i < g.W)
    {o : Key} (hv : g.validAt i o = true) :
    ((i : Int) + g.shiftAmt o =
        (g.lane ((g.decA i : Int) + o.1).toNat ((g.decB i : Int) + o.2.1).toNat
          ((g.decC i : Int) + o.2.2.1).toNat
          ((g.decD i : Int) + o.2.2.2).toNat : Nat)) ∧
      g.nbrLane i o < g.W := by
  obtain ⟨hx, hy, hz, hw⟩ := hp
  unfold Geom.validAt at hv
  simp only [Bool.and_eq_true, decide_eq_true_eq] at hv
  obtain ⟨⟨ha0, ha1⟩, ⟨hb0, hb1⟩, ⟨hc0, hc1⟩, ⟨hd0, hd1⟩⟩ := hv
  have hdd : g.decD i < g.sw := g.decD_lt ⟨hx, hy, hz, hw⟩ hi
  have henc : i = g.lane (g.decA i) (g.decB i) (g.decC i) (g.decD i) :=
    (g.lane_dec i).symm
  have hmain : (i : Int) + g.shiftAmt o =
      (g.lane ((g.decA i : Int) + o.1).toNat ((g.decB i : Int) + o.2.1).toNat
        ((g.decC i : Int) + o.2.2.1).toNat ((g.decD i : Int) + o.2.2.2).toNat :
        Nat) := by
    unfold Geom.shiftAmt
    unfold Geom.lane
    push_cast
    rw [Int.toNat_of_nonneg ha0, Int.toNat_of_nonneg hb0,
      Int.toNat_of_nonneg hc0, Int.toNat_of_nonneg hd0]
    have hi2 : (i : Int) =
        g.decA i + g.sx * (g.decB i + g.sy * (g.decC i + g.sz * g.decD i)) := by
      conv_lhs => rw [henc]
      unfold Geom.lane
      push_cast
      ring
    rw [hi2]
    ring
  constructor
  · exact hmain
  · unfold Geom.nbrLane
    rw [hmain]
    rw [Int.toNat_natCast]
    apply g.lane_lt
    · omega
    · omega
    · omega
    · omega

theorem natLanes_length (n : Nat) (v : Nat → Nat) :
    (natLanes n v).length = n := by simp [natLanes]

theorem laneAt_natLanes (n : Nat) (v : Nat → Nat) (i : Nat) :
    laneAt (natLanes n v) i = if i < n then v i else 0 := by
  unfold laneAt natLanes
  rw [List.getD_eq_getElem?_getD, List.getElem?_map]
  by_cases h : i < n
  · rw [List.getElem?_range h]
    simp [h]
  · rw [List.getElem?_eq_none (by simpa using by omega)]
    simp [h]

theorem indLanes_natLanes (n : Nat) (q : Nat → Bool) :
    indLanes n q = natLanes n fun i => if q i then 1 else 0 := rfl

theorem ofLanes_of_zero {l : List Nat} (h : ∀ a ∈ l, a = 0) :
    ofLanes l = 0 := by
  induction l with
  | nil => rfl
  | cons a m ih =>
      rw [ofLanes_cons, h a (List.mem_cons_self a m),
        ih fun x hx => h x (List.mem_cons_of_mem a hx)]

/-- Two lane lists with the same per-lane values pack to the same number. -/
theorem ofLanes_ext {l1 l2 : List Nat} (h : ∀ i, laneAt l1 i = laneAt l2 i) :
    ofLanes l1 = ofLanes l2 := by
  induction l1 generalizing l2 with
  | nil =>
      rw [ofLanes_nil, eq_comm]
      apply ofLanes_of_zero
      intro a ha
      obtain ⟨i, hlt, hget⟩ := List.mem_iff_getElem.mp ha
      have := h i
      rw [laneAt_nil] at this
      unfold laneAt at this
      rw [List.getD_eq_getElem?_getD, List.getElem?_eq_getElem hlt] at this
      simp at this
      omega
  | cons a l ih =>
      cases l2 with
      | nil =>
          rw [ofLanes_nil]
          apply ofLanes_of_zero
          intro x hx
          obtain ⟨i, hlt, hget⟩ := List.mem_iff_getElem.mp hx
          have := h i
          rw [laneAt_nil] at this
          unfold laneAt at this
          rw [List.getD_eq_getElem?_getD, List.getElem?_eq_getElem hlt] at this
          simp at this
          omega
      | cons b m =>
          have h0 := h 0
          rw [laneAt_cons_zero, laneAt_cons_zero] at h0
          have ht : ofLanes l = ofLanes m := ih fun i => by
            have hti := h (i + 1)
            rw [laneAt_cons_succ, laneAt_cons_succ] at hti
            exact hti
          rw [ofLanes_cons, ofLanes_cons, h0, ht]

theorem cnt_le (g : Geom) (bits : Nat → Bool) (offs : List Key) (i : Nat) :
    g.cnt bits offs i ≤ offs.length := List.countP_le_length _

theorem ind_and_ind (p q : Bool) :
    ((if p then 1 else 0) &&& (if q then 1 else 0) : Nat) =
      if (p && q) then 1 else 0 := by
  cases p <;> cases q <;> decide

/-- One masked shift packs the per-lane valid-active-neighbor indicator. -/
theorem contrib_rep (g : Geom) (hp : g.Pos) (bits : Nat → Bool) (o : Key)
    (ho : g.SmallOff o) :
    shiftBy (ofLanes (indLanes g.W bits)) (g.shiftAmt o) &&& g.offMask o =
      ofLanes (indLanes g.W fun i => g.validAt i o && bits (g.nbrLane i o)) := by
  obtain ⟨hx, hy, hz, hw⟩ := hp
  have hmaskb : ofLanes (indLanes g.W (g.boxPred (clipLo o.1) (clipHi g.sx o.1)
      (clipLo o.2.1) (clipHi g.sy o.2.1) (clipLo o.2.2.1) (clipHi g.sz o.2.2.1)
      (clipLo o.2.2.2) (clipHi g.sw o.2.2.2))) = g.offMask o :=
    boxMaskF_eq g hx hy hz hw _ _ _ _ _ _ _ _
      (lt_of_le_of_lt (Nat.min_le_right _ _) (by omega))
      (lt_of_le_of_lt (Nat.min_le_right _ _) (by omega))
      (lt_of_le_of_lt (Nat.min_le_right _ _) (by omega))
      (lt_of_le_of_lt (Nat.min_le_right _ _) (by omega))
  have hmask : g.offMask o = ofLanes (indLanes g.W fun i => g.validAt i o) := by
    rw [← hmaskb]
    congr 1
    exact indLanes_congr fun i hi => boxPred_clip_eq_validAt g ⟨hx, hy, hz, hw⟩ ho hi
  rw [hmask]
  unfold shiftBy
  by_cases hs : 0 ≤ g.shiftAmt o
  · rw [if_pos hs,
      ofLanes_shiftRight (indLanes_lanes16 _ _) (g.shiftAmt o).toNat,
      ofLanes_land (fun a ha => indLanes_lanes16 g.W bits a
        (List.mem_of_mem_drop ha)) (indLanes_lanes16 _ _)]
    apply ofLanes_ext
    intro i
    rw [laneAt_zipWith_and, laneAt_drop, laneAt_indLanes, laneAt_indLanes,
      laneAt_indLanes]
    by_cases hiw : i < g.W
    · by_cases hv : g.validAt i o = true
      · have hnb := g.nbrLane_eq ⟨hx, hy, hz, hw⟩ hiw hv
        have hnbv : g.nbrLane i o = (g.shiftAmt o).toNat + i := by
          unfold Geom.nbrLane
          omega
        have hlt : (g.shiftAmt o).toNat + i < g.W := by
          rw [← hnbv]
          exact hnb.2
        rw [← hnbv, if_pos hiw, if_pos hnb.2, hv, ind_and_ind,
          Bool.and_comm]
        simp [hiw]
      · have hv2 : g.validAt i o = false := by
          revert hv
          cases g.validAt i o <;> simp
        simp [laneAt_indLanes, hiw, hv2, Nat.and_zero]
    · simp [laneAt_indLanes, hiw, Nat.and_zero]
  · rw [if_neg hs, ofLanes_shiftLeft,
      ofLanes_land (fun a ha => by
        rcases List.mem_append.mp ha with h1 | h1
        · rw [List.eq_of_mem_replicate h1]
          norm_num
        · exact indLanes_lanes16 g.W bits a h1) (indLanes_lanes16 _ _)]
    apply ofLanes_ext
    intro i
    rw [laneAt_zipWith_and, laneAt_append, laneAt_indLanes, laneAt_indLanes,
      List.length_replicate]
    by_cases hiw : i < g.W
    · by_cases hv : g.validAt i o = true
      · have hnb := g.nbrLane_eq ⟨hx, hy, hz, hw⟩ hiw hv
        have hge : (-(g.shiftAmt o)).toNat ≤ i := by
          have h0 : (0 : Int) ≤ (i : Int) + g.shiftAmt o := by
            rw [hnb.1]
            exact Int.natCast_nonneg _
          omega
        have hnbv : g.nbrLane i o = i - (-(g.shiftAmt o)).toNat := by
          unfold Geom.nbrLane
          omega
        rw [if_neg (by omega), laneAt_indLanes, ← hnbv,
          if_pos (by omega : g.nbrLane i o < g.W), if_pos hiw, hv,
          ind_and_ind, Bool.and_comm]
        simp [hiw]
      · have hv2 : g.validAt i o = false := by
          revert hv
          cases g.validAt i o <;> simp
        simp [laneAt_indLanes, hiw, hv2, Nat.and_zero]
    · simp [laneAt_indLanes, hiw, Nat.and_zero]

theorem laneAt_replicate (c n i : Nat) :
    laneAt (List.replicate n c) i = if i < n then c else 0 := by
  unfold laneAt
  rw [List.getD_eq_getElem?_getD, List.getElem?_replicate]
  by_cases h : i < n <;> simp [h]

/-- The neighbor-count fold packs the per-lane neighbor counts on top of
any starting lane values. -/
theorem count_fold_rep (g : Geom) (hp : g.Pos) (bits : Nat → Bool) :
    ∀ (offs : List Key), (∀ o ∈ offs, g.SmallOff o) → ∀ q : Nat → Nat,
      offs.foldl
        (fun acc o => acc +
          (shiftBy (ofLanes (indLanes g.W bits)) (g.shiftAmt o) &&& g.offMask o))
        (ofLanes (natLanes g.W q)) =
      ofLanes (natLanes g.W fun i => q i + g.cnt bits offs i)
  | [], _, q => by
      show ofLanes (natLanes g.W q) = _
      apply ofLanes_ext
      intro i
      rw [laneAt_natLanes, laneAt_natLanes]
      unfold Geom.cnt
      simp
  | o :: os, hso, q => by
      show List.foldl _ (ofLanes (natLanes g.W q) +
        (shiftBy (ofLanes (indLanes g.W bits)) (g.shiftAmt o) &&&
          g.offMask o)) os = _
      rw [contrib_rep g hp bits o (hso o (List.mem_cons_self o os)),
        ofLanes_add (by rw [natLanes_length, indLanes_length])]
      have hstep : ofLanes (List.zipWith (· + ·) (natLanes g.W q)
          (indLanes g.W fun i => g.validAt i o && bits (g.nbrLane i o))) =
          ofLanes (natLanes g.W fun i =>
            q i + if (g.validAt i o && bits (g.nbrLane i o)) then 1 else 0) := by
        apply ofLanes_ext
        intro i
        rw [laneAt_zipWith rfl _ _ (by rw [natLanes_length, indLanes_length]),
          laneAt_natLanes, laneAt_indLanes, laneAt_natLanes]
        by_cases hiw : i < g.W <;> simp [hiw]
      rw [hstep,
        count_fold_rep g hp bits os
          (fun o2 ho2 => hso o2 (List.mem_cons_of_mem o ho2)) _]
      apply ofLanes_ext
      intro i
      rw [laneAt_natLanes, laneAt_natLanes]
      by_cases hiw : i < g.W
      · rw [if_pos hiw, if_pos hiw]
        unfold Geom.cnt
        rw [List.countP_cons]
        by_cases hc : (g.validAt i o && bits (g.nbrLane i o)) = true <;>
          simp [hc] <;> omega
      · rw [if_neg hiw, if_neg hiw]

/-- The count fold from zero packs exactly the per-lane counts. -/
theorem count_rep (g : Geom) (hp : g.Pos) (bits : Nat → Bool)
    (offs : List Key) (hso : ∀ o ∈ offs, g.SmallOff o) :
    offs.foldl
      (fun acc o => acc +
        (shiftBy (ofLanes (indLanes g.W bits)) (g.shiftAmt o) &&&
          g.offMask o)) 0 =
    ofLanes (natLanes g.W (g.cnt bits offs)) := by
  have h0 : (0 : Nat) = ofLanes (natLanes g.W fun _ => 0) := by
    rw [eq_comm]
    apply ofLanes_of_zero
    intro a ha
    unfold natLanes at ha
    simp at ha
    omega
  rw [h0, count_fold_rep g hp bits offs hso]
  apply ofLanes_ext
  intro i
  rw [laneAt_natLanes, laneAt_natLanes]
  by_cases hiw : i < g.W <;> simp [hiw]

theorem laneAt_map {f : Nat → Nat} (hf : f 0 = 0) (l : List Nat) (i : Nat) :
    laneAt (l.map f) i = f (laneAt l i) := by
  unfold laneAt
  rw [List.getD_eq_getElem?_getD, List.getElem?_map,
    List.getD_eq_getElem?_getD]
  by_cases h : i < l.length
  · rw [List.getElem?_eq_getElem h]
    rfl
  · rw [List.getElem?_eq_none (by omega)]
    simpa using hf.symm

theorem lanes16_of_laneAt {l : List Nat} (h : ∀ i, laneAt l i < 65536) :
    Lanes16 l := by
  intro a ha
  obtain ⟨i, hlt, hget⟩ := List.mem_iff_getElem.mp ha
  have h2 := h i
  unfold laneAt at h2
  rw [List.getD_eq_getElem?_getD, List.getElem?_eq_getElem hlt] at h2
  rw [← hget]
  simpa using h2

theorem lanes16_natLanes {n : Nat} {v : Nat → Nat} (h : ∀ i, v i < 65536) :
    Lanes16 (natLanes n v) :=
  lanes16_of_laneAt fun i => by
    rw [laneAt_natLanes]
    by_cases hi : i < n
    · simp only [hi, if_true]
      exact h i
    · simp [hi]

theorem lanes16_replicate {n c : Nat} (h : c < 65536) :
    Lanes16 (List.replicate n c) := fun a ha => by
  rw [List.eq_of_mem_replicate ha]
  exact h

theorem and256 (P Q : Prop) [Decidable P] [Decidable Q] :
    ((if P then 256 else 0) &&& (if Q then (256 : Nat) else 0)) =
      if P ∧ Q then 256 else 0 := by
  by_cases hp : P
  · by_cases hq : Q
    · rw [if_pos hp, if_pos hq, if_pos ⟨hp, hq⟩]
      decide
    · rw [if_pos hp, if_neg hq, if_neg fun h => hq h.2, Nat.and_zero]
  · by_cases hq : Q
    · rw [if_neg hp, if_pos hq, if_neg fun h => hp h.1, Nat.zero_and]
    · rw [if_neg hp, if_neg hq, if_neg fun h => hp h.1, Nat.zero_and]

theorem or256 (P Q : Prop) [Decidable P] [Decidable Q] :
    ((if P then 256 else 0) ||| (if Q then (256 : Nat) else 0)) =
      if P ∨ Q then 256 else 0 := by
  by_cases hp : P
  · by_cases hq : Q
    · rw [if_pos hp, if_pos hq, if_pos (Or.inl hp)]
      decide
    · rw [if_pos hp, if_neg hq, if_pos (Or.inl hp), Nat.or_zero]
  · by_cases hq : Q
    · rw [if_neg hp, if_pos hq, if_pos (Or.inr hq), Nat.zero_or]
    · rw [if_neg hp, if_neg hq, if_neg (by tauto), Nat.zero_or]

theorem xor256 (P : Prop) [Decidable P] :
    ((if P then 256 else 0) ^^^ (256 : Nat)) = if P then 0 else 256 := by
  by_cases hp : P
  · rw [if_pos hp, if_pos hp]
    decide
  · rw [if_neg hp, if_neg hp]
    decide

theorem mul256_ind (P : Prop) [Decidable P] :
    (256 * (if P then (1 : Nat) else 0)) = if P then 256 else 0 := by
  by_cases hp : P <;> simp [hp]

theorem lifeB_iff (a : Bool) (n : Nat) :
    ((3 ≤ n ∧ ¬4 ≤ n) ∨ (a = true ∧ (2 ≤ n ∧ ¬4 ≤ n))) ↔ lifeB a n = true := by
  unfold lifeB
  cases a <;> simp <;> omega

theorem natLanes_congr {n : Nat} {v1 v2 : Nat → Nat}
    (h : ∀ i, i < n → v1 i = v2 i) : natLanes n v1 = natLanes n v2 := by
  unfold natLanes
  apply List.map_congr_left
  intro i hi
  exact h i (List.mem_range.mp hi)

theorem land256_natLanes (Wn : Nat) (P Q : Nat → Prop) [DecidablePred P]
    [DecidablePred Q] :
    ofLanes (natLanes Wn fun i => if P i then 256 else 0) &&&
      ofLanes (natLanes Wn fun i => if Q i then 256 else 0) =
      ofLanes (natLanes Wn fun i => if P i ∧ Q i then 256 else 0) := by
  rw [ofLanes_land
    (lanes16_natLanes fun i => by by_cases h : P i <;> simp [h])
    (lanes16_natLanes fun i => by by_cases h : Q i <;> simp [h])]
  apply ofLanes_ext
  intro i
  rw [laneAt_zipWith_and, laneAt_natLanes, laneAt_natLanes, laneAt_natLanes]
  by_cases hiw : i < Wn
  · simp only [hiw, if_true]
    exact and256 _ _
  · simp [hiw]

theorem lor256_natLanes (Wn : Nat) (P Q : Nat → Prop) [DecidablePred P]
    [DecidablePred Q] :
    ofLanes (natLanes Wn fun i => if P i then 256 else 0) |||
      ofLanes (natLanes Wn fun i => if Q i then 256 else 0) =
      ofLanes (natLanes Wn fun i => if P i ∨ Q i then 256 else 0) := by
  rw [ofLanes_lor
    (lanes16_natLanes fun i => by by_cases h : P i <;> simp [h])
    (lanes16_natLanes fun i => by by_cases h : Q i <;> simp [h])
    (by rw [natLanes_length, natLanes_length])]
  apply ofLanes_ext
  intro i
  rw [laneAt_zipWith rfl _ _ (by rw [natLanes_length, natLanes_length]),
    laneAt_natLanes, laneAt_natLanes, laneAt_natLanes]
  by_cases hiw : i < Wn
  · simp only [hiw, if_true]
    exact or256 _ _
  · simp [hiw]

set_option maxRecDepth 8000 in
/-- The bitboard step packs the life rule applied lanewise inside the
allowed box. -/
theorem stepF_rep (g : Geom) (hp : g.Pos) (hW : 0 < g.W)
    (bits allowP : Nat → Bool) (offs : List Key)
    (hso : ∀ o ∈ offs, g.SmallOff o) (hol : offs.length ≤ 254) :
    g.stepF offs (ofLanes (indLanes g.W allowP))
        (ofLanes (indLanes g.W bits)) =
      ofLanes (indLanes g.W fun i =>
        allowP i && lifeB (bits i) (g.cnt bits offs i)) := by
  have hcb : ∀ i, g.cnt bits offs i ≤ 254 :=
    fun i => le_trans (cnt_le g bits offs i) hol
  have hcarry : ∀ k, k < 5 → 0 < k → ∀ n, n < 255 →
      ((n + (256 - k)) &&& 256) = if k ≤ n then 256 else 0 := by decide
  have hcnt : g.countF offs (ofLanes (indLanes g.W bits)) =
      ofLanes (natLanes g.W (g.cnt bits offs)) := count_rep g hp bits offs hso
  have hgeK : ∀ k, k < 5 → 0 < k →
      geK g.W (g.countF offs (ofLanes (indLanes g.W bits))) k =
      ofLanes (natLanes g.W fun i =>
        if k ≤ g.cnt bits offs i then 256 else 0) := by
    intro k hk5 hk0
    unfold geK
    rw [hcnt, bcastF_eq (256 - k) hW,
      ofLanes_add (by rw [natLanes_length, List.length_replicate]),
      bcastF_eq 256 hW,
      ofLanes_land
        (lanes16_of_laneAt fun i => by
          rw [laneAt_zipWith rfl _ _
            (by rw [natLanes_length, List.length_replicate]),
            laneAt_natLanes, laneAt_replicate]
          by_cases hiw : i < g.W
          · have := hcb i
            simp only [hiw, if_true]
            omega
          · simp [hiw])
        (lanes16_replicate (by norm_num))]
    apply ofLanes_ext
    intro i
    rw [laneAt_zipWith_and,
      laneAt_zipWith rfl _ _
        (by rw [natLanes_length, List.length_replicate]),
      laneAt_natLanes, laneAt_replicate, laneAt_replicate, laneAt_natLanes]
    by_cases hiw : i < g.W
    · simp only [hiw, if_true]
      exact hcarry k hk5 hk0 _ (by have := hcb i; omega)
    · simp [hiw]
  have hxor : geK g.W (g.countF offs (ofLanes (indLanes g.W bits))) 4 ^^^
      bcastF g.W 256 =
      ofLanes (natLanes g.W fun i =>
        if ¬4 ≤ g.cnt bits offs i then 256 else 0) := by
    rw [hgeK 4 (by norm_num) (by norm_num), bcastF_eq 256 hW,
      ofLanes_xor
        (lanes16_natLanes fun i => by
          by_cases h : 4 ≤ g.cnt bits offs i <;> simp [h])
        (lanes16_replicate (by norm_num))
        (by rw [natLanes_length, List.length_replicate])]
    apply ofLanes_ext
    intro i
    rw [laneAt_zipWith rfl _ _
      (by rw [natLanes_length, List.length_replicate]),
      laneAt_natLanes, laneAt_replicate, laneAt_natLanes]
    by_cases hiw : i < g.W
    · simp only [hiw, if_true]
      by_cases h4 : 4 ≤ g.cnt bits offs i <;> simp [h4] <;> decide
    · simp [hiw]
  have h256G : 256 * ofLanes (indLanes g.W bits) =
      ofLanes (natLanes g.W fun i => if bits i = true then 256 else 0) := by
    rw [ofLanes_mul]
    apply ofLanes_ext
    intro i
    rw [laneAt_map rfl, laneAt_indLanes, laneAt_natLanes]
    by_cases hiw : i < g.W
    · simp only [hiw, if_true]
      by_cases hb : bits i <;> simp [hb]
    · simp [hiw]
  have h256A : 256 * ofLanes (indLanes g.W allowP) =
      ofLanes (natLanes g.W fun i => if allowP i = true then 256 else 0) := by
    rw [ofLanes_mul]
    apply ofLanes_ext
    intro i
    rw [laneAt_map rfl, laneAt_indLanes, laneAt_natLanes]
    by_cases hiw : i < g.W
    · simp only [hiw, if_true]
      by_cases hb : allowP i <;> simp [hb]
    · simp [hiw]
  unfold Geom.stepF
  rw [hgeK 3 (by norm_num) (by norm_num), hxor,
    hgeK 2 (by norm_num) (by norm_num), h256G, h256A,
    land256_natLanes, land256_natLanes, land256_natLanes,
    lor256_natLanes, land256_natLanes]
  have hfin : ofLanes (natLanes g.W fun i =>
      if ((3 ≤ g.cnt bits offs i ∧ ¬4 ≤ g.cnt bits offs i) ∨
          (bits i = true ∧ (2 ≤ g.cnt bits offs i ∧ ¬4 ≤ g.cnt bits offs i))) ∧
          allowP i = true then 256 else 0) =
      ofLanes ((indLanes g.W fun i =>
        allowP i && lifeB (bits i) (g.cnt bits offs i)).map
          fun a => 256 * a) := by
    apply ofLanes_ext
    intro i
    rw [laneAt_natLanes, laneAt_map rfl, laneAt_indLanes]
    by_cases hiw : i < g.W
    · simp only [hiw, if_true]
      rw [mul256_ind]
      have hcond : (((3 ≤ g.cnt bits offs i ∧ ¬4 ≤ g.cnt bits offs i) ∨
          (bits i = true ∧ (2 ≤ g.cnt bits offs i ∧ ¬4 ≤ g.cnt bits offs i))) ∧
          allowP i = true) ↔
          ((allowP i && lifeB (bits i) (g.cnt bits offs i)) = true) := by
        rw [Bool.and_eq_true, ← lifeB_iff]
        tauto
      exact if_congr hcond rfl rfl
    · simp [hiw]
  rw [hfin, ofLanes_div256]

/-! ### Association lists over coordinate boxes -/
theorem rangeIncl_mem {lo hi q : Int} : q ∈ rangeIncl lo hi ↔ lo ≤ q ∧ q ≤ hi := by
  unfold rangeIncl
  rw [List.mem_map]
  constructor
  · rintro ⟨j, hj, rfl⟩
    rw [List.mem_range] at hj
    omega
  · intro h
    refine ⟨(q - lo).toNat, ?_, by omega⟩
    rw [List.mem_range]
    omega

theorem rangeIncl_nodup (lo hi : Int) : (rangeIncl lo hi).Nodup :=
  (List.nodup_range _).map fun a b hab => by omega

theorem boxKeys_mem (e : Extents) (q : Key) :
    q ∈ boxKeys e ↔ inBoxE e q = true := by
  unfold boxKeys inBoxE
  simp only [List.mem_flatMap, List.mem_map, rangeIncl_mem, Bool.and_eq_true,
    decide_eq_true_eq]
  constructor
  · rintro ⟨x, hx, y, hy, z, hz, w, hw, rfl⟩
    exact ⟨hx, hy, hz, hw⟩
  · intro h
    exact ⟨q.1, h.1, q.2.1, h.2.1, q.2.2.1, h.2.2.1, q.2.2.2, h.2.2.2, rfl⟩

theorem boxKeys_nodup (e : Extents) : (boxKeys e).Nodup := by
  unfold boxKeys
  rw [List.nodup_flatMap]
  refine ⟨fun x hx => ?_, ?_⟩
  · rw [List.nodup_flatMap]
    refine ⟨fun y hy => ?_, ?_⟩
    · rw [List.nodup_flatMap]
      refine ⟨fun z hz => ?_, ?_⟩
      · exact (rangeIncl_nodup _ _).map fun a b hab => by
          simpa using hab
      · apply List.Pairwise.imp ?_ (rangeIncl_nodup _ _)
        intro z1 z2 hne q hq1 hq2
        simp only [Function.onFun, List.mem_map] at hq1 hq2
        obtain ⟨w1, _, rfl⟩ := hq1
        obtain ⟨w2, _, he⟩ := hq2
        exact hne (by simpa using congrArg (fun t => t.2.2.1) he.symm)
    · apply List.Pairwise.imp ?_ (rangeIncl_nodup _ _)
      intro y1 y2 hne q hq1 hq2
      simp only [Function.onFun, List.mem_flatMap, List.mem_map] at hq1 hq2
      obtain ⟨z1, _, w1, _, rfl⟩ := hq1
      obtain ⟨z2, _, w2, _, he⟩ := hq2
      exact hne (by simpa using congrArg (fun t => t.2.1) he.symm)
  · apply List.Pairwise.imp ?_ (rangeIncl_nodup _ _)
    intro x1 x2 hne q hq1 hq2
    simp only [Function.onFun, List.mem_flatMap, List.mem_map] at hq1 hq2
    obtain ⟨y1, _, z1, _, w1, _, rfl⟩ := hq1
    obtain ⟨y2, _, z2, _, w2, _, he⟩ := hq2
    exact hne (by simpa using congrArg (fun t => t.1) he.symm)

theorem foldl_flatMap {α β γ : Type} (F : α → List β) (step : γ → β → γ) :
    ∀ (l : List α) (init : γ),
      (l.flatMap F).foldl step init =
        l.foldl (fun acc a => (F a).foldl step acc) init
  | [], init => rfl
  | a :: t, init => by
      rw [List.flatMap_cons, List.foldl_append, foldl_flatMap F step t]
      rfl

theorem lookup_append_none {m1 m2 : List (Key × Cube)} {k : Key}
    (h : m1.lookup k = none) : (m1 ++ m2).lookup k = m2.lookup k := by
  induction m1 with
  | nil => rfl
  | cons e t ih =>
      obtain ⟨ek, ec⟩ := e
      rw [List.lookup_cons] at h
      show List.lookup k ((ek, ec) :: (t ++ m2)) = List.lookup k m2
      rw [List.lookup_cons]
      cases hk : k == ek
      · rw [hk] at h
        exact ih h
      · rw [hk] at h
        exact Option.noConfusion h

theorem hmInsert_fresh (m : List (Key × Cube)) (k : Key) (c : Cube)
    (h : m.lookup k = none) : hmInsert m k c = m ++ [(k, c)] := by
  unfold hmInsert
  rw [h]
  rfl

theorem foldl_hmInsert_fresh (v : Key → Cube) :
    ∀ (ks : List Key) (m0 : List (Key × Cube)),
      (∀ k ∈ ks, m0.lookup k = none) → ks.Nodup →
      ks.foldl (fun m k => hmInsert m k (v k)) m0 =
        m0 ++ ks.map fun k => (k, v k)
  | [], m0, _, _ => by simp
  | k :: t, m0, hfresh, hnd => by
      obtain ⟨hk, hndt⟩ := List.nodup_cons.mp hnd
      show t.foldl _ (hmInsert m0 k (v k)) = _
      rw [hmInsert_fresh m0 k (v k) (hfresh k (List.mem_cons_self k t)),
        foldl_hmInsert_fresh v t (m0 ++ [(k, v k)])
          (fun k2 hk2 => by
            rw [lookup_append_none (hfresh k2 (List.mem_cons_of_mem k hk2)),
              List.lookup_cons]
            have hne : (k2 == k) = false := by
              rw [beq_eq_false_iff_ne]
              intro hcon
              exact hk (hcon ▸ hk2)
            simp [hne])
          hndt]
      simp

theorem lookup_mapKeys (v : Key → Cube) :
    ∀ (ks : List Key) (q : Key),
      (ks.map fun k => (k, v k)).lookup q =
        if q ∈ ks then some (v q) else none
  | [], q => by simp
  | k :: t, q => by
      show List.lookup q ((k, v k) :: t.map _) = _
      rw [List.lookup_cons]
      by_cases hqk : q = k
      · subst hqk
        simp
      · have hne : (q == k) = false := by
          rw [beq_eq_false_iff_ne]
          exact hqk
        rw [hne]
        show (t.map _).lookup q = _
        rw [lookup_mapKeys v t q]
        by_cases hqt : q ∈ t
        · rw [if_pos hqt, if_pos (List.mem_cons_of_mem k hqt)]
        · rw [if_neg hqt, if_neg fun hcon => by
            rcases List.mem_cons.mp hcon with h1 | h1
            · exact hqk h1
            · exact hqt h1]

theorem count_mapKeys (v : Key → Cube) (ks : List Key) :
    ((((ks.map fun k => (k, v k)).map Prod.snd)).filter (·.active)).length =
      ks.countP fun k => (v k).active := by
  rw [List.map_map, ← List.countP_eq_length_filter, List.countP_map]
  rfl

theorem extentsFold_from (vals : List Cube) (E : Extents) :
    vals.foldl
      (fun e c =>
        ⟨min e.minx c.point.x, max e.maxx c.point.x,
         min e.miny c.point.y, max e.maxy c.point.y,
         min e.minz c.point.z, max e.maxz c.point.z,
         min e.minw c.point.w, max e.maxw c.point.w⟩) E =
      ⟨(vals.map (·.point.x)).foldl min E.minx,
       (vals.map (·.point.x)).foldl max E.maxx,
       (vals.map (·.point.y)).foldl min E.miny,
       (vals.map (·.point.y)).foldl max E.maxy,
       (vals.map (·.point.z)).foldl min E.minz,
       (vals.map (·.point.z)).foldl max E.maxz,
       (vals.map (·.point.w)).foldl min E.minw,
       (vals.map (·.point.w)).foldl max E.maxw⟩ := by
  induction vals generalizing E with
  | nil => rfl
  | cons c t ih => exact ih _

theorem foldl_min_le_init : ∀ (L : List Int) (i : Int), L.foldl min i ≤ i
  | [], i => le_refl i
  | a :: t, i => le_trans (foldl_min_le_init t (min i a)) (min_le_left i a)

theorem foldl_min_bounded (lo : Int) :
    ∀ (L : List Int) (i : Int), lo ≤ i → (∀ a ∈ L, lo ≤ a) →
      lo ≤ L.foldl min i
  | [], _, hi, _ => hi
  | a :: t, i, hi, hall =>
      foldl_min_bounded lo t (min i a)
        (le_min hi (hall a (List.mem_cons_self a t)))
        fun b hb => hall b (List.mem_cons_of_mem a hb)

theorem foldl_min_le_mem :
    ∀ (L : List Int) (i lo : Int), lo ∈ L → L.foldl min i ≤ lo
  | a :: t, i, lo, hmem => by
      rcases List.mem_cons.mp hmem with h1 | h1
      · subst h1
        exact le_trans (foldl_min_le_init t (min i lo)) (min_le_right i lo)
      · exact foldl_min_le_mem t (min i a) lo h1

theorem foldl_min_eq {lo : Int} (L : List Int) (i : Int) (hmem : lo ∈ L)
    (hall : ∀ a ∈ L, lo ≤ a) (hi : lo ≤ i) : L.foldl min i = lo :=
  le_antisymm (foldl_min_le_mem L i lo hmem) (foldl_min_bounded lo L i hi hall)

theorem foldl_max_init_le : ∀ (L : List Int) (i : Int), i ≤ L.foldl max i
  | [], i => le_refl i
  | a :: t, i => le_trans (le_max_left i a) (foldl_max_init_le t (max i a))

theorem foldl_max_bounded (hi : Int) :
    ∀ (L : List Int) (i : Int), i ≤ hi → (∀ a ∈ L, a ≤ hi) →
      L.foldl max i ≤ hi
  | [], _, h, _ => h
  | a :: t, i, h, hall =>
      foldl_max_bounded hi t (max i a)
        (max_le h (hall a (List.mem_cons_self a t)))
        fun b hb => hall b (List.mem_cons_of_mem a hb)

theorem foldl_max_mem_le :
    ∀ (L : List Int) (i hi : Int), hi ∈ L → hi ≤ L.foldl max i
  | a :: t, i, hi, hmem => by
      rcases List.mem_cons.mp hmem with h1 | h1
      · subst h1
        exact le_trans (le_max_right i hi) (foldl_max_init_le t (max i hi))
      · exact foldl_max_mem_le t (max i a) hi h1

theorem foldl_max_eq {hi : Int} (L : List Int) (i : Int) (hmem : hi ∈ L)
    (hall : ∀ a ∈ L, a ≤ hi) (hin : i ≤ hi) : L.foldl max i = hi :=
  le_antisymm (foldl_max_bounded hi L i hin hall) (foldl_max_mem_le L i hi hmem)

theorem extentsExt {E1 E2 : Extents} (h1 : E1.minx = E2.minx)
    (h2 : E1.maxx = E2.maxx) (h3 : E1.miny = E2.miny) (h4 : E1.maxy = E2.maxy)
    (h5 : E1.minz = E2.minz) (h6 : E1.maxz = E2.maxz) (h7 : E1.minw = E2.minw)
    (h8 : E1.maxw = E2.maxw) : E1 = E2 := by
  cases E1
  cases E2
  rw [Extents.mk.injEq]
  exact ⟨h1, h2, h3, h4, h5, h6, h7, h8⟩

/-- The extents fold over the cubes of a full box recovers the box. -/
theorem extents_boxVals (e : Extents) (v : Key → Cube)
    (hpt : ∀ k : Key, (v k).point = ⟨k.1, k.2.1, k.2.2.1, k.2.2.2⟩)
    (hne : nonemptyE e) (hsm : smallE e) :
    extentsFold ((boxKeys e).map v) = e := by
  obtain ⟨hne1, hne2, hne3, hne4⟩ := hne
  obtain ⟨hs1, hs2, hs3, hs4, hs5, hs6, hs7, hs8⟩ := hsm
  have hwit : ∀ q : Key, inBoxE e q = true → q ∈ boxKeys e :=
    fun q hq => (boxKeys_mem e q).mpr hq
  have hmm : (e.minx, e.miny, e.minz, e.minw) ∈ boxKeys e := by
    apply hwit
    unfold inBoxE
    simp only [Bool.and_eq_true, decide_eq_true_eq]
    omega
  have hMM : (e.maxx, e.maxy, e.maxz, e.maxw) ∈ boxKeys e := by
    apply hwit
    unfold inBoxE
    simp only [Bool.and_eq_true, decide_eq_true_eq]
    omega
  have hbnd : ∀ q ∈ boxKeys e, e.minx ≤ q.1 ∧ q.1 ≤ e.maxx ∧
      e.miny ≤ q.2.1 ∧ q.2.1 ≤ e.maxy ∧ e.minz ≤ q.2.2.1 ∧ q.2.2.1 ≤ e.maxz ∧
      e.minw ≤ q.2.2.2 ∧ q.2.2.2 ≤ e.maxw := by
    intro q hq
    have h2 := (boxKeys_mem e q).mp hq
    unfold inBoxE at h2
    simp only [Bool.and_eq_true, decide_eq_true_eq] at h2
    omega
  have hcomp : ∀ (c : Key → Int),
      (((boxKeys e).map v).map fun u => c ⟨u.point.x, u.point.y, u.point.z, u.point.w⟩) =
        (boxKeys e).map fun k => c k := by
    intro c
    rw [List.map_map]
    apply List.map_congr_left
    intro k _
    show c ⟨(v k).point.x, (v k).point.y, (v k).point.z, (v k).point.w⟩ = c k
    rw [hpt k]
  have hx : (((boxKeys e).map v).map (·.point.x)) = (boxKeys e).map fun k => k.1 :=
    hcomp fun k => k.1
  have hy : (((boxKeys e).map v).map (·.point.y)) = (boxKeys e).map fun k => k.2.1 :=
    hcomp fun k => k.2.1
  have hz : (((boxKeys e).map v).map (·.point.z)) = (boxKeys e).map fun k => k.2.2.1 :=
    hcomp fun k => k.2.2.1
  have hw : (((boxKeys e).map v).map (·.point.w)) = (boxKeys e).map fun k => k.2.2.2 :=
    hcomp fun k => k.2.2.2
  unfold extentsFold
  rw [extentsFold_from]
  apply extentsExt
  · show (((boxKeys e).map v).map (·.point.x)).foldl min isizeMAX = e.minx
    rw [hx]
    exact foldl_min_eq _ _ (List.mem_map.mpr ⟨_, hmm, rfl⟩)
      (fun a ha => by
        obtain ⟨k, hk, rfl⟩ := List.mem_map.mp ha
        exact (hbnd k hk).1)
      (by unfold isizeMAX; omega)
  · show (((boxKeys e).map v).map (·.point.x)).foldl max isizeMIN = e.maxx
    rw [hx]
    exact foldl_max_eq _ _ (List.mem_map.mpr ⟨_, hMM, rfl⟩)
      (fun a ha => by
        obtain ⟨k, hk, rfl⟩ := List.mem_map.mp ha
        exact (hbnd k hk).2.1)
      (by unfold isizeMIN; omega)
  · show (((boxKeys e).map v).map (·.point.y)).foldl min isizeMAX = e.miny
    rw [hy]
    exact foldl_min_eq _ _ (List.mem_map.mpr ⟨_, hmm, rfl⟩)
      (fun a ha => by
        obtain ⟨k, hk, rfl⟩ := List.mem_map.mp ha
        exact (hbnd k hk).2.2.1)
      (by unfold isizeMAX; omega)
  · show (((boxKeys e).map v).map (·.point.y)).foldl max isizeMIN = e.maxy
    rw [hy]
    exact foldl_max_eq _ _ (List.mem_map.mpr ⟨_, hMM, rfl⟩)
      (fun a ha => by
        obtain ⟨k, hk, rfl⟩ := List.mem_map.mp ha
        exact (hbnd k hk).2.2.2.1)
      (by unfold isizeMIN; omega)
  · show (((boxKeys e).map v).map (·.point.z)).foldl min isizeMAX = e.minz
    rw [hz]
    exact foldl_min_eq _ _ (List.mem_map.mpr ⟨_, hmm, rfl⟩)
      (fun a ha => by
        obtain ⟨k, hk, rfl⟩ := List.mem_map.mp ha
        exact (hbnd k hk).2.2.2.2.1)
      (by unfold isizeMAX; omega)
  · show (((boxKeys e).map v).map (·.point.z)).foldl max isizeMIN = e.maxz
    rw [hz]
    exact foldl_max_eq _ _ (List.mem_map.mpr ⟨_, hMM, rfl⟩)
      (fun a ha => by
        obtain ⟨k, hk, rfl⟩ := List.mem_map.mp ha
        exact (hbnd k hk).2.2.2.2.2.1)
      (by unfold isizeMIN; omega)
  · show (((boxKeys e).map v).map (·.point.w)).foldl min isizeMAX = e.minw
    rw [hw]
    exact foldl_min_eq _ _ (List.mem_map.mpr ⟨_, hmm, rfl⟩)
      (fun a ha => by
        obtain ⟨k, hk, rfl⟩ := List.mem_map.mp ha
        exact (hbnd k hk).2.2.2.2.2.2.1)
      (by unfold isizeMAX; omega)
  · show (((boxKeys e).map v).map (·.point.w)).foldl max isizeMIN = e.maxw
    rw [hw]
    exact foldl_max_eq _ _ (List.mem_map.mpr ⟨_, hMM, rfl⟩)
      (fun a ha => by
        obtain ⟨k, hk, rfl⟩ := List.mem_map.mp ha
        exact (hbnd k hk).2.2.2.2.2.2.2)
      (by unfold isizeMIN; omega)

/-! ### Neighbor offsets -/
theorem rangeIncl_shift (a lo hi : Int) :
    rangeIncl (a + lo) (a + hi) = (rangeIncl lo hi).map fun t => a + t := by
  unfold rangeIncl
  rw [List.map_map, show a + hi + 1 - (a + lo) = hi + 1 - lo by ring]
  apply List.map_congr_left
  intro j _
  show a + lo + (j : Int) = a + (lo + (j : Int))
  ring

/-- `Point::neighbors` is the offsets list translated to the point (in
the 3D variant the point must sit on the `w = 0` slice, as every cell in
a 3D run does). -/
theorem neighbors_eq_offs (p : Point) (i4o : Option Bool)
    (hw : i4o.getD false = false → p.w = 0) :
    p.neighbors i4o = (nbrOffs (i4o.getD false)).map (addK (p.x, p.y, p.z, p.w)) := by
  unfold Point.neighbors nbrOffs
  generalize hgen : i4o.getD false = i4 at *
  have hprod :
      ((rangeIncl (p.x - 1) (p.x + 1)).flatMap fun x =>
        (rangeIncl (p.y - 1) (p.y + 1)).flatMap fun y =>
          (rangeIncl (p.z - 1) (p.z + 1)).flatMap fun z =>
            if i4 then (rangeIncl (p.w - 1) (p.w + 1)).map fun w => (x, y, z, w)
            else [(x, y, z, 0)]) =
      ((rangeIncl (-1) 1).flatMap fun dx =>
        (rangeIncl (-1) 1).flatMap fun dy =>
          (rangeIncl (-1) 1).flatMap fun dz =>
            if i4 then (rangeIncl (-1) 1).map fun dw => (dx, dy, dz, dw)
            else [(dx, dy, dz, 0)]).map (addK (p.x, p.y, p.z, p.w)) := by
    rw [List.map_flatMap,
      show p.x - 1 = p.x + (-1) by ring, show p.x + 1 = p.x + 1 from rfl,
      rangeIncl_shift p.x (-1) 1, List.flatMap_map]
    apply List.flatMap_congr
    intro dx _
    rw [List.map_flatMap,
      show p.y - 1 = p.y + (-1) by ring, show p.y + 1 = p.y + 1 from rfl,
      rangeIncl_shift p.y (-1) 1, List.flatMap_map]
    apply List.flatMap_congr
    intro dy _
    rw [List.map_flatMap,
      show p.z - 1 = p.z + (-1) by ring, show p.z + 1 = p.z + 1 from rfl,
      rangeIncl_shift p.z (-1) 1, List.flatMap_map]
    apply List.flatMap_congr
    intro dz _
    cases i4 with
    | true =>
        rw [if_pos rfl, if_pos rfl]
        rw [List.map_map,
          show p.w - 1 = p.w + (-1) by ring, show p.w + 1 = p.w + 1 from rfl,
          rangeIncl_shift p.w (-1) 1, List.map_map]
        apply List.map_congr_left
        intro dw _
        show (p.x + dx, p.y + dy, p.z + dz, p.w + dw) =
          addK (p.x, p.y, p.z, p.w) (dx, dy, dz, dw)
        unfold addK
        rfl
    | false =>
        rw [if_neg (by decide), if_neg (by decide)]
        have hw0 : p.w = 0 := hw rfl
        show [(p.x + dx, p.y + dy, p.z + dz, (0 : Int))] =
          [addK (p.x, p.y, p.z, p.w) (dx, dy, dz, 0)]
        unfold addK
        rw [hw0]
        norm_num
  show List.filter _ _ = _
  rw [hprod, List.filter_map]
  congr 1
  apply List.filter_congr
  intro d _
  show (decide ¬((addK (p.x, p.y, p.z, p.w) d).1 = p.x ∧
      (addK (p.x, p.y, p.z, p.w) d).2.1 = p.y ∧
      (addK (p.x, p.y, p.z, p.w) d).2.2.1 = p.z ∧
      (addK (p.x, p.y, p.z, p.w) d).2.2.2 = p.w)) =
    decide ¬(d.1 = 0 ∧ d.2.1 = 0 ∧ d.2.2.1 = 0 ∧ d.2.2.2 = 0)
  rw [decide_eq_decide]
  unfold addK
  dsimp only
  constructor
  · intro h1 h2
    exact h1 (by omega)
  · intro h1 h2
    exact h1 (by omega)

theorem activate_active (c : Cube) (n : Nat) :
    (c.activate n).active = lifeB c.active n := by
  unfold Cube.activate lifeB
  by_cases h : c.active <;> split_ifs <;> simp_all <;> omega

theorem activate_point (c : Cube) (n : Nat) :
    (c.activate n).point = c.point := by
  unfold Cube.activate
  split_ifs <;> rfl

theorem get_cube_rep {s : ProblemStatement} {e : Extents} {f : Key → Bool}
    (h : RepInv s e f) (x y z w : Int) :
    s.get_cube x y z (some w) = ⟨⟨x, y, z, w⟩, f (x, y, z, w)⟩ := by
  unfold ProblemStatement.get_cube
  dsimp only [Option.getD_some]
  rw [h.look (x, y, z, w)]
  by_cases hb : inBoxE e (x, y, z, w) = true
  · rw [if_pos hb]
  · rw [if_neg hb]
    have hf : f (x, y, z, w) = false := by
      cases hfv : f (x, y, z, w)
      · rfl
      · exact absurd (h.supp _ hfv) hb
    rw [hf]
    rfl

theorem foldl_congrF {α β : Type} {f g : α → β → α} (h : ∀ m a, f m a = g m a) :
    ∀ (l : List β) (i : α), l.foldl f i = l.foldl g i
  | [], _ => rfl
  | a :: t, i => by
      rw [List.foldl_cons, List.foldl_cons, h, foldl_congrF h t]

theorem vNew_point {s : ProblemStatement} {e : Extents} {f : Key → Bool}
    (h : RepInv s e f) (i4o : Option Bool) (k : Key) :
    (vNew s i4o k).point = ⟨k.1, k.2.1, k.2.2.1, k.2.2.2⟩ := by
  unfold vNew
  rw [activate_point, get_cube_rep h]

theorem vNew_active {s : ProblemStatement} {e : Extents} {f : Key → Bool}
    (h : RepInv s e f) (i4o : Option Bool) (k : Key)
    (hw : i4o.getD false = false → k.2.2.2 = 0) :
    (vNew s i4o k).active = lifeB (f k) (cntB f (i4o.getD false) k) := by
  unfold vNew
  rw [activate_active, get_cube_rep h]
  show lifeB (f k) _ = _
  congr 1
  rw [← List.countP_eq_length_filter]
  show ((Point.mk k.1 k.2.1 k.2.2.1 k.2.2.2).neighbors i4o).countP _ = _
  rw [neighbors_eq_offs _ _ (fun h4 => hw h4), List.countP_map]
  have hfun : ((fun q : Key =>
      (s.get_cube q.1 q.2.1 q.2.2.1 (some q.2.2.2)).active) ∘
        addK (k.1, k.2.1, k.2.2.1, k.2.2.2)) =
      fun d => f (addK (k.1, k.2.1, k.2.2.1, k.2.2.2) d) := by
    funext d
    show (s.get_cube _ _ _ (some _)).active = _
    rw [get_cube_rep h]
  rw [hfun]
  rfl

theorem growE_w0_min (e : Extents) : (growE e false).minw = 0 := by
  unfold growE
  norm_num

theorem growE_w0_max (e : Extents) : (growE e false).maxw = 0 := by
  unfold growE
  norm_num

theorem inBoxE_w_zero {e : Extents} {q : Key}
    (hq : inBoxE (growE e false) q = true) : q.2.2.2 = 0 := by
  unfold inBoxE at hq
  simp only [Bool.and_eq_true, decide_eq_true_eq] at hq
  have h1 := growE_w0_min e
  have h2 := growE_w0_max e
  omega

theorem growE_nonempty {e : Extents} (hne : nonemptyE e) (i4 : Bool) :
    nonemptyE (growE e i4) := by
  obtain ⟨h1, h2, h3, h4⟩ := hne
  unfold nonemptyE growE
  cases i4 <;> norm_num <;> omega

set_option maxRecDepth 4000 in
/-- One faithful `run_cycle` step grows the box and applies the life
rule cellwise. -/
theorem run_cycle_rep {s : ProblemStatement} {e : Extents} {f : Key → Bool}
    (h : RepInv s e f) (i4o : Option Bool)
    (hne : nonemptyE e) (hsm : smallE (growE e (i4o.getD false))) :
    RepInv (s.run_cycle i4o) (growE e (i4o.getD false))
      (stepBf e f (i4o.getD false)) := by
  have hknown : (s.run_cycle i4o).known_cubes =
      (boxKeys (growE e (i4o.getD false))).map fun k => (k, vNew s i4o k) := by
    simp only [ProblemStatement.run_cycle]
    rw [h.ext]
    unfold boxKeys growE
    dsimp only
    have hW : ∀ (x y z : Int) (m : List (Key × Cube)),
        (rangeIncl ((if ¬i4o.getD false then 1 else e.minw) - 1)
            ((if ¬i4o.getD false then -1 else e.maxw) + 1)).foldl
          (fun m w =>
            hmInsert m (x, y, z, w) (vNew s i4o (x, y, z, w))) m =
        ((rangeIncl ((if ¬i4o.getD false then 1 else e.minw) - 1)
            ((if ¬i4o.getD false then -1 else e.maxw) + 1)).map
          fun w => (x, y, z, w)).foldl
          (fun m k => hmInsert m k (vNew s i4o k)) m :=
      fun x y z m =>
        (List.foldl_map (fun w => ((x, y, z, w) : Key))
          (fun m k => hmInsert m k (vNew s i4o k)) _ m).symm
    have hZ : ∀ (x y : Int) (m : List (Key × Cube)),
        (rangeIncl (e.minz - 1) (e.maxz + 1)).foldl
          (fun m z =>
            (rangeIncl ((if ¬i4o.getD false then 1 else e.minw) - 1)
                ((if ¬i4o.getD false then -1 else e.maxw) + 1)).foldl
              (fun m w =>
                hmInsert m (x, y, z, w) (vNew s i4o (x, y, z, w))) m) m =
        ((rangeIncl (e.minz - 1) (e.maxz + 1)).flatMap fun z =>
          (rangeIncl ((if ¬i4o.getD false then 1 else e.minw) - 1)
              ((if ¬i4o.getD false then -1 else e.maxw) + 1)).map
            fun w => (x, y, z, w)).foldl
          (fun m k => hmInsert m k (vNew s i4o k)) m := by
      intro x y m
      rw [foldl_flatMap]
      exact foldl_congrF (fun m z => hW x y z m) _ m
    have hY : ∀ (x : Int) (m : List (Key × Cube)),
        (rangeIncl (e.miny - 1) (e.maxy + 1)).foldl
          (fun m y =>
            (rangeIncl (e.minz - 1) (e.maxz + 1)).foldl
              (fun m z =>
                (rangeIncl ((if ¬i4o.getD false then 1 else e.minw) - 1)
                    ((if ¬i4o.getD false then -1 else e.maxw) + 1)).foldl
                  (fun m w =>
                    hmInsert m (x, y, z, w) (vNew s i4o (x, y, z, w))) m) m) m =
        ((rangeIncl (e.miny - 1) (e.maxy + 1)).flatMap fun y =>
          (rangeIncl (e.minz - 1) (e.maxz + 1)).flatMap fun z =>
            (rangeIncl ((if ¬i4o.getD false then 1 else e.minw) - 1)
                ((if ¬i4o.getD false then -1 else e.maxw) + 1)).map
              fun w => (x, y, z, w)).foldl
          (fun m k => hmInsert m k (vNew s i4o k)) m := by
      intro x m
      rw [foldl_flatMap]
      exact foldl_congrF (fun m y => hZ x y m) _ m
    have hX :
        (rangeIncl (e.minx - 1) (e.maxx + 1)).foldl
          (fun m x =>
            (rangeIncl (e.miny - 1) (e.maxy + 1)).foldl
              (fun m y =>
                (rangeIncl (e.minz - 1) (e.maxz + 1)).foldl
                  (fun m z =>
                    (rangeIncl ((if ¬i4o.getD false then 1 else e.minw) - 1)
                        ((if ¬i4o.getD false then -1 else e.maxw) + 1)).foldl
                      (fun m w =>
                        hmInsert m (x, y, z, w) (vNew s i4o (x, y, z, w))) m)
                  m) m) [] =
        ((rangeIncl (e.minx - 1) (e.maxx + 1)).flatMap fun x =>
          (rangeIncl (e.miny - 1) (e.maxy + 1)).flatMap fun y =>
            (rangeIncl (e.minz - 1) (e.maxz + 1)).flatMap fun z =>
              (rangeIncl ((if ¬i4o.getD false then 1 else e.minw) - 1)
                  ((if ¬i4o.getD false then -1 else e.maxw) + 1)).map
                fun w => (x, y, z, w)).foldl
          (fun m k => hmInsert m k (vNew s i4o k)) [] := by
      rw [foldl_flatMap]
      exact foldl_congrF (fun m x => hY x m) _ []
    have hnodup := boxKeys_nodup (growE e (i4o.getD false))
    unfold boxKeys growE at hnodup
    exact hX.trans
      ((foldl_hmInsert_fresh (vNew s i4o) _ [] (fun k _ => rfl) hnodup).trans
        (List.nil_append _))
  have hwmem : ∀ q : Key, inBoxE (growE e (i4o.getD false)) q = true →
      i4o.getD false = false → q.2.2.2 = 0 := by
    intro q hq h4
    rw [h4] at hq
    exact inBoxE_w_zero hq
  refine ⟨?_, ?_, ?_, ?_⟩
  · intro q
    rw [hknown, lookup_mapKeys,
      if_congr (boxKeys_mem (growE e (i4o.getD false)) q) rfl rfl]
    by_cases hb : inBoxE (growE e (i4o.getD false)) q = true
    · rw [if_pos hb, if_pos hb]
      congr 1
      have hpt := vNew_point h i4o q
      have hac := vNew_active h i4o q (hwmem q hb)
      have hstep : stepBf e f (i4o.getD false) q =
          lifeB (f q) (cntB f (i4o.getD false) q) := by
        unfold stepBf
        rw [hb]
        simp
      cases hvq : vNew s i4o q with
      | mk pt ac =>
          rw [hvq] at hpt hac
          rw [hstep]
          simp only at hpt hac
          rw [hpt, hac]
    · rw [if_neg hb, if_neg hb]
  · rw [hknown, List.map_map]
    exact extents_boxVals _ _ (fun k => vNew_point h i4o k)
      (growE_nonempty hne _) hsm
  · show ((((s.run_cycle i4o).known_cubes.map Prod.snd)).filter
      (·.active)).length = _
    rw [hknown, count_mapKeys]
    unfold countBoxE
    apply List.countP_congr
    intro k hk
    have hb := (boxKeys_mem _ k).mp hk
    rw [vNew_active h i4o k (hwmem k hb)]
    unfold stepBf
    rw [hb]
    simp
  · intro q hq
    unfold stepBf at hq
    rw [Bool.and_eq_true] at hq
    exact hq.1

theorem parse_glider :
    ProblemStatement.parse_input exampleInput = some gliderS := by decide

theorem parse_plus :
    ProblemStatement.parse_input plusInput = some plusS := by decide

theorem repInv_of_struct (s : ProblemStatement) (e : Extents) (f : Key → Bool)
    (ks : List Key)
    (hstruct : s.known_cubes =
      ks.map fun k => (k, ⟨⟨k.1, k.2.1, k.2.2.1, k.2.2.2⟩, f k⟩))
    (hmem : ∀ q, q ∈ ks ↔ inBoxE e q = true)
    (hext : extentsFold (s.known_cubes.map Prod.snd) = e)
    (hcnt : s.count_active_cubes = countBoxE e f)
    (hsupp : ∀ q, f q = true → inBoxE e q = true) : RepInv s e f := by
  refine ⟨?_, hext, hcnt, hsupp⟩
  intro q
  rw [hstruct, lookup_mapKeys, if_congr (hmem q) rfl rfl]

theorem seedKeys_mem (q : Key) : q ∈ seedKeys ↔ inBoxE e0 q = true := by
  constructor
  · intro hm
    fin_cases hm <;> decide
  · intro hb
    unfold inBoxE e0 at hb
    simp only [Bool.and_eq_true, decide_eq_true_eq] at hb
    obtain ⟨h1, h2, h3, h4⟩ := hb
    have hx : q.1 = 0 ∨ q.1 = 1 ∨ q.1 = 2 := by omega
    have hy : q.2.1 = 0 ∨ q.2.1 = 1 ∨ q.2.1 = 2 := by omega
    have hz : q.2.2.1 = 0 := by omega
    have hw : q.2.2.2 = 0 := by omega
    rw [show q = (q.1, q.2.1, q.2.2.1, q.2.2.2) from rfl, hz, hw]
    rcases hx with h | h | h <;> rcases hy with h2 | h2 | h2 <;>
      rw [h, h2] <;> decide

theorem glider_repInv : RepInv gliderS e0 gliderF := by
  apply repInv_of_struct gliderS e0 gliderF seedKeys rfl seedKeys_mem
  · decide
  · decide
  · intro q hq
    unfold gliderF at hq
    have hm := of_decide_eq_true hq
    fin_cases hm <;> decide

theorem plus_repInv : RepInv plusS e0 plusF := by
  apply repInv_of_struct plusS e0 plusF seedKeys rfl seedKeys_mem
  · decide
  · decide
  · intro q hq
    unfold plusF at hq
    have hm := of_decide_eq_true hq
    fin_cases hm <;> decide

/-- The faithful cycle loop follows the box/rule trajectory. -/
theorem runCycles_rep (s0 : ProblemStatement) (f0 : Key → Bool)
    (h0 : RepInv s0 e0 f0) (i4o : Option Bool) :
    ∀ n, (∀ k, k < n → smallE (eIter (i4o.getD false) (k + 1))) →
      RepInv (runCycles s0 i4o n) (eIter (i4o.getD false) n)
        (fIter f0 (i4o.getD false) n)
  | 0, _ => h0
  | n + 1, hsm => by
      show RepInv ((runCycles s0 i4o n).run_cycle i4o) _ _
      have hne : ∀ m, nonemptyE (eIter (i4o.getD false) m) := by
        intro m
        induction m with
        | zero =>
            show nonemptyE e0
            exact ⟨by decide, by decide, by decide, by decide⟩
        | succ t ih => exact growE_nonempty ih _
      exact run_cycle_rep
        (runCycles_rep s0 f0 h0 i4o n fun k hk => hsm k (Nat.lt_succ_of_lt hk))
        i4o (hne n) (hsm n (Nat.lt_succ_self n))

theorem laneOf_lt (g : Geom) (org : Key) {q : Key}
    (hq : inWindowP g org q) : laneOf g org q < g.W := by
  obtain ⟨ha, hb, hc, hd⟩ := hq
  unfold laneOf
  exact g.lane_lt (by omega) (by omega) (by omega) (by omega)

theorem cellAt_laneOf (g : Geom) (org : Key) {q : Key}
    (hq : inWindowP g org q) : cellAt g org (laneOf g org q) = q := by
  obtain ⟨⟨ha1, ha2⟩, ⟨hb1, hb2⟩, ⟨hc1, hc2⟩, ⟨hd1, hd2⟩⟩ := hq
  obtain ⟨e1, e2, e3, e4⟩ := g.dec_lane
    (show (q.1 - org.1).toNat < g.sx by omega)
    (show (q.2.1 - org.2.1).toNat < g.sy by omega)
    (show (q.2.2.1 - org.2.2.1).toNat < g.sz by omega)
    (show (q.2.2.2 - org.2.2.2).toNat < g.sw by omega)
  unfold cellAt laneOf
  rw [e1, e2, e3, e4]
  refine Prod.ext ?_ (Prod.ext ?_ (Prod.ext ?_ ?_)) <;> dsimp only <;> omega

theorem laneOf_cellAt (g : Geom) (org : Key) (i : Nat) :
    laneOf g org (cellAt g org i) = i := by
  unfold laneOf cellAt
  dsimp only
  have e1 : (org.1 + (g.decA i : Int) - org.1).toNat = g.decA i := by omega
  have e2 : (org.2.1 + (g.decB i : Int) - org.2.1).toNat = g.decB i := by omega
  have e3 : (org.2.2.1 + (g.decC i : Int) - org.2.2.1).toNat = g.decC i := by
    omega
  have e4 : (org.2.2.2 + (g.decD i : Int) - org.2.2.2).toNat = g.decD i := by
    omega
  rw [e1, e2, e3, e4]
  exact g.lane_dec i

theorem cellAt_inWindow (g : Geom) (hp : g.Pos) (org : Key) {i : Nat}
    (hi : i < g.W) : inWindowP g org (cellAt g org i) := by
  have h1 : g.decA i < g.sx := g.decA_lt i hp.1
  have h2 : g.decB i < g.sy := g.decB_lt i hp.2.1
  have h3 : g.decC i < g.sz := g.decC_lt i hp.2.2.1
  have h4 : g.decD i < g.sw := g.decD_lt hp hi
  unfold inWindowP cellAt
  dsimp only
  refine ⟨⟨by omega, by omega⟩, ⟨by omega, by omega⟩, ⟨by omega, by omega⟩,
    ⟨by omega, by omega⟩⟩

/-- A valid neighbor read is the offset-translated cell. -/
theorem cellAt_valid_nbr (g : Geom) (hp : g.Pos) (org : Key) {i : Nat}
    (hi : i < g.W) {o : Key} (hv : g.validAt i o = true) :
    cellAt g org (g.nbrLane i o) = addK (cellAt g org i) o := by
  obtain ⟨hmain, hlt⟩ := g.nbrLane_eq hp hi hv
  have hnl : g.nbrLane i o =
      g.lane ((g.decA i : Int) + o.1).toNat ((g.decB i : Int) + o.2.1).toNat
        ((g.decC i : Int) + o.2.2.1).toNat ((g.decD i : Int) + o.2.2.2).toNat := by
    unfold Geom.nbrLane
    generalize g.lane ((g.decA i : Int) + o.1).toNat
      ((g.decB i : Int) + o.2.1).toNat ((g.decC i : Int) + o.2.2.1).toNat
      ((g.decD i : Int) + o.2.2.2).toNat = L at hmain
    omega
  unfold Geom.validAt at hv
  simp only [Bool.and_eq_true, decide_eq_true_eq] at hv
  obtain ⟨⟨ha0, ha1⟩, ⟨hb0, hb1⟩, ⟨hc0, hc1⟩, ⟨hd0, hd1⟩⟩ := hv
  obtain ⟨e1, e2, e3, e4⟩ := g.dec_lane
    (show ((g.decA i : Int) + o.1).toNat < g.sx by omega)
    (show ((g.decB i : Int) + o.2.1).toNat < g.sy by omega)
    (show ((g.decC i : Int) + o.2.2.1).toNat < g.sz by omega)
    (show ((g.decD i : Int) + o.2.2.2).toNat < g.sw by omega)
  rw [hnl]
  unfold cellAt addK
  rw [e1, e2, e3, e4]
  refine Prod.ext ?_ (Prod.ext ?_ (Prod.ext ?_ ?_)) <;> dsimp only <;> omega

/-- An invalid neighbor read points outside the window. -/
theorem cellAt_invalid_nbr (g : Geom) (org : Key) {i : Nat} {o : Key}
    (hv : g.validAt i o = false) :
    ¬inWindowP g org (addK (cellAt g org i) o) := by
  intro hw
  have ht : g.validAt i o = true := by
    unfold inWindowP addK cellAt at hw
    dsimp only at hw
    obtain ⟨⟨ha0, ha1⟩, ⟨hb0, hb1⟩, ⟨hc0, hc1⟩, ⟨hd0, hd1⟩⟩ := hw
    unfold Geom.validAt
    simp only [Bool.and_eq_true, decide_eq_true_eq]
    refine ⟨⟨by omega, by omega⟩, ⟨by omega, by omega⟩, ⟨by omega, by omega⟩,
      ⟨by omega, by omega⟩⟩
  rw [hv] at ht
  exact Bool.noConfusion ht

/-- The SWAR neighbor count of a lane is the cell-level one, when the
active cells stay inside the window. -/
theorem cnt_eq_cntB (g : Geom) (hp : g.Pos) (org : Key) (f : Key → Bool)
    (i4 : Bool) (hoffs : ∀ o ∈ nbrOffs i4, g.SmallOff o)
    (hsupp : ∀ q, f q = true → inWindowP g org q)
    {i : Nat} (hi : i < g.W) :
    g.cnt (fun j => f (cellAt g org j)) (nbrOffs i4) i =
      cntB f i4 (cellAt g org i) := by
  unfold Geom.cnt cntB
  apply List.countP_congr
  intro o ho
  cases hv : g.validAt i o with
  | true =>
      simp only [hv, Bool.true_and]
      rw [cellAt_valid_nbr g hp org hi hv]
  | false =>
      simp only [hv, Bool.false_and]
      cases hf : f (addK (cellAt g org i) o) with
      | false => rfl
      | true =>
          exact ((cellAt_invalid_nbr g org hv) (hsupp _ hf)).elim

theorem inBoxE_window (g : Geom) (org : Key) (e : Extents)
    (hsub : boxSub g org e) {q : Key} (hq : inBoxE e q = true) :
    inWindowP g org q := by
  unfold inBoxE at hq
  simp only [Bool.and_eq_true, decide_eq_true_eq] at hq
  obtain ⟨h1, h2, h3, h4⟩ := hq
  obtain ⟨⟨a1, a2⟩, ⟨b1, b2⟩, ⟨c1, c2⟩, ⟨d1, d2⟩⟩ := hsub
  exact ⟨⟨by omega, by omega⟩, ⟨by omega, by omega⟩, ⟨by omega, by omega⟩,
    ⟨by omega, by omega⟩⟩

/-- The closed-form mask packs the box indicator of the window cells. -/
theorem allowMask_rep (g : Geom) (hp : g.Pos) (org : Key) (e : Extents)
    (hne : nonemptyE e) (hsub : boxSub g org e) :
    allowMask g org e =
      ofLanes (indLanes g.W fun i => inBoxE e (cellAt g org i)) := by
  obtain ⟨hx, hy, hz, hw⟩ := hp
  obtain ⟨⟨h1, h2⟩, ⟨h3, h4⟩, ⟨h5, h6⟩, ⟨h7, h8⟩⟩ := hsub
  obtain ⟨hn1, hn2, hn3, hn4⟩ := hne
  unfold allowMask
  have hmask := boxMaskF_eq g hx hy hz hw
    (e.minx - org.1).toNat (e.maxx - org.1).toNat
    (e.miny - org.2.1).toNat (e.maxy - org.2.1).toNat
    (e.minz - org.2.2.1).toNat (e.maxz - org.2.2.1).toNat
    (e.minw - org.2.2.2).toNat (e.maxw - org.2.2.2).toNat
    (by omega) (by omega) (by omega) (by omega)
  rw [← hmask]
  congr 1
  apply indLanes_congr
  intro i hi
  unfold Geom.boxPred yzwPred zwPred inBoxE cellAt ivP
  dsimp only
  unfold Geom.decA Geom.decB Geom.decC Geom.decD
  generalize i / g.sx / g.sy / g.sz = d
  generalize i / g.sx / g.sy % g.sz = c
  generalize i / g.sx % g.sy = b
  generalize i % g.sx = a
  simp only [← Bool.decide_and]
  rw [decide_eq_decide]
  omega

/-- The cell-level step stays supported in the grown box. -/
theorem stepBf_supp (e : Extents) (f : Key → Bool) (i4 : Bool) (q : Key)
    (hq : stepBf e f i4 q = true) : inBoxE (growE e i4) q = true := by
  unfold stepBf at hq
  rw [Bool.and_eq_true] at hq
  exact hq.1

/-- The trajectory stays supported in the growing boxes. -/
theorem fIter_supp (f0 : Key → Bool) (i4 : Bool)
    (h0 : ∀ q, f0 q = true → inBoxE e0 q = true) :
    ∀ n, ∀ q, fIter f0 i4 n q = true → inBoxE (eIter i4 n) q = true
  | 0, q, h => h0 q h
  | _ + 1, q, h => stepBf_supp _ _ _ _ h

/-- One SWAR step tracks one cell-level step of the boxed trajectory. -/
theorem stepF_bridge (g : Geom) (hp : g.Pos) (hW : 0 < g.W) (org : Key)
    (e : Extents) (f : Key → Bool) (i4 : Bool)
    (hoffs : ∀ o ∈ nbrOffs i4, g.SmallOff o)
    (hlen : (nbrOffs i4).length ≤ 254)
    (hsupp : ∀ q, f q = true → inWindowP g org q)
    (hne : nonemptyE (growE e i4)) (hsub : boxSub g org (growE e i4)) :
    g.stepF (nbrOffs i4) (allowMask g org (growE e i4))
        (ofLanes (indLanes g.W fun i => f (cellAt g org i))) =
      ofLanes (indLanes g.W fun i => stepBf e f i4 (cellAt g org i)) := by
  rw [allowMask_rep g hp org _ hne hsub,
    stepF_rep g hp hW (fun i => f (cellAt g org i))
      (fun i => inBoxE (growE e i4) (cellAt g org i)) (nbrOffs i4) hoffs hlen]
  congr 1
  apply indLanes_congr
  intro i hi
  rw [cnt_eq_cntB g hp org f i4 hoffs hsupp hi]
  rfl

theorem eIter_nonempty (i4 : Bool) : ∀ n, nonemptyE (eIter i4 n)
  | 0 => show nonemptyE e0 from ⟨by decide, by decide, by decide, by decide⟩
  | n + 1 => growE_nonempty (eIter_nonempty i4 n) i4

/-- The bitboard trajectory packs the cell-level trajectory. -/
theorem boardIter_rep (g : Geom) (hp : g.Pos) (hW : 0 < g.W) (org : Key)
    (i4 : Bool) (f0 : Key → Bool)
    (h0 : ∀ q, f0 q = true → inBoxE e0 q = true)
    (hoffs : ∀ o ∈ nbrOffs i4, g.SmallOff o)
    (hlen : (nbrOffs i4).length ≤ 254) :
    ∀ n, (∀ k, k ≤ n → boxSub g org (eIter i4 k)) →
      boardIter g org i4
          (ofLanes (indLanes g.W fun i => f0 (cellAt g org i))) n =
        ofLanes (indLanes g.W fun i => fIter f0 i4 n (cellAt g org i))
  | 0, _ => rfl
  | n + 1, hsub => by
      show g.stepF (nbrOffs i4) (allowMask g org (eIter i4 (n + 1))) _ = _
      rw [boardIter_rep g hp hW org i4 f0 h0 hoffs hlen n
        (fun k hk => hsub k (Nat.le_succ_of_le hk))]
      exact stepF_bridge g hp hW org (eIter i4 n) (fIter f0 i4 n) i4 hoffs
        hlen
        (fun q hq => inBoxE_window g org (eIter i4 n) (hsub n (Nat.le_succ n))
          (fIter_supp f0 i4 h0 n q hq))
        (eIter_nonempty i4 (n + 1))
        (hsub (n + 1) (le_refl _))

/-! ### Counting the final board -/
theorem countP_nodup_ext {l1 l2 : List Key} (h1 : l1.Nodup) (h2 : l2.Nodup)
    (f : Key → Bool) (h : ∀ q, f q = true → (q ∈ l1 ↔ q ∈ l2)) :
    l1.countP f = l2.countP f := by
  rw [List.countP_eq_length_filter, List.countP_eq_length_filter]
  have hperm : List.Perm (l1.filter f) (l2.filter f) := by
    rw [List.perm_ext_iff_of_nodup (h1.filter f) (h2.filter f)]
    intro q
    simp only [List.mem_filter]
    constructor
    · rintro ⟨hm, hf⟩
      exact ⟨(h q hf).mp hm, hf⟩
    · rintro ⟨hm, hf⟩
      exact ⟨(h q hf).mpr hm, hf⟩
  exact hperm.length_eq

/-- Counting a box-supported predicate over the window lanes counts the
box. -/
theorem count_lanes (g : Geom) (hp : g.Pos) (org : Key) (e : Extents)
    (f : Key → Bool) (hsupp : ∀ q, f q = true → inBoxE e q = true)
    (hsub : boxSub g org e) :
    (List.range g.W).countP (fun i => f (cellAt g org i)) =
      countBoxE e f := by
  unfold countBoxE
  have hmapn : ((List.range g.W).map (cellAt g org)).Nodup := by
    refine List.Nodup.map_on ?_ (List.nodup_range _)
    intro i hi j hj hij
    have := congrArg (laneOf g org) hij
    rwa [laneOf_cellAt, laneOf_cellAt] at this
  have hcnt : (List.range g.W).countP (fun i => f (cellAt g org i)) =
      ((List.range g.W).map (cellAt g org)).countP f :=
    (List.countP_map _ _ _).symm
  rw [hcnt]
  apply countP_nodup_ext hmapn (boxKeys_nodup e)
  intro q hf
  have hb := hsupp q hf
  have hw : inWindowP g org q := inBoxE_window g org e hsub hb
  constructor
  · intro _
    exact (boxKeys_mem e q).mpr hb
  · intro _
    exact List.mem_map.mpr ⟨laneOf g org q,
      List.mem_range.mpr (laneOf_lt g org hw), cellAt_laneOf g org hw⟩

/-- The lane-indicator sum is the count of true lanes. -/
theorem indLanes_sum (q : Nat → Bool) :
    ∀ n, (indLanes n q).sum = (List.range n).countP q
  | 0 => rfl
  | n + 1 => by
      unfold indLanes
      rw [List.range_succ, List.map_append, List.sum_append,
        List.countP_append]
      have ht : (indLanes n q).sum = (List.range n).countP q :=
        indLanes_sum q n
      unfold indLanes at ht
      rw [ht]
      cases hq : q n <;>
        simp [List.countP_cons, hq]

/-- Reading the count of a packed indicator board via the modulus. -/
theorem board_count (g : Geom) (hWle : g.W ≤ 65025) (q : Nat → Bool) :
    ofLanes (indLanes g.W q) % 65535 = (List.range g.W).countP q := by
  rw [ofLanes_mod_65535, indLanes_sum]
  apply Nat.mod_eq_of_lt
  calc (List.range g.W).countP q ≤ (List.range g.W).length :=
        List.countP_le_length _
    _ = g.W := List.length_range _
    _ < 65535 := by omega

theorem laneBit_rep {i n : Nat} (hi : i < n) :
    ofLanes (indLanes n fun j => decide (j = i)) = laneBit i := by
  unfold laneBit
  rw [← geoMask_of_selSum (by omega) hi, ← ofLanes_indLanes]
  apply congrArg
  apply indLanes_congr
  intro j hj
  unfold ivP
  simp only [← Bool.decide_and]
  rw [decide_eq_decide]
  omega

/-- Packed indicators of disjoint predicates add. -/
theorem ofLanes_ind_or (n : Nat) (p q : Nat → Bool)
    (hdisj : ∀ i, i < n → ¬(p i = true ∧ q i = true)) :
    ofLanes (indLanes n fun i => p i || q i) =
      ofLanes (indLanes n p) + ofLanes (indLanes n q) := by
  rw [ofLanes_add (by rw [indLanes_length, indLanes_length])]
  apply congrArg
  apply List.ext_getElem
  · rw [List.length_zipWith, indLanes_length, indLanes_length,
      indLanes_length]
    omega
  · intro i hi1 hi2
    have hin : i < n := by
      rw [indLanes_length] at hi1
      exact hi1
    rw [List.getElem_zipWith]
    unfold indLanes
    rw [List.getElem_map, List.getElem_map, List.getElem_map,
      List.getElem_range]
    have := hdisj i hin
    cases hp : p i <;> cases hq : q i <;> simp_all

/-- A cell equation reads as a lane equation inside the window. -/
theorem cellAt_eq_iff (g : Geom) (org : Key) {c : Key}
    (hc : inWindowP g org c) {i : Nat} :
    (cellAt g org i = c) ↔ i = laneOf g org c := by
  constructor
  · intro h
    rw [← congrArg (laneOf g org) h, laneOf_cellAt]
  · intro h
    rw [h]
    exact cellAt_laneOf g org hc

/-- The closed-form seed board packs the seed indicator. -/
theorem seedBoard_rep (g : Geom) (org : Key) :
    ∀ cs : List Key, (∀ c ∈ cs, inWindowP g org c) →
      ((cs.map (laneOf g org)).Nodup) →
      seedBoard g org cs =
        ofLanes (indLanes g.W fun i => decide (cellAt g org i ∈ cs))
  | [], _, _ => by
      unfold seedBoard
      rw [List.map_nil, List.sum_nil]
      refine (ofLanes_of_zero ?_).symm
      intro a ha
      unfold indLanes at ha
      simp only [List.mem_map] at ha
      obtain ⟨i, _, hia⟩ := ha
      simp at hia
      omega
  | c :: cs, hmem, hnd => by
      have hc0 : inWindowP g org c := hmem c (List.mem_cons_self c cs)
      have hrest : seedBoard g org cs =
          ofLanes (indLanes g.W fun i => decide (cellAt g org i ∈ cs)) :=
        seedBoard_rep g org cs (fun x hx => hmem x (List.mem_cons_of_mem c hx))
          (by
            rw [List.map_cons] at hnd
            exact hnd.of_cons)
      have hsplit : indLanes g.W (fun i => decide (cellAt g org i ∈ c :: cs)) =
          indLanes g.W (fun i =>
            decide (i = laneOf g org c) || decide (cellAt g org i ∈ cs)) := by
        apply indLanes_congr
        intro i hi
        rw [show (decide (cellAt g org i ∈ c :: cs)) =
            (decide (cellAt g org i = c ∨ cellAt g org i ∈ cs)) from
          decide_eq_decide.mpr List.mem_cons, Bool.decide_or,
          decide_eq_decide.mpr (cellAt_eq_iff g org hc0)]
      have hdisj : ∀ i, i < g.W →
          ¬(decide (i = laneOf g org c) = true ∧
            decide (cellAt g org i ∈ cs) = true) := by
        intro i hi hand
        obtain ⟨h1, h2⟩ := hand
        have he : cellAt g org i = c := by
          rw [of_decide_eq_true h1]
          exact cellAt_laneOf g org hc0
        have hin : c ∈ cs := by
          rw [← he]
          exact of_decide_eq_true h2
        rw [List.map_cons, List.nodup_cons] at hnd
        exact hnd.1 (List.mem_map.mpr ⟨c, hin, rfl⟩)
      have hadd := ofLanes_ind_or g.W (fun i => decide (i = laneOf g org c))
        (fun i => decide (cellAt g org i ∈ cs)) hdisj
      have hfst : ofLanes (indLanes g.W fun i =>
          decide (i = laneOf g org c)) = laneBit (laneOf g org c) :=
        laneBit_rep (laneOf_lt g org hc0)
      unfold seedBoard
      rw [List.map_cons, List.sum_cons, hsplit, hadd, hfst]
      unfold seedBoard at hrest
      rw [hrest]

/-- The full pipeline of one scenario: the box count after six cycles is
the bitboard count after six SWAR steps. -/
theorem scenario_count (g : Geom) (org : Key) (i4 : Bool) (cs : List Key)
    (hp : g.Pos) (hW : 0 < g.W) (hWle : g.W ≤ 65025)
    (h0 : ∀ q, (fun q => decide (q ∈ cs)) q = true → inBoxE e0 q = true)
    (hoffs : ∀ o ∈ nbrOffs i4, g.SmallOff o)
    (hlen : (nbrOffs i4).length ≤ 254)
    (hwin : ∀ c ∈ cs, inWindowP g org c)
    (hnd : (cs.map (laneOf g org)).Nodup)
    (hsub : ∀ k, k ≤ 6 → boxSub g org (eIter i4 k)) :
    countBoxE (eIter i4 6) (fIter (fun q => decide (q ∈ cs)) i4 6) =
      boardIter g org i4 (seedBoard g org cs) 6 % 65535 := by
  have h1 := seedBoard_rep g org cs hwin hnd
  have h2 := boardIter_rep g hp hW org i4 (fun q => decide (q ∈ cs)) h0 hoffs
    hlen 6 hsub
  have h3 := board_count g hWle
    (fun i => fIter (fun q => decide (q ∈ cs)) i4 6 (cellAt g org i))
  have h4 := count_lanes g hp org (eIter i4 6)
    (fIter (fun q => decide (q ∈ cs)) i4 6)
    (fIter_supp (fun q => decide (q ∈ cs)) i4 h0 6) (hsub 6 (le_refl _))
  rw [h1, h2, h3, h4]

/-- The 3D glider run counted on the bitboard. -/
theorem glider_part1_board :
    ProblemStatement.part1 gliderS =
      boardIter g3 org3 false (seedBoard g3 org3 gliderCells) 6 % 65535 := by
  have hrep := runCycles_rep gliderS gliderF glider_repInv none 6 (by decide)
  show (runCycles gliderS none 6).count_active_cubes = _
  rw [hrep.cnt]
  exact scenario_count g3 org3 false gliderCells (by decide) (by decide)
    (by decide)
    (by
      intro q hq
      have hm := of_decide_eq_true hq
      fin_cases hm <;> decide)
    (by decide) (by decide) (by decide) (by decide) (by decide)

/-- The 4D glider run counted on the bitboard. -/
theorem glider_part2_board :
    ProblemStatement.part2 gliderS =
      boardIter g4 org4 true (seedBoard g4 org4 gliderCells) 6 % 65535 := by
  have hrep := runCycles_rep gliderS gliderF glider_repInv (some true) 6
    (by decide)
  show (runCycles gliderS (some true) 6).count_active_cubes = _
  rw [hrep.cnt]
  exact scenario_count g4 org4 true gliderCells (by decide) (by decide)
    (by decide)
    (by
      intro q hq
      have hm := of_decide_eq_true hq
      fin_cases hm <;> decide)
    (by decide) (by decide) (by decide) (by decide) (by decide)

/-- The 3D plus run counted on the bitboard. -/
theorem plus_part1_board :
    ProblemStatement.part1 plusS =
      boardIter g3 org3 false (seedBoard g3 org3 plusCells) 6 % 65535 := by
  have hrep := runCycles_rep plusS plusF plus_repInv none 6 (by decide)
  show (runCycles plusS none 6).count_active_cubes = _
  rw [hrep.cnt]
  exact scenario_count g3 org3 false plusCells (by decide) (by decide)
    (by decide)
    (by
      intro q hq
      have hm := of_decide_eq_true hq
      fin_cases hm <;> decide)
    (by decide) (by decide) (by decide) (by decide) (by decide)

set_option maxRecDepth 1000000 in
/-- **C8** (amended): parsing the repository's example seed `.#.` / `..#` /
`###` and running six cycles yields 112 active cubes in 3D (`part1`) and
848 in 4D (`part2`). -/
theorem example_seed_counts :
    (ProblemStatement.parse_input exampleInput).map ProblemStatement.part1 =
        some 112 ∧
      (ProblemStatement.parse_input exampleInput).map ProblemStatement.part2 =
        some 848 := by
  rw [parse_glider]
  refine ⟨?_, ?_⟩
  · show some (ProblemStatement.part1 gliderS) = some 112
    rw [glider_part1_board]
    decide
  · show some (ProblemStatement.part2 gliderS) = some 848
    rw [glider_part2_board]
    decide

set_option maxRecDepth 1000000 in
/-- **C8** counterexample: the plus-shaped seed named by the spec gives
only 80 active cubes after six 3D cycles, not the claimed 112. -/
theorem plus_seed_part1_cex :
    (ProblemStatement.parse_input plusInput).map ProblemStatement.part1 =
        some 80 ∧ (80 : Nat) ≠ 112 := by
  refine ⟨?_, by decide⟩
  rw [parse_plus]
  show some (ProblemStatement.part1 plusS) = some 80
  rw [plus_part1_board]
  decide

end Day17

namespace Day14

/-- `cellAt` unfolded to its two lookups. -/
theorem cellAt_eq_some {b : List (List StoneType)} {r c : Nat} {v : StoneType} :
    cellAt b r c = some v ↔
      ∃ row, b.get? r = some row ∧ row.get? c = some v := by
  simp [cellAt, Option.bind_eq_some]

/-- `setCell` keeps the number of rows. -/
theorem setCell_length (b : List (List StoneType)) (r c : Nat) (v : StoneType) :
    (setCell b r c v).length = b.length := by
  unfold setCell
  cases b.get? r <;> simp

/-- `setCell` leaves other rows untouched. -/
theorem get?_setCell_ne (b : List (List StoneType)) (r c : Nat) (v : StoneType)
    (i : Nat) (h : i ≠ r) : (setCell b r c v).get? i = b.get? i := by
  unfold setCell
  cases hb : b.get? r with
  | none => rfl
  | some row =>
      rw [List.get?_eq_getElem?, List.get?_eq_getElem?]
      exact List.getElem?_set_ne (fun he => h he.symm)

/-- `setCell` updates the addressed row. -/
theorem get?_setCell_self (b : List (List StoneType)) (r c : Nat)
    (v : StoneType) (row : List StoneType) (hb : b.get? r = some row) :
    (setCell b r c v).get? r = some (row.set c v) := by
  have hlt : r < b.length := (List.get?_eq_some.mp hb).1
  unfold setCell
  rw [hb, List.get?_eq_getElem?]
  exact List.getElem?_set_eq_of_lt (row.set c v) hlt

/-- Writing a valid cell then reading it back. -/
theorem cellAt_setCell_self (b : List (List StoneType)) (r c : Nat)
    (v : StoneType) (row : List StoneType) (hb : b.get? r = some row)
    (hc : c < row.length) : cellAt (setCell b r c v) r c = some v := by
  unfold cellAt
  rw [get?_setCell_self b r c v row hb]
  simp only [Option.bind]
  rw [List.get?_eq_getElem?]
  exact List.getElem?_set_eq_of_lt v hc

/-- Writing one cell leaves every other cell unchanged. -/
theorem cellAt_setCell_ne (b : List (List StoneType)) (r c : Nat)
    (v : StoneType) (i j : Nat) (h : ¬(i = r ∧ j = c)) :
    cellAt (setCell b r c v) i j = cellAt b i j := by
  by_cases hir : i = r
  · subst hir
    have hjc : j ≠ c := fun he => h ⟨rfl, he⟩
    cases hb : b.get? i with
    | none =>
        simp only [cellAt, setCell, hb]
    | some row =>
        unfold cellAt
        rw [get?_setCell_self b i c v row hb, hb]
        simp only [Option.bind]
        rw [List.get?_eq_getElem?, List.get?_eq_getElem?]
        exact List.getElem?_set_ne (fun he => hjc he.symm)
  · unfold cellAt
    rw [get?_setCell_ne b r c v i hir]

/-- Shape of a stone matrix: `R` rows, each of width `C`. -/
def Shaped (b : List (List StoneType)) (R C : Nat) : Prop :=
  b.length = R ∧ ∀ row ∈ b, row.length = C

/-- `setCell` keeps the shape. -/
theorem shaped_setCell {b : List (List StoneType)} {R C : Nat}
    (h : Shaped b R C) (r c : Nat) (v : StoneType) :
    Shaped (setCell b r c v) R C := by
  refine ⟨by rw [setCell_length]; exact h.1, ?_⟩
  intro row hrow
  unfold setCell at hrow
  cases hb : b.get? r with
  | none =>
      rw [hb] at hrow
      exact h.2 row hrow
  | some row0 =>
      rw [hb] at hrow
      rcases List.mem_or_eq_of_mem_set hrow with hmem | heq
      · exact h.2 row hmem
      · rw [heq, List.length_set]
        exact h.2 row0 (List.get?_mem hb)

/-- Out-of-range reads on a shaped matrix are `none`. -/
theorem cellAt_out {b : List (List StoneType)} {R C : Nat}
    (h : Shaped b R C) (i j : Nat) (hout : R ≤ i ∨ C ≤ j) :
    cellAt b i j = none := by
  rcases hout with hi | hj
  · have : b.get? i = none := by
      rw [List.get?_eq_getElem?, List.getElem?_eq_none]
      rw [h.1]
      exact hi
    unfold cellAt
    rw [this]
    rfl
  · cases hb : b.get? i with
    | none => unfold cellAt; rw [hb]; rfl
    | some row =>
        have hrl : row.length = C := h.2 row (List.get?_mem hb)
        unfold cellAt
        rw [hb]
        simp only [Option.bind]
        rw [List.get?_eq_getElem?, List.getElem?_eq_none]
        rw [hrl]
        exact hj

/-- Shaped matrices with equal cells are equal. -/
theorem shaped_ext {b1 b2 : List (List StoneType)} {R C : Nat}
    (h1 : Shaped b1 R C) (h2 : Shaped b2 R C)
    (hcell : ∀ i j, cellAt b1 i j = cellAt b2 i j) : b1 = b2 := by
  apply List.ext_get?
  intro i
  cases hb1 : b1.get? i with
  | none =>
      have hi : b1.length ≤ i := by
        rw [List.get?_eq_getElem?] at hb1
        exact List.getElem?_eq_none_iff.mp hb1
      have : b2.get? i = none := by
        rw [List.get?_eq_getElem?, List.getElem?_eq_none]
        rw [h2.1, ← h1.1]
        exact hi
      rw [this]
  | some row1 =>
      cases hb2 : b2.get? i with
      | none =>
          have hi : b2.length ≤ i := by
            rw [List.get?_eq_getElem?] at hb2
            exact List.getElem?_eq_none_iff.mp hb2
          have : b1.get? i = none := by
            rw [List.get?_eq_getElem?, List.getElem?_eq_none]
            rw [h1.1, ← h2.1]
            exact hi
          rw [this] at hb1
          exact absurd hb1 (by simp)
      | some row2 =>
          have hr1 : row1.length = C := h1.2 row1 (List.get?_mem hb1)
          have hr2 : row2.length = C := h2.2 row2 (List.get?_mem hb2)
          have : row1 = row2 := by
            apply List.ext_get?
            intro j
            have hc := hcell i j
            unfold cellAt at hc
            rw [hb1, hb2] at hc
            simpa using hc
          rw [this]

/-- A shaped matrix yields a full row at every valid row index. -/
theorem shaped_get {b : List (List StoneType)} {R C : Nat} (h : Shaped b R C)
    {i : Nat} (hi : i < R) :
    ∃ row, b.get? i = some row ∧ row.length = C := by
  have hlt : i < b.length := by
    rw [h.1]
    exact hi
  refine ⟨b.get ⟨i, hlt⟩, List.get?_eq_get hlt, ?_⟩
  exact h.2 _ (List.get?_mem (List.get?_eq_get hlt))

/-- The inner loop of `rot_90_cw` only writes at row offsets
`c0..c0+row.length` in column `tgt`. -/
theorem innerRot_frame (tgt : Nat) (row : List StoneType) :
    ∀ (c0 : Nat) (B : List (List StoneType)) (i j : Nat),
    (j ≠ tgt ∨ i < c0 ∨ c0 + row.length ≤ i) →
    cellAt ((List.enumFrom c0 row).foldl
      (fun nb2 cs => setCell nb2 cs.1 tgt cs.2) B) i j = cellAt B i j := by
  induction row with
  | nil =>
      intro c0 B i j _
      rfl
  | cons s ss ih =>
      intro c0 B i j hcond
      rw [List.enumFrom_cons, List.foldl_cons]
      rw [ih (c0 + 1) _ i j (by rcases hcond with h | h | h <;> simp at h ⊢ <;> omega)]
      refine cellAt_setCell_ne B c0 tgt s i j (fun he => ?_)
      rcases hcond with h | h | h
      · exact h he.2
      · omega
      · simp at h
        omega

/-- The inner loop of `rot_90_cw` keeps the buffer shape. -/
theorem innerRot_shape {R C : Nat} (tgt : Nat) (row : List StoneType) :
    ∀ (c0 : Nat) (B : List (List StoneType)), Shaped B C R →
    Shaped ((List.enumFrom c0 row).foldl
      (fun nb2 cs => setCell nb2 cs.1 tgt cs.2) B) C R := by
  induction row with
  | nil => intro c0 B h; exact h
  | cons s ss ih =>
      intro c0 B h
      rw [List.enumFrom_cons, List.foldl_cons]
      exact ih (c0 + 1) _ (shaped_setCell h c0 tgt s)

/-- The inner loop of `rot_90_cw` writes the row's stones into column
`tgt` of the buffer. -/
theorem innerRot_at {R C : Nat} (tgt : Nat) (row : List StoneType) :
    ∀ (c0 : Nat) (B : List (List StoneType)), Shaped B C R →
    c0 + row.length ≤ C → tgt < R →
    ∀ k, k < row.length →
    cellAt ((List.enumFrom c0 row).foldl
      (fun nb2 cs => setCell nb2 cs.1 tgt cs.2) B) (c0 + k) tgt =
      row.get? k := by
  induction row with
  | nil =>
      intro c0 B _ _ _ k hk
      exact absurd hk (by simp)
  | cons s ss ih =>
      intro c0 B hB hle htgt k hk
      rw [List.enumFrom_cons, List.foldl_cons]
      cases k with
      | zero =>
          rw [innerRot_frame tgt ss (c0 + 1) _ (c0 + 0) tgt (by omega)]
          rcases shaped_get hB (show c0 < C by simp at hle; omega) with
            ⟨brow, hbrow, hbl⟩
          have : c0 + 0 = c0 := by omega
          rw [this]
          rw [cellAt_setCell_self B c0 tgt s brow hbrow (by rw [hbl]; exact htgt)]
          rfl
      | succ k2 =>
          have hco : c0 + (k2 + 1) = (c0 + 1) + k2 := by omega
          rw [hco]
          rw [ih (c0 + 1) _ (shaped_setCell hB c0 tgt s)
            (by simp at hle; omega) htgt k2 (by simp at hk; omega)]
          rfl

/-- The outer loop of `rot_90_cw` keeps the buffer shape. -/
theorem outerRot_shape {R C : Nat} (rows : List (List StoneType)) :
    ∀ (r0 : Nat) (B : List (List StoneType)), Shaped B C R →
    Shaped ((List.enumFrom r0 rows).foldl
      (fun nb rc => (rc.2.enum).foldl
        (fun nb2 cs => setCell nb2 cs.1 (R - rc.1 - 1) cs.2) nb) B) C R := by
  induction rows with
  | nil => intro r0 B h; exact h
  | cons row rows2 ih =>
      intro r0 B h
      rw [List.enumFrom_cons, List.foldl_cons]
      refine ih (r0 + 1) _ ?_
      rw [List.enum_eq_enumFrom]
      exact innerRot_shape (R - r0 - 1) row 0 B h

/-- The outer loop of `rot_90_cw` only writes columns
`R-(r0+rows.length) ..= R-1-r0` of the buffer. -/
theorem outerRot_frame {R : Nat} (rows : List (List StoneType)) :
    ∀ (r0 : Nat) (B : List (List StoneType)) (i j : Nat),
    r0 + rows.length ≤ R →
    (j < R - (r0 + rows.length) ∨ R - r0 ≤ j) →
    cellAt ((List.enumFrom r0 rows).foldl
      (fun nb rc => (rc.2.enum).foldl
        (fun nb2 cs => setCell nb2 cs.1 (R - rc.1 - 1) cs.2) nb) B) i j =
      cellAt B i j := by
  induction rows with
  | nil =>
      intro r0 B i j _ _
      rfl
  | cons row rows2 ih =>
      intro r0 B i j hle hcond
      rw [List.enumFrom_cons, List.foldl_cons]
      rw [ih (r0 + 1) _ i j (by simp at hle; omega)
        (by simp at hle; rcases hcond with h | h <;> simp at h <;> omega)]
      rw [List.enum_eq_enumFrom]
      refine innerRot_frame (R - r0 - 1) row 0 B i j (Or.inl ?_)
      simp at hle
      rcases hcond with h | h <;> simp at h <;> omega

/-- The outer loop of `rot_90_cw` writes row `r0+k` of the input into
column `R-1-(r0+k)` of the buffer. -/
theorem outerRot_at {R C : Nat} (rows : List (List StoneType)) :
    ∀ (r0 : Nat) (B : List (List StoneType)), Shaped B C R →
    r0 + rows.length ≤ R → (∀ row ∈ rows, row.length = C) →
    ∀ k, k < rows.length → ∀ i, i < C →
    cellAt ((List.enumFrom r0 rows).foldl
      (fun nb rc => (rc.2.enum).foldl
        (fun nb2 cs => setCell nb2 cs.1 (R - rc.1 - 1) cs.2) nb) B)
      i (R - (r0 + k) - 1) =
      (rows.get? k).bind fun row => row.get? i := by
  induction rows with
  | nil =>
      intro r0 B _ _ _ k hk
      exact absurd hk (by simp)
  | cons row rows2 ih =>
      intro r0 B hB hle hrows k hk i hi
      have hrl : row.length = C := hrows row (List.mem_cons_self row rows2)
      rw [List.enumFrom_cons, List.foldl_cons]
      cases k with
      | zero =>
          have hj : R - (r0 + 0) - 1 = R - r0 - 1 := by omega
          rw [hj]
          rw [outerRot_frame rows2 (r0 + 1) _ i (R - r0 - 1)
            (by simp at hle; omega) (by simp at hle; right; omega)]
          rw [List.enum_eq_enumFrom]
          have := innerRot_at (R - r0 - 1) row 0 B hB
            (by rw [hrl]; omega) (by simp at hle; omega) i (by rw [hrl]; exact hi)
          simp only [Nat.zero_add] at this
          rw [this]
          rfl
      | succ k2 =>
          have hj : R - (r0 + (k2 + 1)) - 1 = R - ((r0 + 1) + k2) - 1 := by omega
          rw [hj]
          rw [List.enum_eq_enumFrom]
          rw [ih (r0 + 1) _ (innerRot_shape (R - r0 - 1) row 0 B hB)
            (by simp at hle; omega)
            (fun r hr => hrows r (List.mem_cons_of_mem row hr))
            k2 (by simp at hk; omega) i hi]
          rfl

/-- `StonePulleyGrid.WF` as a `Shaped` statement. -/
theorem wf_shaped {g : StonePulleyGrid} (hwf : g.WF) :
    Shaped g.stones g.num_rows g.num_cols := hwf

/-- `rot_90_cw` keeps the recorded dimensions. -/
theorem rot_dims (g : StonePulleyGrid) :
    g.rot_90_cw.num_rows = g.num_rows ∧ g.rot_90_cw.num_cols = g.num_cols :=
  ⟨rfl, rfl⟩

/-- The matrix of `rot_90_cw` has the transposed shape. -/
theorem rot_shaped (g : StonePulleyGrid) :
    Shaped g.rot_90_cw.stones g.num_cols g.num_rows := by
  unfold StonePulleyGrid.rot_90_cw
  simp only
  rw [List.enum_eq_enumFrom]
  refine outerRot_shape g.stones 0 _ ?_
  constructor
  · simp
  · intro row hrow
    rcases List.eq_of_mem_replicate hrow with rfl
    simp

/-- Cell chase for one clockwise quarter turn: the stone at `(r, c)`
lands at `(c, num_rows - r - 1)`. -/
theorem rot_cell (g : StonePulleyGrid) (hwf : g.WF) (r c : Nat)
    (hr : r < g.num_rows) (hc : c < g.num_cols) :
    cellAt g.rot_90_cw.stones c (g.num_rows - r - 1) =
      cellAt g.stones r c := by
  unfold StonePulleyGrid.rot_90_cw
  simp only
  rw [List.enum_eq_enumFrom]
  have hsh : Shaped (List.replicate g.num_cols
      (List.replicate g.num_rows StoneType.Empty)) g.num_cols g.num_rows := by
    constructor
    · simp
    · intro row hrow
      rcases List.eq_of_mem_replicate hrow with rfl
      simp
  have := @outerRot_at g.num_rows g.num_cols g.stones 0 _ hsh
    (by rw [(wf_shaped hwf).1]; omega) (fun row hrow => (wf_shaped hwf).2 row hrow)
    r (by rw [(wf_shaped hwf).1]; exact hr) c hc
  simp only [Nat.zero_add] at this
  rw [this]
  rcases shaped_get (wf_shaped hwf) hr with ⟨row, hrow, _⟩
  rw [cellAt, hrow]

/-- Structure equality for grids from field equalities. -/
theorem grid_eq_of_fields {h g : StonePulleyGrid}
    (h1 : h.num_rows = g.num_rows) (h2 : h.num_cols = g.num_cols)
    (h3 : h.stones = g.stones) : h = g := by
  cases h
  cases g
  simp_all

/-- One quarter turn of a square grid: dimensions, shape, and the cell
chase. -/
theorem rot_step_square (g : StonePulleyGrid) (h : StonePulleyGrid)
    (h1 : h.num_rows = g.num_rows) (h2 : h.num_cols = g.num_rows)
    (hsh : Shaped h.stones g.num_rows g.num_rows) :
    h.rot_90_cw.num_rows = g.num_rows ∧ h.rot_90_cw.num_cols = g.num_rows ∧
    Shaped h.rot_90_cw.stones g.num_rows g.num_rows ∧
    ∀ i j, i < g.num_rows → j < g.num_rows →
      cellAt h.rot_90_cw.stones i j =
        cellAt h.stones (g.num_rows - j - 1) i := by
  have hwfh : h.WF := by
    show Shaped h.stones h.num_rows h.num_cols
    rw [h1, h2]
    exact hsh
  refine ⟨by rw [(rot_dims h).1, h1], by rw [(rot_dims h).2, h2], ?_, ?_⟩
  · have := rot_shaped h
    rw [h1, h2] at this
    exact this
  · intro i j hi hj
    have := rot_cell h hwfh (g.num_rows - j - 1) i (by rw [h1]; omega)
      (by rw [h2]; exact hi)
    rw [h1] at this
    have he : g.num_rows - (g.num_rows - j - 1) - 1 = j := by omega
    rw [he] at this
    exact this

/-- C10: Rotation round-trip: four successive clockwise quarter turns
of a square well-formed grid give back the original grid. -/
theorem rot4_id (g : StonePulleyGrid) (hwf : g.WF) (hsq : g.Square) :
    g.rot_90_cw.rot_90_cw.rot_90_cw.rot_90_cw = g := by
  have hsq2 : g.num_cols = g.num_rows := hsq.symm
  have sh0 : Shaped g.stones g.num_rows g.num_rows := by
    have := wf_shaped hwf
    rw [hsq2] at this
    exact this
  obtain ⟨d1r, d1c, sh1, f1⟩ := rot_step_square g g rfl hsq2 sh0
  obtain ⟨d2r, d2c, sh2, f2⟩ := rot_step_square g g.rot_90_cw d1r d1c sh1
  obtain ⟨d3r, d3c, sh3, f3⟩ := rot_step_square g _ d2r d2c sh2
  obtain ⟨d4r, d4c, sh4, f4⟩ := rot_step_square g _ d3r d3c sh3
  have hcell : ∀ i j,
      cellAt g.rot_90_cw.rot_90_cw.rot_90_cw.rot_90_cw.stones i j =
        cellAt g.stones i j := by
    intro i j
    by_cases hij : i < g.num_rows ∧ j < g.num_rows
    · obtain ⟨hi, hj⟩ := hij
      rw [f4 i j hi hj]
      rw [f3 _ _ (by omega) hi]
      rw [f2 _ _ (by omega) (by omega)]
      have e2 : g.num_rows - (g.num_rows - j - 1) - 1 = j := by omega
      rw [e2]
      rw [f1 _ _ hj (by omega)]
      have e1 : g.num_rows - (g.num_rows - i - 1) - 1 = i := by omega
      rw [e1]
    · have hout : g.num_rows ≤ i ∨ g.num_rows ≤ j := by
        rcases Nat.lt_or_ge i g.num_rows with h | h
        · right
          rcases Nat.lt_or_ge j g.num_rows with h2 | h2
          · exact absurd ⟨h, h2⟩ hij
          · exact h2
        · left
          exact h
      rw [cellAt_out sh4 i j hout, cellAt_out sh0 i j hout]
  exact grid_eq_of_fields d4r (d4c.trans hsq2.symm) (shaped_ext sh4 sh0 hcell)

/-- Witness for `rot4_id` on the repo's own 3x3 rotation example. -/
theorem rot4_id_witness :
    (⟨3, 3, [[StoneType.Round, StoneType.Empty, StoneType.Empty],
             [StoneType.Empty, StoneType.Round, StoneType.Empty],
             [StoneType.Empty, StoneType.Empty, StoneType.Empty]]⟩ :
      StonePulleyGrid).rot_90_cw.rot_90_cw.rot_90_cw.rot_90_cw =
    (⟨3, 3, [[StoneType.Round, StoneType.Empty, StoneType.Empty],
             [StoneType.Empty, StoneType.Round, StoneType.Empty],
             [StoneType.Empty, StoneType.Empty, StoneType.Empty]]⟩ :
      StonePulleyGrid) :=
  rot4_id _ ⟨rfl, by decide⟩ rfl

/-- Looking a key up after an insert: the inserted key maps to the new
value, every other key is unaffected. -/
theorem lookupH_insertH (key : String) (v : Int) (k : String) :
    ∀ hist : List (String × Int),
    lookupH (insertH hist key v) k =
      if key = k then some v else lookupH hist k := by
  intro hist
  induction hist with
  | nil => rfl
  | cons e rest ih =>
      rcases e with ⟨k0, w⟩
      by_cases h0 : k0 = key
      · subst h0
        by_cases hk : k0 = k
        · simp [insertH, lookupH, hk]
        · simp [insertH, lookupH, hk]
      · by_cases hk : k0 = k
        · have hkey : ¬(key = k) := fun he => h0 (hk.trans he.symm)
          have hk2 : ¬(k = key) := fun he => hkey he.symm
          simp [insertH, lookupH, h0, hk, hkey, hk2]
        · simp [insertH, lookupH, h0, hk, ih]

/-- One loop iteration never drops or overwrites a history binding. -/
theorem loopStep_history (N : Int) (s : LoopState) (k : String) (v : Int)
    (h : lookupH s.history k = some v) :
    lookupH (loopStep N s).history k = some v := by
  unfold loopStep
  cases hf : s.cycleFound with
  | true => simpa using h
  | false =>
      simp only [Bool.false_eq_true, if_false]
      cases hl : lookupH s.history (s.board.cycle 1).hash with
      | some p => simpa using h
      | none =>
          simp only
          rw [lookupH_insertH]
          split_ifs with hk
          · rw [← hk] at h
            rw [h] at hl
            exact absurd hl (by simp)
          · exact h

/-- C7: History invariant: once the `part02` loop has associated a
fingerprint with a step index, that binding survives, unchanged, to the
end of the run — a first-seen index is never overwritten. -/
theorem part02_history_stable (N : Int) (fuel : Nat) :
    ∀ (s s2 : LoopState), loopF N fuel s = some s2 →
    ∀ (k : String) (v : Int), lookupH s.history k = some v →
    lookupH s2.history k = some v := by
  induction fuel with
  | zero =>
      intro s s2 hrun k v h
      rw [loopF] at hrun
      split_ifs at hrun
      obtain rfl : s = s2 := by simpa using hrun
      exact h
  | succ n ih =>
      intro s s2 hrun k v h
      rw [loopF] at hrun
      split_ifs at hrun with hc
      · exact ih (loopStep N s) s2 hrun k v (loopStep_history N s k v h)
      · obtain rfl : s = s2 := by simpa using hrun
        exact h

/-- Witness for `part02_history_stable`: a run that exits immediately
keeps the binding. -/
theorem part02_history_stable_witness :
    lookupH [("1,1", (3 : Int))] "1,1" = some 3 :=
  part02_history_stable 0 0
    ⟨⟨1, 1, [[StoneType.Round]]⟩, [("1,1", (3 : Int))], false, 1⟩
    ⟨⟨1, 1, [[StoneType.Round]]⟩, [("1,1", (3 : Int))], false, 1⟩
    (by decide) "1,1" 3 (by decide)

/-- `foldl` preserves any invariant its step preserves. -/
theorem foldl_pres {α β : Type} (P : β → Prop) (f : β → α → β)
    (hstep : ∀ b a, P b → P (f b a)) :
    ∀ (l : List α) (b : β), P b → P (l.foldl f b) := by
  intro l
  induction l with
  | nil => intro b h; exact h
  | cons a l2 ih => intro b h; exact ih (f b a) (hstep b a h)

/-- Zero cycles change nothing. -/
theorem cycle_zero (g : StonePulleyGrid) : g.cycle 0 = g := rfl

/-- One cycle is four tilt-then-rotate quarter turns. -/
theorem cycle_one_eq (g : StonePulleyGrid) :
    g.cycle 1 =
      g.next.rot_90_cw.next.rot_90_cw.next.rot_90_cw.next.rot_90_cw := rfl

/-- Cycles compose one at a time. -/
theorem cycle_succ (g : StonePulleyGrid) (n : Nat) :
    g.cycle (n + 1) = (g.cycle n).cycle 1 := by
  show (List.range (n + 1)).foldl
      (fun acc _ => (List.range 4).foldl (fun sub _ => sub.next.rot_90_cw) acc)
      g =
    (List.range 1).foldl
      (fun acc _ => (List.range 4).foldl (fun sub _ => sub.next.rot_90_cw) acc)
      ((List.range n).foldl
        (fun acc _ =>
          (List.range 4).foldl (fun sub _ => sub.next.rot_90_cw) acc) g)
  rw [show List.range (n + 1) = List.range n ++ [n] from List.range_succ n,
    List.foldl_append]
  rfl

/-- `moveNorth` either does nothing or performs one south-north swap of
a round stone into an empty cell. -/
theorem moveNorth_eq (b : List (List StoneType)) (r c : Nat) :
    moveNorth b r c = b ∨
    ∃ r2, r = r2 + 1 ∧ cellAt b (r2 + 1) c = some StoneType.Round ∧
      cellAt b r2 c = some StoneType.Empty ∧
      moveNorth b r c =
        setCell (setCell b r2 c StoneType.Round) (r2 + 1) c StoneType.Empty := by
  unfold moveNorth
  by_cases h1 : cellAt b r c = some StoneType.Round
  · rw [if_pos h1]
    cases r with
    | zero => left; rfl
    | succ r2 =>
        by_cases h2 : cellAt b r2 c = some StoneType.Empty
        · right
          exact ⟨r2, rfl, h1, h2, by simp [h2]⟩
        · left
          simp [h2]
  · rw [if_neg h1]
    left
    rfl

/-- `moveNorth` keeps the shape. -/
theorem moveNorth_shaped {R C : Nat} {b : List (List StoneType)}
    (h : Shaped b R C) (r c : Nat) : Shaped (moveNorth b r c) R C := by
  rcases moveNorth_eq b r c with he | ⟨r2, _, _, _, he⟩
  · rw [he]
    exact h
  · rw [he]
    exact shaped_setCell (shaped_setCell h r2 c StoneType.Round)
      (r2 + 1) c StoneType.Empty

/-- `next` keeps the recorded dimensions. -/
theorem next_dims (g : StonePulleyGrid) :
    g.next.num_rows = g.num_rows ∧ g.next.num_cols = g.num_cols := ⟨rfl, rfl⟩

/-- `next` keeps the matrix shape. -/
theorem next_shaped {R C : Nat} (g : StonePulleyGrid)
    (h : Shaped g.stones R C) : Shaped g.next.stones R C := by
  unfold StonePulleyGrid.next
  simp only
  exact foldl_pres (fun b => Shaped b R C) _
    (fun b1 off hb1 =>
      foldl_pres (fun b => Shaped b R C) _
        (fun b2 ri hb2 =>
          foldl_pres (fun b => Shaped b R C) _
            (fun b3 col hb3 => moveNorth_shaped hb3 ri col) _ _ hb2) _ _ hb1)
    _ _ h

/-- One tilt-then-rotate step keeps square dimensions and shape. -/
theorem nextrot_pres (n : Nat) (h : StonePulleyGrid)
    (h1 : h.num_rows = n) (h2 : h.num_cols = n) :
    h.next.rot_90_cw.num_rows = n ∧ h.next.rot_90_cw.num_cols = n ∧
    Shaped h.next.rot_90_cw.stones n n := by
  refine ⟨by rw [(rot_dims h.next).1]; exact h1,
    by rw [(rot_dims h.next).2]; exact h2, ?_⟩
  have := rot_shaped h.next
  rw [show h.next.num_cols = n from h2, show h.next.num_rows = n from h1] at this
  exact this

/-- One full cycle keeps square dimensions and shape. -/
theorem cycle_one_pres (n : Nat) (g : StonePulleyGrid)
    (h1 : g.num_rows = n) (h2 : g.num_cols = n) :
    (g.cycle 1).num_rows = n ∧ (g.cycle 1).num_cols = n ∧
    Shaped (g.cycle 1).stones n n := by
  obtain ⟨a1, a2, a3⟩ := nextrot_pres n g h1 h2
  obtain ⟨b1, b2, b3⟩ := nextrot_pres n _ a1 a2
  obtain ⟨c1, c2, c3⟩ := nextrot_pres n _ b1 b2
  obtain ⟨d1, d2, d3⟩ := nextrot_pres n _ c1 c2
  rw [cycle_one_eq]
  exact ⟨d1, d2, d3⟩

/-- Every point of the trajectory keeps square dimensions and shape. -/
theorem cycle_pres (n : Nat) (g : StonePulleyGrid)
    (h1 : g.num_rows = n) (h2 : g.num_cols = n) (hsh : Shaped g.stones n n) :
    ∀ k, (g.cycle k).num_rows = n ∧ (g.cycle k).num_cols = n ∧
      Shaped (g.cycle k).stones n n := by
  intro k
  induction k with
  | zero => exact ⟨h1, h2, hsh⟩
  | succ m ih =>
      rw [cycle_succ]
      exact cycle_one_pres n _ ih.1 ih.2.1

/-- `moveNorth` never creates or destroys a fixed stone at any cell. -/
theorem moveNorth_fixed (b : List (List StoneType)) (r c i j : Nat) :
    cellAt (moveNorth b r c) i j = some StoneType.Fixed ↔
      cellAt b i j = some StoneType.Fixed := by
  rcases moveNorth_eq b r c with he | ⟨r2, _, hround, hempty, he⟩
  · rw [he]
  · rw [he]
    obtain ⟨rowR, hbR, hgetR⟩ := cellAt_eq_some.mp hround
    obtain ⟨rowE, hbE, hgetE⟩ := cellAt_eq_some.mp hempty
    have hcR : c < rowR.length := (List.get?_eq_some.mp hgetR).1
    have hcE : c < rowE.length := (List.get?_eq_some.mp hgetE).1
    by_cases hij1 : i = r2 + 1 ∧ j = c
    · obtain ⟨rfl, rfl⟩ := hij1
      have hb2 : (setCell b r2 j StoneType.Round).get? (r2 + 1) = some rowR := by
        rw [get?_setCell_ne _ _ _ _ _ (by omega)]
        exact hbR
      rw [cellAt_setCell_self _ (r2 + 1) j StoneType.Empty rowR hb2 hcR, hround]
      simp
    · by_cases hij2 : i = r2 ∧ j = c
      · obtain ⟨rfl, rfl⟩ := hij2
        rw [cellAt_setCell_ne _ (i + 1) j _ i j (by omega)]
        rw [cellAt_setCell_self b i j StoneType.Round rowE hbE hcE, hempty]
        simp
      · rw [cellAt_setCell_ne _ _ _ _ _ _ hij1, cellAt_setCell_ne _ _ _ _ _ _ hij2]

/-- `next` never creates or destroys a fixed stone at any cell. -/
theorem next_fixed (g : StonePulleyGrid) (i j : Nat) :
    cellAt g.next.stones i j = some StoneType.Fixed ↔
      cellAt g.stones i j = some StoneType.Fixed := by
  unfold StonePulleyGrid.next
  simp only
  exact foldl_pres
    (fun b => ∀ i2 j2, cellAt b i2 j2 = some StoneType.Fixed ↔
      cellAt g.stones i2 j2 = some StoneType.Fixed)
    (fun b1 off =>
      (List.range' 1 (g.num_rows - off)).foldl
        (fun b2 row_idx =>
          (List.range g.num_cols).foldl
            (fun b3 col => moveNorth b3 row_idx col) b2) b1)
    (fun b1 off hb1 =>
      foldl_pres
        (fun b => ∀ i2 j2, cellAt b i2 j2 = some StoneType.Fixed ↔
          cellAt g.stones i2 j2 = some StoneType.Fixed)
        (fun b2 row_idx =>
          (List.range g.num_cols).foldl
            (fun b3 col => moveNorth b3 row_idx col) b2)
        (fun b2 ri hb2 =>
          foldl_pres
            (fun b => ∀ i2 j2, cellAt b i2 j2 = some StoneType.Fixed ↔
              cellAt g.stones i2 j2 = some StoneType.Fixed)
            (fun b3 col => moveNorth b3 ri col)
            (fun b3 col hb3 i2 j2 =>
              (moveNorth_fixed b3 ri col i2 j2).trans (hb3 i2 j2))
            (List.range g.num_cols) b2 hb2)
        (List.range' 1 (g.num_rows - off)) b1 hb1)
    (List.range' 1 (g.num_rows - 1)) g.stones (fun _ _ => Iff.rfl) i j

/-- The quarter-turn cell chase specialised to a square grid. -/
theorem rot_cell_sq (n : Nat) (h : StonePulleyGrid) (h1 : h.num_rows = n)
    (h2 : h.num_cols = n) (hsh : Shaped h.stones n n) :
    ∀ i j, i < n → j < n →
    cellAt h.rot_90_cw.stones i j = cellAt h.stones (n - j - 1) i := by
  intro i j hi hj
  have hwfh : h.WF := by
    show Shaped h.stones h.num_rows h.num_cols
    rw [h1, h2]
    exact hsh
  have := rot_cell h hwfh (n - j - 1) i (by rw [h1]; omega) (by rw [h2]; exact hi)
  rw [h1] at this
  have he : n - (n - j - 1) - 1 = j := by omega
  rw [he] at this
  exact this

/-- One full cycle of a square grid keeps the fixed stones exactly in
place. -/
theorem cycle_one_fixed (n : Nat) (g : StonePulleyGrid)
    (h1 : g.num_rows = n) (h2 : g.num_cols = n) (hsh : Shaped g.stones n n) :
    ∀ i j, cellAt (g.cycle 1).stones i j = some StoneType.Fixed ↔
      cellAt g.stones i j = some StoneType.Fixed := by
  have step : ∀ h : StonePulleyGrid, h.num_rows = n → h.num_cols = n →
      Shaped h.stones n n → ∀ i j, i < n → j < n →
      (cellAt h.next.rot_90_cw.stones i j = some StoneType.Fixed ↔
        cellAt h.stones (n - j - 1) i = some StoneType.Fixed) := by
    intro h hh1 hh2 hhsh i j hi hj
    rw [rot_cell_sq n h.next (by rw [(next_dims h).1]; exact hh1)
      (by rw [(next_dims h).2]; exact hh2) (next_shaped h hhsh) i j hi hj]
    exact next_fixed h (n - j - 1) i
  obtain ⟨a1, a2, a3⟩ := nextrot_pres n g h1 h2
  obtain ⟨b1, b2, b3⟩ := nextrot_pres n _ a1 a2
  obtain ⟨c1, c2, c3⟩ := nextrot_pres n _ b1 b2
  obtain ⟨d1, d2, d3⟩ := nextrot_pres n _ c1 c2
  intro i j
  rw [cycle_one_eq]
  by_cases hij : i < n ∧ j < n
  · obtain ⟨hi, hj⟩ := hij
    rw [step _ c1 c2 c3 i j hi hj]
    rw [step _ b1 b2 b3 (n - j - 1) i (by omega) hi]
    rw [step _ a1 a2 a3 (n - i - 1) (n - j - 1) (by omega) (by omega)]
    have e2 : n - (n - j - 1) - 1 = j := by omega
    rw [e2]
    rw [step g h1 h2 hsh j (n - i - 1) hj (by omega)]
    have e1 : n - (n - i - 1) - 1 = i := by omega
    rw [e1]
  · have hout : n ≤ i ∨ n ≤ j := by
      rcases Nat.lt_or_ge i n with h | h
      · right
        rcases Nat.lt_or_ge j n with hb | hb
        · exact absurd ⟨h, hb⟩ hij
        · exact hb
      · left
        exact h
    rw [cellAt_out d3 i j hout, cellAt_out hsh i j hout]

/-- Every point of the trajectory has the fixed stones of the start. -/
theorem cycle_fixed (n : Nat) (g : StonePulleyGrid)
    (h1 : g.num_rows = n) (h2 : g.num_cols = n) (hsh : Shaped g.stones n n) :
    ∀ k i j, cellAt (g.cycle k).stones i j = some StoneType.Fixed ↔
      cellAt g.stones i j = some StoneType.Fixed := by
  intro k
  induction k with
  | zero => intro i j; rfl
  | succ m ih =>
      intro i j
      obtain ⟨p1, p2, p3⟩ := cycle_pres n g h1 h2 hsh m
      rw [cycle_succ]
      rw [cycle_one_fixed n _ p1 p2 p3 i j]
      exact ih i j

/-- `decAux` does not depend on the fuel once it is sufficient. -/
theorem decAux_fuel : ∀ (f1 n f2 : Nat), n < f1 → n < f2 →
    decAux f1 n = decAux f2 n := by
  intro f1
  induction f1 with
  | zero => intro n f2 h; omega
  | succ f ih =>
      intro n f2 hn hn2
      cases f2 with
      | zero => omega
      | succ f2p =>
          rw [decAux, decAux]
          by_cases h10 : n < 10
          · rw [if_pos h10, if_pos h10]
          · rw [if_neg h10, if_neg h10]
            have hd : n / 10 < n := Nat.div_lt_self (by omega) (by omega)
            rw [ih (n / 10) f2p (by omega) (by omega)]

/-- Small numbers render as a single digit. -/
theorem decChars_lt {n : Nat} (h : n < 10) : decChars n = [digitChar n] := by
  rw [decChars, decAux, if_pos h]

/-- Large numbers render as their leading digits then the last digit. -/
theorem decChars_ge {n : Nat} (h : 10 ≤ n) :
    decChars n = decChars (n / 10) ++ [digitChar (n % 10)] := by
  have hd : n / 10 < n := Nat.div_lt_self (by omega) (by omega)
  rw [decChars, decAux, if_neg (by omega), decChars]
  congr 1
  exact decAux_fuel n (n / 10) (n / 10 + 1) (by omega) (by omega)

/-- Digit characters are pairwise distinct. -/
theorem digitChar_inj : ∀ d1 < 10, ∀ d2 < 10,
    digitChar d1 = digitChar d2 → d1 = d2 := by decide

/-- No digit character is a comma. -/
theorem digitChar_ne_comma : ∀ d < 10, digitChar d ≠ ',' := by decide

/-- No digit character is a bar. -/
theorem digitChar_ne_bar : ∀ d < 10, digitChar d ≠ '|' := by decide

/-- Decimal renderings are never empty. -/
theorem decChars_ne_nil (n : Nat) : decChars n ≠ [] := by
  by_cases h : n < 10
  · rw [decChars_lt h]
    simp
  · rw [decChars_ge (by omega)]
    simp

/-- Every character of a decimal rendering is a digit character. -/
theorem mem_decChars : ∀ (n : Nat) (c : Char), c ∈ decChars n →
    ∃ d, d < 10 ∧ c = digitChar d := by
  intro n
  induction n using Nat.strong_induction_on with
  | _ n ih =>
      intro c hc
      by_cases h : n < 10
      · rw [decChars_lt h] at hc
        rcases List.mem_singleton.mp hc with rfl
        exact ⟨n, h, rfl⟩
      · rw [decChars_ge (by omega)] at hc
        rcases List.mem_append.mp hc with hm | hm
        · exact ih (n / 10) (Nat.div_lt_self (by omega) (by omega)) c hm
        · rcases List.mem_singleton.mp hm with rfl
          exact ⟨n % 10, Nat.mod_lt n (by omega), rfl⟩

/-- A comma never appears in a decimal rendering. -/
theorem comma_not_mem_decChars (n : Nat) : ',' ∉ decChars n := by
  intro hm
  rcases mem_decChars n _ hm with ⟨d, hd, he⟩
  exact digitChar_ne_comma d hd he.symm

/-- A bar never appears in a decimal rendering. -/
theorem bar_not_mem_decChars (n : Nat) : '|' ∉ decChars n := by
  intro hm
  rcases mem_decChars n _ hm with ⟨d, hd, he⟩
  exact digitChar_ne_bar d hd he.symm

/-- Decimal rendering is injective. -/
theorem decChars_inj : ∀ (n1 n2 : Nat), decChars n1 = decChars n2 →
    n1 = n2 := by
  intro n1
  induction n1 using Nat.strong_induction_on with
  | _ n1 ih =>
      intro n2 h
      by_cases h1 : n1 < 10 <;> by_cases h2 : n2 < 10
      · rw [decChars_lt h1, decChars_lt h2] at h
        exact digitChar_inj n1 h1 n2 h2 (by simpa using h)
      · exfalso
        rw [decChars_lt h1, decChars_ge (show 10 ≤ n2 by omega)] at h
        rcases hA : decChars (n2 / 10) with _ | ⟨a, as⟩
        · exact decChars_ne_nil _ hA
        · rw [hA] at h
          simp only [List.cons_append, List.cons.injEq] at h
          exact absurd h.2.symm (by simp)
      · exfalso
        rw [decChars_ge (show 10 ≤ n1 by omega), decChars_lt h2] at h
        rcases hA : decChars (n1 / 10) with _ | ⟨a, as⟩
        · exact decChars_ne_nil _ hA
        · rw [hA] at h
          simp only [List.cons_append, List.cons.injEq] at h
          exact absurd h.2 (by simp)
      · rw [decChars_ge (show 10 ≤ n1 by omega),
          decChars_ge (show 10 ≤ n2 by omega)] at h
        obtain ⟨hleft, hright⟩ := List.append_inj' h (by simp)
        have hm : n1 % 10 = n2 % 10 :=
          digitChar_inj (n1 % 10) (Nat.mod_lt n1 (by omega)) (n2 % 10)
            (Nat.mod_lt n2 (by omega)) (by simpa using hright)
        have hdiv : n1 / 10 = n2 / 10 :=
          ih (n1 / 10) (Nat.div_lt_self (by omega) (by omega)) (n2 / 10) hleft
        have e1 := Nat.div_add_mod n1 10
        have e2 := Nat.div_add_mod n2 10
        omega

/-- Splitting at a separator absent from both prefixes is unambiguous. -/
theorem append_sep_inj {sep : Char} : ∀ (a c b d : List Char),
    sep ∉ a → sep ∉ c → a ++ sep :: b = c ++ sep :: d → a = c ∧ b = d := by
  intro a
  induction a with
  | nil =>
      intro c b d _ hc h
      cases c with
      | nil =>
          simp only [List.nil_append] at h
          exact ⟨rfl, by simpa using h⟩
      | cons c0 cs =>
          simp only [List.nil_append, List.cons_append, List.cons.injEq] at h
          exact absurd (h.1 ▸ List.mem_cons_self c0 cs) (h.1 ▸ hc)
  | cons a0 as ih =>
      intro c b d ha hc h
      cases c with
      | nil =>
          simp only [List.nil_append, List.cons_append, List.cons.injEq] at h
          exact absurd (h.1 ▸ List.mem_cons_self a0 as) (fun hm => ha (h.1 ▸ hm))
      | cons c0 cs =>
          simp only [List.cons_append, List.cons.injEq] at h
          obtain ⟨he, hbd⟩ := ih cs b d
            (fun hm => ha (List.mem_cons_of_mem a0 hm))
            (fun hm => hc (List.mem_cons_of_mem c0 hm)) h.2
          exact ⟨by rw [h.1, he], hbd⟩

/-- The `"x,y"` rendering of a position is injective. -/
theorem posChars_inj (x1 y1 x2 y2 : Nat)
    (h : posChars x1 y1 = posChars x2 y2) : x1 = x2 ∧ y1 = y2 := by
  unfold posChars at h
  obtain ⟨hx, hy⟩ := append_sep_inj (decChars x1) (decChars x2) _ _
    (comma_not_mem_decChars x1) (comma_not_mem_decChars x2) h
  exact ⟨decChars_inj x1 x2 hx, decChars_inj y1 y2 hy⟩

/-- The two-or-more-fragments unfolding of `sepJoin`. -/
theorem sepJoin_cons2 (sep : Char) (s t : List Char) (r : List (List Char)) :
    sepJoin sep (s :: t :: r) = s ++ sep :: sepJoin sep (t :: r) := rfl

/-- Joining nonempty separator-free fragments is injective. -/
theorem sepJoin_inj {sep : Char} : ∀ (l1 l2 : List (List Char)),
    (∀ s ∈ l1, sep ∉ s ∧ s ≠ []) → (∀ s ∈ l2, sep ∉ s ∧ s ≠ []) →
    sepJoin sep l1 = sepJoin sep l2 → l1 = l2 := by
  intro l1
  induction l1 with
  | nil =>
      intro l2 _ h2 h
      cases l2 with
      | nil => rfl
      | cons s rest =>
          cases rest with
          | nil =>
              exact absurd (show s = [] from h.symm)
                (h2 s (List.mem_cons_self s [])).2
          | cons t r =>
              rw [sepJoin_cons2] at h
              rcases List.append_eq_nil.mp h.symm with ⟨_, habs⟩
              exact absurd habs (by simp)
  | cons s1 rest1 ih =>
      intro l2 h1 h2 h
      cases l2 with
      | nil =>
          cases rest1 with
          | nil =>
              exact absurd (show s1 = [] from h)
                (h1 s1 (List.mem_cons_self s1 [])).2
          | cons t r =>
              rw [sepJoin_cons2] at h
              rcases List.append_eq_nil.mp h with ⟨_, habs⟩
              exact absurd habs (by simp)
      | cons s2 rest2 =>
          cases rest1 with
          | nil =>
              cases rest2 with
              | nil =>
                  rw [show sepJoin sep [s1] = s1 from rfl,
                    show sepJoin sep [s2] = s2 from rfl] at h
                  rw [h]
              | cons t2 r2 =>
                  rw [show sepJoin sep [s1] = s1 from rfl, sepJoin_cons2] at h
                  have : sep ∈ s1 := by
                    rw [h]
                    exact List.mem_append.mpr (Or.inr (List.mem_cons_self _ _))
                  exact absurd this (h1 s1 (List.mem_cons_self s1 [])).1
          | cons t1 r1 =>
              cases rest2 with
              | nil =>
                  rw [show sepJoin sep [s2] = s2 from rfl, sepJoin_cons2] at h
                  have : sep ∈ s2 := by
                    rw [← h]
                    exact List.mem_append.mpr (Or.inr (List.mem_cons_self _ _))
                  exact absurd this (h2 s2 (List.mem_cons_self s2 [])).1
              | cons t2 r2 =>
                  rw [sepJoin_cons2, sepJoin_cons2] at h
                  obtain ⟨he, hj⟩ := append_sep_inj s1 s2 _ _
                    (h1 s1 (List.mem_cons_self s1 _)).1
                    (h2 s2 (List.mem_cons_self s2 _)).1 h
                  rw [he, ih (t2 :: r2)
                    (fun s hs => h1 s (List.mem_cons_of_mem s1 hs))
                    (fun s hs => h2 s (List.mem_cons_of_mem s2 hs)) hj]

/-- The positions listed by `hash` are exactly the round stones'
coordinates. -/
theorem mem_roundPositions (g : StonePulleyGrid) (x y : Nat) :
    (x, y) ∈ roundPositions g ↔
      ∃ r, cellAt g.stones r x = some StoneType.Round ∧
        y = g.num_rows - r := by
  unfold roundPositions
  rw [List.mem_flatMap]
  constructor
  · rintro ⟨rc, hrc, hin⟩
    rw [List.mem_filterMap] at hin
    obtain ⟨cs, hcs, hif⟩ := hin
    by_cases hR : cs.2 = StoneType.Round
    · rw [if_pos hR] at hif
      obtain ⟨he1, he2⟩ := Prod.mk.injEq .. ▸ Option.some.inj hif
      refine ⟨rc.1, ?_, he2.symm⟩
      rw [cellAt, List.mem_enum_iff_get?.mp hrc]
      simp only [Option.bind]
      rw [← he1]
      rw [List.mem_enum_iff_get?.mp hcs, hR]
    · rw [if_neg hR] at hif
      exact absurd hif (by simp)
  · rintro ⟨r, hcell, hy⟩
    obtain ⟨row, hrow, hget⟩ := cellAt_eq_some.mp hcell
    refine ⟨(r, row), List.mem_enum_iff_get?.mpr hrow, ?_⟩
    rw [List.mem_filterMap]
    refine ⟨(x, StoneType.Round), List.mem_enum_iff_get?.mpr hget, ?_⟩
    rw [if_pos rfl, hy]

/-- Two same-height boards with the same fingerprint have the same round
stones. -/
theorem round_eq_of_hash {n : Nat} (g1 g2 : StonePulleyGrid)
    (h1r : g1.num_rows = n) (h2r : g2.num_rows = n)
    (sh1 : Shaped g1.stones n g1.num_cols)
    (sh2 : Shaped g2.stones n g2.num_cols)
    (hh : g1.hash = g2.hash) :
    ∀ r x, cellAt g1.stones r x = some StoneType.Round ↔
      cellAt g2.stones r x = some StoneType.Round := by
  have hdata : sepJoin '|' ((roundPositions g1).map fun p => posChars p.1 p.2) =
      sepJoin '|' ((roundPositions g2).map fun p => posChars p.1 p.2) :=
    congrArg String.data hh
  have hparts : ∀ (g : StonePulleyGrid),
      ∀ s ∈ (roundPositions g).map fun p => posChars p.1 p.2,
      '|' ∉ s ∧ s ≠ [] := by
    intro g s hs
    rw [List.mem_map] at hs
    obtain ⟨p, _, rfl⟩ := hs
    constructor
    · intro hmem
      unfold posChars at hmem
      rcases List.mem_append.mp hmem with hm | hm
      · exact bar_not_mem_decChars p.1 hm
      · rcases List.mem_cons.mp hm with he | hm2
        · exact absurd he (by decide)
        · exact bar_not_mem_decChars p.2 hm2
    · unfold posChars
      simp
  have hmaps := sepJoin_inj _ _ (hparts g1) (hparts g2) hdata
  have hinj : Function.Injective fun p : Nat × Nat => posChars p.1 p.2 := by
    rintro ⟨a1, b1⟩ ⟨a2, b2⟩ hpq
    obtain ⟨hx, hy⟩ := posChars_inj a1 b1 a2 b2 hpq
    rw [hx, hy]
  have hrp : roundPositions g1 = roundPositions g2 :=
    List.map_injective_iff.mpr hinj hmaps
  intro r x
  constructor
  · intro hc
    have hrn : r < n := by
      obtain ⟨row, hrow, _⟩ := cellAt_eq_some.mp hc
      have := (List.get?_eq_some.mp hrow).1
      rw [sh1.1] at this
      exact this
    have hmem : (x, g1.num_rows - r) ∈ roundPositions g1 :=
      (mem_roundPositions g1 x _).mpr ⟨r, hc, rfl⟩
    rw [hrp] at hmem
    obtain ⟨r2, hc2, hy2⟩ := (mem_roundPositions g2 x _).mp hmem
    have hr2n : r2 < n := by
      obtain ⟨row, hrow, _⟩ := cellAt_eq_some.mp hc2
      have := (List.get?_eq_some.mp hrow).1
      rw [sh2.1] at this
      exact this
    have : r2 = r := by
      rw [h1r] at hy2
      rw [h2r] at hy2
      omega
    rw [← this]
    exact hc2
  · intro hc
    have hrn : r < n := by
      obtain ⟨row, hrow, _⟩ := cellAt_eq_some.mp hc
      have := (List.get?_eq_some.mp hrow).1
      rw [sh2.1] at this
      exact this
    have hmem : (x, g2.num_rows - r) ∈ roundPositions g2 :=
      (mem_roundPositions g2 x _).mpr ⟨r, hc, rfl⟩
    rw [← hrp] at hmem
    obtain ⟨r2, hc2, hy2⟩ := (mem_roundPositions g1 x _).mp hmem
    have hr2n : r2 < n := by
      obtain ⟨row, hrow, _⟩ := cellAt_eq_some.mp hc2
      have := (List.get?_eq_some.mp hrow).1
      rw [sh1.1] at this
      exact this
    have : r2 = r := by
      rw [h1r] at hy2
      rw [h2r] at hy2
      omega
    rw [← this]
    exact hc2

/-- Two boards with equal dimensions, equal fixed stones, equal shapes
and equal fingerprints are equal. -/
theorem stones_eq_of_hash {n C : Nat} (g1 g2 : StonePulleyGrid)
    (h1r : g1.num_rows = n) (h2r : g2.num_rows = n)
    (h1c : g1.num_cols = C) (h2c : g2.num_cols = C)
    (sh1 : Shaped g1.stones n C) (sh2 : Shaped g2.stones n C)
    (hfix : ∀ i j, cellAt g1.stones i j = some StoneType.Fixed ↔
      cellAt g2.stones i j = some StoneType.Fixed)
    (hh : g1.hash = g2.hash) : g1.stones = g2.stones := by
  have sh1c : Shaped g1.stones n g1.num_cols := by rw [h1c]; exact sh1
  have sh2c : Shaped g2.stones n g2.num_cols := by rw [h2c]; exact sh2
  have hround := round_eq_of_hash g1 g2 h1r h2r sh1c sh2c hh
  refine shaped_ext sh1 sh2 ?_
  intro i j
  by_cases hij : i < n ∧ j < C
  · obtain ⟨hi, hj⟩ := hij
    obtain ⟨row1, hrow1, hl1⟩ := shaped_get sh1 hi
    obtain ⟨row2, hrow2, hl2⟩ := shaped_get sh2 hi
    obtain ⟨v1, hv1⟩ : ∃ v, row1.get? j = some v := by
      rw [List.get?_eq_getElem?]
      exact ⟨_, List.getElem?_eq_getElem (by rw [hl1]; exact hj)⟩
    obtain ⟨v2, hv2⟩ : ∃ v, row2.get? j = some v := by
      rw [List.get?_eq_getElem?]
      exact ⟨_, List.getElem?_eq_getElem (by rw [hl2]; exact hj)⟩
    have hc1 : cellAt g1.stones i j = some v1 := by
      rw [cellAt, hrow1]
      simpa using hv1
    have hc2 : cellAt g2.stones i j = some v2 := by
      rw [cellAt, hrow2]
      simpa using hv2
    have hR := hround i j
    have hF := hfix i j
    rw [hc1, hc2] at hR hF
    rw [hc1, hc2]
    cases v1 <;> cases v2 <;> simp_all
  · have hout : n ≤ i ∨ C ≤ j := by
      rcases Nat.lt_or_ge i n with h | h
      · right
        rcases Nat.lt_or_ge j C with hb | hb
        · exact absurd ⟨h, hb⟩ hij
        · exact hb
      · left
        exact h
    rw [cellAt_out sh1 i j hout, cellAt_out sh2 i j hout]

/-- `toNat` distributes over products of nonnegatives. -/
theorem toNat_mul_nonneg {a b : Int} (ha : 0 ≤ a) (hb : 0 ≤ b) :
    (a * b).toNat = a.toNat * b.toNat := by
  have h : a * b = ((a.toNat * b.toNat : Nat) : Int) := by
    push_cast
    rw [Int.toNat_of_nonneg ha, Int.toNat_of_nonneg hb]
  rw [h, Int.toNat_natCast]

/-- A repeat in the trajectory makes it periodic from there on. -/
theorem cycle_period (g : StonePulleyGrid) (a L : Nat)
    (hL : g.cycle (a + L) = g.cycle a) :
    ∀ t, a ≤ t → g.cycle (t + L) = g.cycle t := by
  intro t ht
  induction t, ht using Nat.le_induction with
  | base => exact hL
  | succ t ht ih =>
      have he : t + 1 + L = (t + L) + 1 := by omega
      rw [he, cycle_succ, ih, ← cycle_succ]

/-- Whole multiples of the period can be dropped. -/
theorem cycle_period_mul (g : StonePulleyGrid) (a L : Nat)
    (hL : g.cycle (a + L) = g.cycle a) :
    ∀ (q t : Nat), a ≤ t → g.cycle (t + q * L) = g.cycle t := by
  intro q
  induction q with
  | zero => intro t _; simp
  | succ p ih =>
      intro t ht
      have he : t + (p + 1) * L = (t + p * L) + L := by ring
      rw [he, cycle_period g a L hL (t + p * L) (by omega), ih t ht]

/-- The empty history. -/
theorem histList_zero (g : StonePulleyGrid) : histList g 0 = [] := by
  simp [histList]

/-- Unfolding one more recorded fingerprint. -/
theorem histList_succ (g : StonePulleyGrid) (m : Nat) :
    histList g (m + 1) =
      histList g m ++ [((g.cycle (m + 1)).hash, (m : Int))] := by
  simp [histList, List.range_succ]

/-- Lookup distributes over appended histories. -/
theorem lookupH_append (l1 l2 : List (String × Int)) (k : String) :
    lookupH (l1 ++ l2) k =
      match lookupH l1 k with
      | some v => some v
      | none => lookupH l2 k := by
  induction l1 with
  | nil => rfl
  | cons e rest ih =>
      rcases e with ⟨k0, w⟩
      by_cases h0 : k0 = k
      · simp [lookupH, h0]
      · simp [lookupH, h0, ih]

/-- A hit in the history names an earlier trajectory point with the same
fingerprint. -/
theorem lookupH_histList_some (g : StonePulleyGrid) :
    ∀ (m : Nat) (h : String) (p : Int),
    lookupH (histList g m) h = some p →
    ∃ j : Nat, j < m ∧ p = (j : Int) ∧ (g.cycle (j + 1)).hash = h := by
  intro m
  induction m with
  | zero =>
      intro h p hl
      rw [histList_zero] at hl
      exact absurd hl (by simp [lookupH])
  | succ m2 ih =>
      intro h p hl
      rw [histList_succ, lookupH_append] at hl
      cases hl2 : lookupH (histList g m2) h with
      | some v =>
          rw [hl2] at hl
          have hvp : v = p := Option.some.inj hl
          obtain ⟨j, hj, he, hh⟩ := ih h v hl2
          exact ⟨j, by omega, by omega, hh⟩
      | none =>
          rw [hl2] at hl
          by_cases hk : (g.cycle (m2 + 1)).hash = h
          · have hsp : some ((m2 : Nat) : Int) = some p := by
              simpa [lookupH, hk] using hl
            exact ⟨m2, by omega, (Option.some.inj hsp).symm, hk⟩
          · exfalso
            simp [lookupH, hk] at hl

/-- Inserting an absent key appends it. -/
theorem insertH_absent : ∀ (l : List (String × Int)) (k : String) (v : Int),
    lookupH l k = none → insertH l k v = l ++ [(k, v)] := by
  intro l
  induction l with
  | nil => intro k v _; rfl
  | cons e rest ih =>
      intro k v hl
      rcases e with ⟨k0, w⟩
      by_cases h0 : k0 = k
      · rw [lookupH, if_pos h0] at hl
        exact absurd hl (by simp)
      · rw [lookupH, if_neg h0] at hl
        rw [insertH, if_neg h0, ih k v hl]
        rfl

/-- After the skip, the loop just advances the board once per remaining
step. -/
theorem loop_found (N : Int) (g : StonePulleyGrid) :
    ∀ (fuel : Nat) (s : LoopState) (k : Nat),
    s.board = g.cycle k → s.cycleFound = true → s.current ≤ N →
    ∀ s2, loopF N fuel s = some s2 →
    s2.board = g.cycle (k + (N - s.current).toNat) ∧
      s2.cycleFound = true := by
  intro fuel
  induction fuel with
  | zero =>
      intro s k hb hf hle s2 hrun
      rw [loopF] at hrun
      split_ifs at hrun with hc
      obtain rfl : s = s2 := by simpa using hrun
      have he : s.current = N := by omega
      rw [he]
      simp only [sub_self, Int.toNat_zero, Nat.add_zero]
      exact ⟨hb, hf⟩
  | succ f ih =>
      intro s k hb hf hle s2 hrun
      rw [loopF] at hrun
      split_ifs at hrun with hc
      · have hstep : loopStep N s =
            ⟨(g.cycle k).cycle 1, s.history, true, s.current + 1⟩ := by
          unfold loopStep
          rw [hf, hb]
          simp
        rw [hstep] at hrun
        have hres := ih ⟨(g.cycle k).cycle 1, s.history, true, s.current + 1⟩
          (k + 1) (by rw [← cycle_succ]) rfl
          (by show s.current + 1 ≤ N; omega) s2 hrun
        refine ⟨?_, hres.2⟩
        rw [hres.1]
        have he : k + 1 + (N - (s.current + 1)).toNat =
            k + (N - s.current).toNat := by omega
        exact congrArg g.cycle he
      · obtain rfl : s = s2 := by simpa using hrun
        have he : s.current = N := by omega
        rw [he]
        simp only [sub_self, Int.toNat_zero, Nat.add_zero]
        exact ⟨hb, hf⟩

/-- The `part02` loop, started at any not-yet-detected head state,
ends on the brute-force grid of `N-1` cycles when no repeat is found and
on the grid of `N` cycles when one is. -/
theorem loop_main (n : Nat) (g : StonePulleyGrid) (h1 : g.num_rows = n)
    (h2 : g.num_cols = n) (hsh : Shaped g.stones n n) (N : Int) :
    ∀ (fuel : Nat) (m : Nat), (m = 0 ∨ (m : Int) < N) →
    ∀ s2 : LoopState,
    loopF N fuel ⟨g.cycle m, histList g m, false, 1 + (m : Int)⟩ = some s2 →
    (s2.cycleFound = false → s2.board = g.cycle (N - 1).toNat) ∧
    (s2.cycleFound = true → s2.board = g.cycle N.toNat) := by
  intro fuel
  induction fuel with
  | zero =>
      intro m hm s2 hrun
      rw [loopF] at hrun
      split_ifs at hrun with hc
      obtain rfl : (⟨g.cycle m, histList g m, false, 1 + (m : Int)⟩ :
          LoopState) = s2 := by
        simpa using hrun
      have hc2 : ¬((1 : Int) + m < N) := hc
      constructor
      · intro _
        show g.cycle m = g.cycle (N - 1).toNat
        have he : m = (N - 1).toNat := by
          rcases hm with rfl | hlt
          · simp at hc2 ⊢
            omega
          · omega
        exact congrArg g.cycle he
      · intro hf
        exact absurd hf (by simp)
  | succ f ih =>
      intro m hm s2 hrun
      rw [loopF] at hrun
      split_ifs at hrun with hc
      · have hc2 : (1 : Int) + m < N := hc
        have hb2 : (g.cycle m).cycle 1 = g.cycle (m + 1) := (cycle_succ g m).symm
        cases hl : lookupH (histList g m) ((g.cycle (m + 1)).hash) with
        | none =>
            have hstep : loopStep N
                ⟨g.cycle m, histList g m, false, 1 + (m : Int)⟩ =
                ⟨g.cycle (m + 1), histList g (m + 1), false,
                  1 + ((m + 1 : Nat) : Int)⟩ := by
              unfold loopStep
              simp only [Bool.false_eq_true, if_false]
              rw [hb2, hl]
              have hins : insertH (histList g m) ((g.cycle (m + 1)).hash)
                  (1 + (m : Int) - 1) = histList g (m + 1) := by
                rw [insertH_absent _ _ _ hl, histList_succ]
                norm_num
              rw [hins]
              have hcur : 1 + (m : Int) + 1 = 1 + ((m + 1 : Nat) : Int) := by
                push_cast
                ring
              rw [hcur]
            rw [hstep] at hrun
            exact ih (m + 1) (Or.inr (by omega)) s2 hrun
        | some p =>
            obtain ⟨j, hjm, rfl, hhash⟩ := lookupH_histList_some g m _ p hl
            obtain ⟨dj1, dj2, shj⟩ := cycle_pres n g h1 h2 hsh (j + 1)
            obtain ⟨dm1, dm2, shm⟩ := cycle_pres n g h1 h2 hsh (m + 1)
            have hfixe : ∀ i i2,
                cellAt (g.cycle (j + 1)).stones i i2 = some StoneType.Fixed ↔
                cellAt (g.cycle (m + 1)).stones i i2 = some StoneType.Fixed := by
              intro i i2
              rw [cycle_fixed n g h1 h2 hsh (j + 1) i i2,
                cycle_fixed n g h1 h2 hsh (m + 1) i i2]
            have hstones := stones_eq_of_hash (g.cycle (j + 1)) (g.cycle (m + 1))
              dj1 dm1 dj2 dm2 shj shm hfixe hhash
            have hgrid : g.cycle (j + 1) = g.cycle (m + 1) :=
              grid_eq_of_fields (by rw [dj1, dm1]) (by rw [dj2, dm2]) hstones
            have hperiod : g.cycle ((j + 1) + (m - j)) = g.cycle (j + 1) := by
              have he : (j + 1) + (m - j) = m + 1 := by omega
              rw [he]
              exact hgrid.symm

            have hstep : loopStep N
                ⟨g.cycle m, histList g m, false, 1 + (m : Int)⟩ =
                ⟨g.cycle (m + 1), histList g m, true,
                  1 + (m : Int) +
                    Int.tdiv (N - (1 + (m : Int)))
                      (1 + (m : Int) - (j : Int) - 1) *
                      (1 + (m : Int) - (j : Int) - 1)⟩ := by
              unfold loopStep
              simp only [Bool.false_eq_true, if_false]
              rw [hb2, hl]
            rw [hstep] at hrun
            have hLpos : (0 : Int) < 1 + (m : Int) - (j : Int) - 1 := by
              omega
            have hNc : (0 : Int) ≤ N - (1 + (m : Int)) := by omega
            have hskip0 : 0 ≤ Int.tdiv (N - (1 + (m : Int)))
                (1 + (m : Int) - (j : Int) - 1) :=
              Int.tdiv_nonneg hNc (le_of_lt hLpos)
            have hmul : Int.tdiv (N - (1 + (m : Int)))
                  (1 + (m : Int) - (j : Int) - 1) *
                  (1 + (m : Int) - (j : Int) - 1) ≤ N - (1 + (m : Int)) := by
              rw [Int.tdiv_eq_ediv hNc (le_of_lt hLpos)]
              exact Int.ediv_mul_le _ (by omega)
            have hfound := loop_found N g f _ (m + 1) rfl rfl
              (by
                show 1 + (m : Int) +
                    Int.tdiv (N - (1 + (m : Int)))
                      (1 + (m : Int) - (j : Int) - 1) *
                      (1 + (m : Int) - (j : Int) - 1) ≤ N
                linarith [hmul]) s2 hrun
            refine ⟨fun hf => ?_, fun _ => ?_⟩
            · rw [hfound.2] at hf
              exact absurd hf (by simp)
            · rw [hfound.1]
              have hSLnat : (Int.tdiv (N - (1 + (m : Int)))
                    (1 + (m : Int) - (j : Int) - 1) *
                    (1 + (m : Int) - (j : Int) - 1)).toNat =
                  (Int.tdiv (N - (1 + (m : Int)))
                    (1 + (m : Int) - (j : Int) - 1)).toNat * (m - j) := by
                rw [toNat_mul_nonneg hskip0 (le_of_lt hLpos)]
                congr 1
                omega
              have hr0 : (0 : Int) ≤ N - (1 + (m : Int) +
                  Int.tdiv (N - (1 + (m : Int)))
                    (1 + (m : Int) - (j : Int) - 1) *
                    (1 + (m : Int) - (j : Int) - 1)) := by
                linarith [hmul]
              show g.cycle ((m + 1) + (N - (1 + (m : Int) +
                  Int.tdiv (N - (1 + (m : Int)))
                    (1 + (m : Int) - (j : Int) - 1) *
                    (1 + (m : Int) - (j : Int) - 1))).toNat) =
                g.cycle N.toNat
              have hidx : N.toNat = ((m + 1) + (N - (1 + (m : Int) +
                  Int.tdiv (N - (1 + (m : Int)))
                    (1 + (m : Int) - (j : Int) - 1) *
                    (1 + (m : Int) - (j : Int) - 1))).toNat) +
                  (Int.tdiv (N - (1 + (m : Int)))
                    (1 + (m : Int) - (j : Int) - 1)).toNat * (m - j) := by
                rw [← hSLnat]
                generalize hgen : Int.tdiv (N - (1 + (m : Int)))
                    (1 + (m : Int) - (j : Int) - 1) *
                    (1 + (m : Int) - (j : Int) - 1) = SL at hmul hr0
                have hSL0 : (0 : Int) ≤ SL := by
                  rw [← hgen]
                  exact mul_nonneg hskip0 (le_of_lt hLpos)
                omega
              rw [hidx]
              exact (cycle_period_mul g (j + 1) (m - j) hperiod _
                ((m + 1) + _) (by omega)).symm
      · obtain rfl : (⟨g.cycle m, histList g m, false, 1 + (m : Int)⟩ :
            LoopState) = s2 := by
          simpa using hrun
        have hc2 : ¬((1 : Int) + m < N) := hc
        constructor
        · intro _
          show g.cycle m = g.cycle (N - 1).toNat
          have he : m = (N - 1).toNat := by
            rcases hm with rfl | hlt
            · simp at hc2 ⊢
              omega
            · omega
          exact congrArg g.cycle he
        · intro hf
          exact absurd hf (by simp)

/-- C1 (amended): Cycle-skip behaviour of `part02` with the budget
`N` substituted for 1,000,000,000, on square well-formed grids: whenever
the loop terminates *having detected a repeated fingerprint*, its final
grid is exactly `cycle(1)` applied `N` times brute-force; whenever it
terminates *without* detecting one, its final grid is `cycle(1)` applied
`N - 1` times.  (The unamended claim — that the result always equals the
`N`-fold application — fails on the no-detection path, see the
counterexample.) -/
theorem part02_cycle_skip (g : StonePulleyGrid) (hwf : g.WF) (hsq : g.Square)
    (N : Int) (fuel : Nat) (s2 : LoopState)
    (hrun : loopF N fuel (part02Init g) = some s2) :
    (s2.cycleFound = false → s2.board = g.cycle (N - 1).toNat) ∧
    (s2.cycleFound = true → s2.board = g.cycle N.toNat) := by
  have hsq2 : g.num_cols = g.num_rows := hsq.symm
  have hsh : Shaped g.stones g.num_rows g.num_rows := by
    have := wf_shaped hwf
    rw [hsq2] at this
    exact this
  have hinit : part02Init g =
      (⟨g.cycle 0, histList g 0, false, 1 + ((0 : Nat) : Int)⟩ : LoopState) := by
    rw [part02Init, histList_zero, cycle_zero]
    norm_num
  rw [hinit] at hrun
  exact loop_main g.num_rows g rfl hsq2 hsh N fuel 0 (Or.inl rfl) s2 hrun

/-- Witness for `part02_cycle_skip`: a budget-1 run exits immediately
with the starting grid, the 0-fold application. -/
theorem part02_cycle_skip_witness :
    ((part02Init (⟨2, 2, [[StoneType.Round, StoneType.Empty],
        [StoneType.Empty, StoneType.Empty]]⟩ :
        StonePulleyGrid)).cycleFound = false →
      (part02Init (⟨2, 2, [[StoneType.Round, StoneType.Empty],
        [StoneType.Empty, StoneType.Empty]]⟩ :
        StonePulleyGrid)).board =
        (⟨2, 2, [[StoneType.Round, StoneType.Empty],
          [StoneType.Empty, StoneType.Empty]]⟩ :
          StonePulleyGrid).cycle ((1 : Int) - 1).toNat) ∧
    ((part02Init (⟨2, 2, [[StoneType.Round, StoneType.Empty],
        [StoneType.Empty, StoneType.Empty]]⟩ :
        StonePulleyGrid)).cycleFound = true →
      (part02Init (⟨2, 2, [[StoneType.Round, StoneType.Empty],
        [StoneType.Empty, StoneType.Empty]]⟩ :
        StonePulleyGrid)).board =
        (⟨2, 2, [[StoneType.Round, StoneType.Empty],
          [StoneType.Empty, StoneType.Empty]]⟩ :
          StonePulleyGrid).cycle (1 : Int).toNat) :=
  part02_cycle_skip
    (⟨2, 2, [[StoneType.Round, StoneType.Empty],
      [StoneType.Empty, StoneType.Empty]]⟩ : StonePulleyGrid)
    ⟨rfl, by decide⟩ rfl 1 0 _ (by decide)

set_option maxRecDepth 8000 in
/-- C1 counterexample: with budget `N = 2` the loop terminates after a
single `cycle(1)` application, which differs from the two-fold
brute-force application on this grid — the loop is *not* equivalent to
`N` brute-force cycles for every `N`. -/
theorem part02_cycle_skip_cex :
    (loopF 2 10 (part02Init cexGrid)).map LoopState.board =
      some (cexGrid.cycle 1) ∧
    cexGrid.cycle 1 ≠ cexGrid.cycle 2 := by
  constructor <;> decide
